import Mathlib

/-!
# Polar-grid drivable-area extraction (`lidar_grid.cpp`)

A shallow embedding of `LidarCloudHandler::rasterization` and proofs about it.

Modelling conventions.

* `float`/`double` values are exact rationals (`ℚ`): a `float` parameter holds the
  single-precision value nearest to its decimal default, and the rounding of the
  arithmetic is not modelled.  A quotient whose divisor is zero has no value (IEEE NaN
  or infinity, whose conversion to `int` is undefined); such a result is `none`.
* `int` values are unbounded integers; `%` on `int` is truncated remainder (`Int.tmod`)
  and the cast `(int)` truncates toward zero.  The conversion of the radial quotient
  `floor(r/grid_size_r)` to `int` is defined only inside the range of `int`
  (`floorToInt`).
* The array `Grid grid[R][TH]` is a function on all pairs of integer indices.  The real
  array is the window `0 ≤ a < R`, `0 ≤ t < TH`; an access outside the window reads or
  writes a cell outside the window.
* The `for(int m=1; ...; ++m)` scan of the width clipping has no bound of its own; it is
  run with a fuel argument and yields `none` when the fuel runs out.
* `sqrt` and `acos` of `<cmath>` are parameters (`Libm`).
-/

namespace LidarGrid

/-! ## Data model -/

/-- The point type `pcl::PointXYZ`. -/
structure PointXYZ where
  x : ℚ
  y : ℚ
  z : ℚ
deriving DecidableEq

/-- The class `Grid` (lines 18-26): one cell of the polar grid. The default values are
those of the constructor. -/
structure Grid where
  grid_cloud_ptr : List PointXYZ := []
  IsDrivable : Bool := false
  IsChecked : Bool := false
deriving DecidableEq

/-- The array `Grid grid[R][TH]` (line 116), indexed by radial and angular index. -/
abbrev PolarGrid := Int → Int → Grid

/-- The parameters of `LidarCloudHandler` (lines 42-53) that are read from the
parameter server. -/
structure Config where
  R : Nat
  TH : Nat
  grid_size_r : ℚ
  grid_size : ℚ
  threshold : ℚ
  cut_width : ℚ
  y_width : Int
  x_forward : Int
  x_backward : Int
  RANSAC_threshold : ℚ

/-- The constant `M_PI` of `<cmath>`: the double nearest to π. -/
def M_PI : ℚ := 884279719003555 / 281474976710656

/-- Line 77: `grid_size_th = 2*M_PI/TH`. -/
def Config.grid_size_th (c : Config) : ℚ := 2 * M_PI / (c.TH : ℚ)

/-- Line 78: `radius = R*grid_size_r`. -/
def Config.radius (c : Config) : ℚ := (c.R : ℚ) * c.grid_size_r

/-- The default parameter values (lines 67-76). The `float` parameters hold the
single-precision values nearest to the decimal defaults `0.4`, `0.2`, `0.15`, `1.7`
and `0.2`. -/
def defaultConfig : Config where
  R := 60
  TH := 180
  grid_size_r := 13421773 / 33554432
  grid_size := 13421773 / 67108864
  threshold := 5033165 / 33554432
  cut_width := 7130317 / 4194304
  y_width := 50
  x_forward := 100
  x_backward := 0
  RANSAC_threshold := 13421773 / 67108864

/-- The cast `(int)q` of a floating-point value: truncation toward zero. -/
def castInt (q : ℚ) : Int := Int.tdiv q.num (q.den : Int)

/-- The freshly constructed grid: every cell empty, not drivable, not checked. -/
def emptyGrid : PolarGrid := fun _ _ => {}

/-- The assignment `grid[a][t].IsDrivable = b`. -/
def setDrivable (g : PolarGrid) (a t : Int) (b : Bool) : PolarGrid :=
  fun a2 t2 => if a2 = a ∧ t2 = t then { g a2 t2 with IsDrivable := b } else g a2 t2

/-- The assignment `grid[a][t].IsChecked = b`. -/
def setChecked (g : PolarGrid) (a t : Int) (b : Bool) : PolarGrid :=
  fun a2 t2 => if a2 = a ∧ t2 = t then { g a2 t2 with IsChecked := b } else g a2 t2

/-! ## Width clipping (lines 312-392) -/

/-- The local variables of the scan (lines 313-318), together with the grid. -/
structure ScanState where
  grid : PolarGrid
  cnt : Nat
  left_flag : Bool
  right_flag : Bool
  left_cut : Nat
  right_cut : Nat

/-- The values the scan variables have when a scan starts: their initial values
(lines 313-318), restored after every scan (lines 386-390). -/
def ScanState.start (g : PolarGrid) : ScanState :=
  { grid := g, cnt := 1, left_flag := false, right_flag := false, left_cut := 0, right_cut := 0 }

/-- The loop condition of line 331: `i*grid_size_r*grid_size_th*cnt < cut_width`. -/
def narrow (c : Config) (i cnt : Nat) : Bool :=
  decide ((i : ℚ) * c.grid_size_r * c.grid_size_th * (cnt : ℚ) < c.cut_width)

/-- Line 335: `(j+m) % TH`. -/
def leftCol (c : Config) (j m : Nat) : Int := Int.tmod ((j : Int) + (m : Int)) (c.TH : Int)

/-- Line 349: `(j-m+TH) % TH`. -/
def rightCol (c : Config) (j m : Nat) : Int :=
  Int.tmod ((j : Int) - (m : Int) + (c.TH : Int)) (c.TH : Int)

/-- Lines 333-346: the step to the left at distance `m`. -/
def scanLeft (c : Config) (i j m : Nat) (s : ScanState) : ScanState :=
  if s.left_flag = false then
    if (s.grid i (leftCol c j m)).IsDrivable then
      { s with grid := setChecked s.grid i (leftCol c j m) true, cnt := s.cnt + 1 }
    else
      { s with left_cut := m - 1, left_flag := true }
  else s

/-- Lines 347-360: the step to the right at distance `m`. -/
def scanRight (c : Config) (i j m : Nat) (s : ScanState) : ScanState :=
  if s.right_flag = false then
    if (s.grid i (rightCol c j m)).IsDrivable then
      { s with grid := setChecked s.grid i (rightCol c j m) true, cnt := s.cnt + 1 }
    else
      { s with right_cut := m - 1, right_flag := true }
  else s

/-- The inner loops `for(n=i; n<R; ++n) grid[n][t].IsDrivable = false` (lines 363-366,
370-373, 378-381): column `t` is cleared from ring `i` outward. -/
def cutColumn (c : Config) (i : Nat) (t : Int) (g : PolarGrid) : PolarGrid :=
  (List.range (c.R - i)).foldl (fun g k => setDrivable g ((i + k : Nat) : Int) t false) g

/-- Lines 363-382: the cut of the origin column, of `left_cut` columns to the left and of
`right_cut` columns to the right. -/
def cutWedge (c : Config) (i j : Nat) (s : ScanState) : PolarGrid :=
  let g0 := cutColumn c i (j : Int) s.grid
  let g1 := (List.range s.left_cut).foldl (fun g k => cutColumn c i (leftCol c j (k + 1)) g) g0
  (List.range s.right_cut).foldl (fun g k => cutColumn c i (rightCol c j (k + 1)) g) g1

/-- The scan loop of lines 331-385, from step `m` on. The result is the grid when the loop
is left, either by its condition or by the `break` after the cut; `none` when the fuel is
used up first. -/
def scanLoop (c : Config) (i j : Nat) : Nat → Nat → ScanState → Option PolarGrid
  | 0, _, _ => none
  | fuel + 1, m, s =>
    if narrow c i s.cnt then
      let s2 := scanRight c i j m (scanLeft c i j m s)
      if s2.left_flag && s2.right_flag then
        some (cutWedge c i j s2)
      else
        scanLoop c i j fuel (m + 1) s2
    else
      some s.grid

/-- Line 323: `(int)(1.6/grid_size_r)`, the first ring that is clipped. -/
def Config.minRing (c : Config) : Int := castInt ((8 / 5 : ℚ) / c.grid_size_r)

/-- The body of the loop over `j` (lines 323-390) at cell `(i, j)`. -/
def clipCell (c : Config) (fuel i j : Nat) (g : PolarGrid) : Option PolarGrid :=
  if (i : Int) < c.minRing ∨ (g i j).IsDrivable = false then
    some g
  else if (g i j).IsChecked then
    some g
  else
    scanLoop c i j fuel 1 (ScanState.start g)

/-- The loop over `j` (line 321) for ring `i`. -/
def clipRing (c : Config) (fuel i : Nat) (g : PolarGrid) : Option PolarGrid :=
  (List.range c.TH).foldlM (fun g j => clipCell c fuel i j g) g

/-- The width clipping of lines 319-392. -/
def widthClip (c : Config) (fuel : Nat) (g : PolarGrid) : Option PolarGrid :=
  (List.range c.R).foldlM (fun g i => clipRing c fuel i g) g

/-- A small grid for tests: ring-independent, drivable exactly at the listed columns. -/
def columnsGrid (cols : List Int) : PolarGrid :=
  fun _ t => { IsDrivable := decide (t ∈ cols) }

/-- A small configuration for tests: 3 rings, 8 sectors. -/
def smallConfig : Config where
  R := 3
  TH := 8
  grid_size_r := 1
  grid_size := 1
  threshold := 3 / 20
  cut_width := 3
  y_width := 2
  x_forward := 2
  x_backward := 0
  RANSAC_threshold := 1 / 5

/-- The columns cleared by `cutWedge`. -/
def WedgeCol (c : Config) (j : Nat) (s : ScanState) (u : Int) : Prop :=
  u = (j : Int) ∨ (∃ k, k < s.left_cut ∧ u = leftCol c j (k + 1))
    ∨ (∃ k, k < s.right_cut ∧ u = rightCol c j (k + 1))

/-- Going left from column `j` in ring `i`, exactly `L` cells are drivable before the first
cell that is not. -/
def LeftReach (c : Config) (g : PolarGrid) (i j L : Nat) : Prop :=
  (∀ k, 1 ≤ k → k ≤ L → (g i (leftCol c j k)).IsDrivable = true)
    ∧ (g i (leftCol c j (L + 1))).IsDrivable = false

/-- Going right from column `j` in ring `i`, exactly `Rr` cells are drivable before the
first cell that is not. -/
def RightReach (c : Config) (g : PolarGrid) (i j Rr : Nat) : Prop :=
  (∀ k, 1 ≤ k → k ≤ Rr → (g i (rightCol c j k)).IsDrivable = true)
    ∧ (g i (rightCol c j (Rr + 1))).IsDrivable = false

/-- The columns at distance `1..L` to the left and `1..Rr` to the right of column `j`. -/
def SideCol (c : Config) (j L Rr : Nat) (u : Int) : Prop :=
  (∃ k, 1 ≤ k ∧ k ≤ L ∧ u = leftCol c j k) ∨ (∃ k, 1 ≤ k ∧ k ≤ Rr ∧ u = rightCol c j k)

/-- The state of a scan of ring `i` from column `j` whose left side has done the steps
below `ml` and whose right side has done the steps below `mr`, in a ring with reaches `L`
and `Rr`, started on grid `g`. -/
structure ScanInv (c : Config) (g : PolarGrid) (i j L Rr ml mr : Nat) (s : ScanState) :
    Prop where
  drv : ∀ n u, (s.grid n u).IsDrivable = (g n u).IsDrivable
  chk : ∀ n u, (s.grid n u).IsChecked = true →
    (g n u).IsChecked = true ∨ (n = (i : Int) ∧ SideCol c j L Rr u)
  lflag : s.left_flag = decide (L + 1 < ml)
  lcut : L + 1 < ml → s.left_cut = L
  rflag : s.right_flag = decide (Rr + 1 < mr)
  rcut : Rr + 1 < mr → s.right_cut = Rr
  cnt : s.cnt = 1 + min (ml - 1) L + min (mr - 1) Rr

/-- The outcome of a scan of ring `i` from column `j` with reaches `L` and `Rr`: the wedge
is cut exactly when the whole run is narrow. -/
structure ScanPost (c : Config) (g : PolarGrid) (i j L Rr : Nat) (g' : PolarGrid) :
    Prop where
  cut : narrow c i (1 + L + Rr) = true → ∀ n u, (i : Int) ≤ n → n < (c.R : Int) →
    (u = (j : Int) ∨ SideCol c j L Rr u) → (g' n u).IsDrivable = false
  keep : narrow c i (1 + L + Rr) = true → ∀ n u,
    ¬ (((i : Int) ≤ n ∧ n < (c.R : Int)) ∧ (u = (j : Int) ∨ SideCol c j L Rr u)) →
    (g' n u).IsDrivable = (g n u).IsDrivable
  same : narrow c i (1 + L + Rr) = false → ∀ n u, (g' n u).IsDrivable = (g n u).IsDrivable
  chk : ∀ n u, (g' n u).IsChecked = true →
    (g n u).IsChecked = true ∨ (n = (i : Int) ∧ SideCol c j L Rr u)

/-- Column `(a + k) % TH` of the real array. -/
def runCol (TH a k : Nat) : Int := (((a + k) % TH : Nat) : Int)

/-- Columns `a, a+1, ..., a+N-1` (modulo `TH`) are a maximal contiguous run of drivable
cells of ring `i`: they are drivable and the two cells next to the run are not. -/
def IsMaxRun (g : PolarGrid) (TH i a N : Nat) : Prop :=
  a < TH ∧ 0 < N ∧ (∀ k, k < N → (g i (runCol TH a k)).IsDrivable = true)
    ∧ (g i (runCol TH a N)).IsDrivable = false
    ∧ (g i (runCol TH a (TH - 1))).IsDrivable = false

instance (g : PolarGrid) (TH i a N : Nat) : Decidable (IsMaxRun g TH i a N) := by
  unfold IsMaxRun
  infer_instance

/-- Column `u` belongs to the run of `N` cells that starts at column `a`. -/
def InRun (TH a N : Nat) (u : Int) : Prop := ∃ k, k < N ∧ u = runCol TH a k

/-- The outcome of a scan started inside the maximal run `(a, N)` of ring `i`. -/
structure RunPost (c : Config) (g : PolarGrid) (i a N : Nat) (g' : PolarGrid) : Prop where
  cut : narrow c i N = true → ∀ n u, (i : Int) ≤ n → n < (c.R : Int) → InRun c.TH a N u →
    (g' n u).IsDrivable = false
  keep : narrow c i N = true → ∀ n u,
    ¬ (((i : Int) ≤ n ∧ n < (c.R : Int)) ∧ InRun c.TH a N u) →
    (g' n u).IsDrivable = (g n u).IsDrivable
  same : narrow c i N = false → ∀ n u, (g' n u).IsDrivable = (g n u).IsDrivable
  chk : ∀ n u, (g' n u).IsChecked = true →
    (g n u).IsChecked = true ∨ (n = (i : Int) ∧ InRun c.TH a N u)

/-- The state of the pass over ring `i` when the columns below `j` are done: every narrow
maximal run of ring `i` lies in the columns from `j` on and carries no checked mark. -/
def RingInv (c : Config) (i j : Nat) (g : PolarGrid) : Prop :=
  ∀ a N, IsMaxRun g c.TH i a N → narrow c i N = true →
    ∀ k, k < N → (j : Int) ≤ runCol c.TH a k ∧ (g i (runCol c.TH a k)).IsChecked = false

/-- The rings below `i` keep their drivable flags and all rings but `i` keep their
checked marks. -/
def Frame (i : Nat) (g g' : PolarGrid) : Prop :=
  (∀ n u, n < (i : Int) → (g' n u).IsDrivable = (g n u).IsDrivable)
    ∧ (∀ n u, n ≠ (i : Int) → (g' n u).IsChecked = (g n u).IsChecked)

/-- The state of the width clipping when the rings below `k` are done. -/
def ClipInv (c : Config) (k : Nat) (g : PolarGrid) : Prop :=
  (∀ n u, (k : Int) ≤ n → (g n u).IsChecked = false)
    ∧ (∀ i, i < k → c.minRing ≤ (i : Int) → ∀ a N, IsMaxRun g c.TH i a N →
        narrow c i N = false)

/-- The drivable set of `g2` is contained in that of `g1`. -/
def DrivableLe (g1 g2 : PolarGrid) : Prop :=
  ∀ n u, (g2 n u).IsDrivable = true → (g1 n u).IsDrivable = true

/-! ## Polar indices (lines 123-135, 242-251, 408-419) -/

/-- The functions `sqrt` and `acos` of `<cmath>`, on floating-point values. -/
structure Libm where
  sqrt : ℚ → ℚ
  acos : ℚ → ℚ

/-- Lines 126-133 (and 244-251, 410-417): `th = acos(x/r)`, reflected to `2*M_PI-th` when
`neg` holds, and `t = (int)floor(th/grid_size_th) % TH`. For `r = 0` the quotient `x/r` is
not a number and the conversion to `int` has no defined value. -/
def angleIndex (M : Libm) (c : Config) (x r : ℚ) (neg : Bool) : Option Int :=
  if r = 0 then none
  else
    let th := M.acos (x / r)
    let th := if neg then 2 * M_PI - th else th
    some (Int.tmod (Rat.floor (th / c.grid_size_th)) (c.TH : Int))

/-- The assignment `int a = floor(q)`: the floor of `q` when it lies in the range of `int`;
outside the range the conversion has no defined value. -/
def floorToInt (q : ℚ) : Option Int :=
  if -2147483648 ≤ Rat.floor q ∧ Rat.floor q ≤ 2147483647 then some (Rat.floor q) else none

/-- Lines 134-135 (and 418-419): `a = floor(r/grid_size_r); a = a >= R ? R-1 : a`. For
`grid_size_r = 0` the quotient is infinite or not a number, and for a quotient outside the
range of `int` the conversion is undefined. -/
def radialIndex (c : Config) (r : ℚ) : Option Int :=
  if c.grid_size_r = 0 then none
  else
    (floorToInt (r / c.grid_size_r)).map
      (fun a => if (c.R : Int) ≤ a then (c.R : Int) - 1 else a)

/-- The indices `(a, t)` that lines 123-135 compute for a point. -/
def polarIndex (M : Libm) (c : Config) (p : PointXYZ) : Option (Int × Int) :=
  (angleIndex M c p.x (M.sqrt (p.x * p.x + p.y * p.y)) (decide (p.y < 0))).bind
    (fun t => (radialIndex c (M.sqrt (p.x * p.x + p.y * p.y))).map (fun a => (a, t)))

/-! ## Polar binning (lines 116-137) -/

/-- The statement `grid[a][t].grid_cloud_ptr_ptr->points.push_back(p)`. -/
def pushPoint (g : PolarGrid) (a t : Int) (p : PointXYZ) : PolarGrid :=
  fun a2 t2 =>
    if a2 = a ∧ t2 = t then { g a2 t2 with grid_cloud_ptr := (g a2 t2).grid_cloud_ptr ++ [p] }
    else g a2 t2

/-- The body of the loop of lines 121-137 for one point. -/
def binPoint (M : Libm) (c : Config) (g : PolarGrid) (p : PointXYZ) : Option PolarGrid :=
  (polarIndex M c p).map (fun at_ => pushPoint g at_.1 at_.2 p)

/-- The loop of lines 121-137 over the input cloud, on the fresh grid. -/
def PolarBinner (M : Libm) (c : Config) (cloud : List PointXYZ) : Option PolarGrid :=
  cloud.foldlM (binPoint M c) emptyGrid

/-! ## Ground / obstacle split (lines 140-203) -/

/-- The value `maxpoint.z - minpoint.z` of `pcl::getMinMax3D` on a non-empty cell. -/
def zSpan : List PointXYZ → ℚ
  | [] => 0
  | p :: ps => ps.foldl (fun m q => max m q.z) p.z - ps.foldl (fun m q => min m q.z) p.z

/-- Lines 147-166 for one cell: the pair is (`cloud_temp`, `cloud_obstacle`). -/
def splitCell (c : Config) (acc : List PointXYZ × List PointXYZ) (cell : Grid) :
    List PointXYZ × List PointXYZ :=
  if 0 < cell.grid_cloud_ptr.length then
    if zSpan cell.grid_cloud_ptr < c.threshold then (acc.1 ++ cell.grid_cloud_ptr, acc.2)
    else (acc.1, acc.2 ++ cell.grid_cloud_ptr)
  else acc

/-- Lines 143-168: the ground candidates and the obstacle points of the binned grid. -/
def heightSplit (c : Config) (g : PolarGrid) : List PointXYZ × List PointXYZ :=
  (List.range c.R).foldl
    (fun acc (i : Nat) =>
      (List.range c.TH).foldl (fun acc (j : Nat) => splitCell c acc (g i j)) acc) ([], [])

/-- `pcl::ExtractIndices` with `setNegative(false)`: the points at the given indices. -/
def extractIndices (cloud : List PointXYZ) (indices : List Nat) : List PointXYZ :=
  indices.filterMap (fun k => cloud[k]?)

/-- `pcl::ExtractIndices` with `setNegative(true)`: the points at all other indices. -/
def extractNegative (cloud : List PointXYZ) (indices : List Nat) : List PointXYZ :=
  (List.range cloud.length).filterMap (fun k => if k ∈ indices then none else cloud[k]?)

/-- Lines 187-193: `ave = sum/len` over the ground cloud. For `len = 0` the quotient `0/0`
is not a number (`none`). -/
def meanGround (ground : List PointXYZ) : Option ℚ :=
  if ground.length = 0 then none
  else some (ground.foldl (fun sum p => sum + p.z) 0 / (ground.length : ℚ))

/-! ## Ultrasonic points (lines 205-225) -/

/-- The body of the loop of lines 208-225 for sensor `i`; the state is the obstacle cloud
and the variable `ultrasonic_point`. -/
def fuseSensor (left_ultrasonic right_ultrasonic : Nat → ℚ)
    (st : List PointXYZ × PointXYZ) (i : Nat) : List PointXYZ × PointXYZ :=
  let pt : PointXYZ :=
    match i with
    | 0 => { st.2 with x := 9 / 10 }
    | 1 => { st.2 with x := 13 / 20 }
    | 2 => { st.2 with x := -3 / 10 }
    | 3 => { st.2 with x := -21 / 20 }
    | _ => st.2
  let st1 : List PointXYZ × PointXYZ :=
    if 0 < left_ultrasonic i ∧ left_ultrasonic i < 5 then
      (st.1 ++ [{ pt with y := 3 / 4 + left_ultrasonic i }],
        { pt with y := 3 / 4 + left_ultrasonic i })
    else (st.1, pt)
  if 0 < right_ultrasonic i ∧ right_ultrasonic i < 5 then
    (st1.1 ++ [{ st1.2 with y := -3 / 4 - right_ultrasonic i }],
      { st1.2 with y := -3 / 4 - right_ultrasonic i })
  else st1

/-- Lines 206-225: the obstacle cloud with the ultrasonic points appended. -/
def ProximityFuser (left_ultrasonic right_ultrasonic : Nat → ℚ) (cloud : List PointXYZ) :
    List PointXYZ :=
  ((List.range 4).foldl (fuseSensor left_ultrasonic right_ultrasonic)
    (cloud, { x := 0, y := 0, z := 0 })).1

/-! ## Sector rebinning (lines 227-253) -/

/-- The array `Grid obstacle[TH]`, reduced to the point list of each sector. -/
abbrev Sectors := Int → List PointXYZ

/-- The body of the loop of lines 232-253 for one obstacle point. -/
def rebinPoint (M : Libm) (c : Config) (obstacle : Sectors) (p : PointXYZ) : Option Sectors :=
  if c.x_backward = 0 ∧ p.x < 0 then some obstacle
  else
    (angleIndex M c p.x (M.sqrt (p.x * p.x + p.y * p.y)) (decide (p.y < 0))).map
      (fun t => fun t2 => if t2 = t then obstacle t2 ++ [p] else obstacle t2)

/-- Lines 232-253: the obstacle points by sector. -/
def rebin (M : Libm) (c : Config) (cloud : List PointXYZ) : Option Sectors :=
  cloud.foldlM (rebinPoint M c) (fun _ => [])

/-! ## Boundary extraction (lines 254-310)

The boundary cloud `cloud_boundary_ptr` and the assignment of `ave` to the `z` of the
nearest point (lines 269-274, 299-300) are left out: nothing reads them afterwards. -/

/-- The score `fabs(x) + fabs(y)` of line 286. -/
def score (p : PointXYZ) : ℚ := |p.x| + |p.y|

/-- The body of the loop of lines 284-297 at index `i`; the state is (`min`, `min_idx`). -/
def minStep (st : ℚ × Nat) (i : Nat) (p : PointXYZ) : ℚ × Nat :=
  let st1 : ℚ × Nat := if i = 0 then (score p, i) else st
  if score p < st1.1 then (score p, i) else st1

/-- The loop of lines 284-297 from index `i` on. -/
def minScan : Nat → List PointXYZ → ℚ × Nat → ℚ × Nat
  | _, [], st => st
  | i, p :: ps, st => minScan (i + 1) ps (minStep st i p)

/-- The loops `for(int i=0; i<n; ++i) grid[i][j].IsDrivable = true` of lines 275-278 and
306-309. -/
def markColumn (g : PolarGrid) (j : Nat) (n : Nat) : PolarGrid :=
  (List.range n).foldl (fun g (i : Nat) => setDrivable g (i : Int) (j : Int) true) g

/-- The grid and the variables `min`, `min_idx` during boundary extraction. -/
structure ExtractState where
  grid : PolarGrid
  min : ℚ
  min_idx : Nat

/-- The body of the loop of lines 255-310 for sector `j`. -/
def extractSector (M : Libm) (c : Config) (obstacle : Sectors) (st : ExtractState) (j : Nat) :
    ExtractState :=
  if c.x_backward = 0 ∧ (c.TH / 4 ≤ j ∧ j < c.TH / 4 * 3) then st
  else if (obstacle j).length = 0 then
    { st with grid := markColumn st.grid j c.R }
  else
    let mn := minScan 0 (obstacle j) (st.min, st.min_idx)
    let p := (obstacle j).getD mn.2 { x := 0, y := 0, z := 0 }
    let r := M.sqrt (p.x * p.x + p.y * p.y)
    { grid := markColumn st.grid j (Rat.floor (r / c.grid_size_r)).toNat,
      min := mn.1, min_idx := mn.2 }

/-- Lines 255-310: boundary extraction on the binned grid. -/
def SectorBoundaryExtractor (M : Libm) (c : Config) (obstacle : Sectors) (g : PolarGrid) :
    PolarGrid :=
  ((List.range c.TH).foldl (extractSector M c obstacle) { grid := g, min := 0, min_idx := 0 }).grid

/-! ## Projection to the Cartesian grid (lines 394-440) -/

/-- The message type `geometry_msgs::Point`; `z` carries `ave`, which is not a number
(`none`) when the ground cloud is empty. -/
structure Point where
  x : ℚ
  y : ℚ
  z : Option ℚ
deriving DecidableEq

/-- The values `lo, lo+1, ..., hi` of a loop `for(int i=lo; i<=hi; ++i)`. -/
def intRange (lo hi : Int) : List Int :=
  (List.range (hi + 1 - lo).toNat).map (fun (k : Nat) => lo + (k : Int))

/-- Lines 420-430: the correction of `t` at the two ends of the skipped rear sectors. -/
def seamFix (c : Config) (t : Int) : Int :=
  if c.x_backward = 0 then
    if t = ((c.TH / 4 : Nat) : Int) then t - 1
    else if t = ((c.TH / 4 * 3 : Nat) : Int) - 1 then ((c.TH / 4 * 3 : Nat) : Int)
    else t
  else t

/-- Lines 408-430: the polar cell `(a, t)` that cell `(i, j)` of the Cartesian grid is
looked up in. -/
def resolveCell (M : Libm) (c : Config) (i j : Int) : Option (Int × Int) :=
  (angleIndex M c (c.grid_size * i)
      (M.sqrt (c.grid_size * i * (c.grid_size * i) + c.grid_size * j * (c.grid_size * j)))
      (decide (j < 0))).bind
    (fun t => (radialIndex c
      (M.sqrt (c.grid_size * i * (c.grid_size * i) + c.grid_size * j * (c.grid_size * j)))).map
      (fun a => (a, seamFix c t)))

/-- The body of the inner loop of lines 397-439 at cell `(i, j)`; `cells` is
`grid_cell.cells`. -/
def projectCell (M : Libm) (c : Config) (g : PolarGrid) (ave : Option ℚ) (j : Int)
    (cells : List Point) (i : Int) : Option (List Point) :=
  if i = 0 ∧ j = 0 then some (cells ++ [{ x := 0, y := 0, z := ave }])
  else
    (resolveCell M c i j).map (fun at_ =>
      if (g at_.1 at_.2).IsDrivable then
        cells ++ [{ x := c.grid_size * i, y := c.grid_size * j, z := ave }]
      else cells)

/-- Lines 395-440: the emitted cells. -/
def CartesianProjector (M : Libm) (c : Config) (g : PolarGrid) (ave : Option ℚ) :
    Option (List Point) :=
  (intRange (-c.y_width) c.y_width).foldlM
    (fun cells j =>
      (intRange (-c.x_backward) c.x_forward).foldlM (projectCell M c g ave j) cells) []

/-! ## The whole frame (lines 99-447) -/

/-- What one call of `rasterization` publishes: the grid cells and the ground height. -/
structure Output where
  cells : List Point
  ground_z : Option ℚ

/-- The callback `rasterization`. `segment` is the plane fit of lines 171-180
(`pcl::SACSegmentation`, an external library): it returns the indices of the inliers. -/
def rasterization (M : Libm) (segment : List PointXYZ → List Nat) (c : Config)
    (left_ultrasonic right_ultrasonic : Nat → ℚ) (fuel : Nat) (cloud : List PointXYZ) :
    Option Output := do
  let grid ← PolarBinner M c cloud
  let split := heightSplit c grid
  let inliers := segment split.1
  let ground := extractIndices split.1 inliers
  let ave := meanGround ground
  let obstacles :=
    ProximityFuser left_ultrasonic right_ultrasonic (split.2 ++ extractNegative split.1 inliers)
  let obstacle ← rebin M c obstacles
  let grid1 := SectorBoundaryExtractor M c obstacle grid
  let grid2 ← widthClip c fuel grid1
  let cells ← CartesianProjector M c grid2 ave
  pure { cells := cells, ground_z := ave }

/-- Values of `sqrt` and `acos` at the arguments that occur in the examples of this file
(the square roots to six decimals, the angles to seven, rounded to nearest); any other argument
gets a placeholder inside the range of the function. The angle of the argument
`1000000/1414214`, which is slightly below `cos(π/4)`, is slightly above `M_PI/4`. -/
def exampleLibm : Libm where
  sqrt := fun s =>
    if s = 0 then 0 else if s = 9 then 3 else if s = 324 / 25 then 18 / 5
    else if s = 1369 / 100 then 37 / 10
    else if s = 12967201 / 1006009 then 3601 / 1003
    else if s = 2 then 1414214 / 1000000
    else if s = 5 / 4 then 1118034 / 1000000
    else if s = 13 / 16 then 901388 / 1000000
    else if s = 17 / 16 then 1030776 / 1000000 else 1
  acos := fun v =>
    if v = 1 then 0 else if v = 3599 / 3601 then 333302 / 10000000
    else if v = 1000000 / 1118034 then 4636476 / 10000000
    else if v = 750000 / 901388 then 5880029 / 10000000
    else if v = 1000000 / 1030776 then 2449771 / 10000000
    else if v = 1000000 / 1414214 then 7853985 / 10000000
    else if v = -1000000 / 1414214 then 23561942 / 10000000
    else if v = -1 then M_PI else M_PI / 2

/-- Point `p` at index `k` is the first point of `pts`, in insertion order, whose score
`|x| + |y|` is minimal: no point of `pts` has a smaller score and every earlier point has
a larger one. -/
def IsNearest (pts : List PointXYZ) (k : Nat) (p : PointXYZ) : Prop :=
  pts[k]? = some p ∧ (∀ q, q ∈ pts → |p.x| + |p.y| ≤ |q.x| + |q.y|)
    ∧ (∀ k2 q, k2 < k → pts[k2]? = some q → |p.x| + |p.y| < |q.x| + |q.y|)

/-- The cutoff `floor(r / grid_size_r)` of the obstacle point `p` is defined and inside the
grid: the radial width is not 0, the quotient lies in the range of `int`, and it is at
most `R`, so that the marking loop of lines 306-309 stays inside `grid[R][TH]`. -/
def CutoffInGrid (M : Libm) (c : Config) (p : PointXYZ) : Prop :=
  c.grid_size_r ≠ 0
    ∧ -2147483648 ≤ Rat.floor (M.sqrt (p.x * p.x + p.y * p.y) / c.grid_size_r)
    ∧ Rat.floor (M.sqrt (p.x * p.x + p.y * p.y) / c.grid_size_r) ≤ (c.R : Int)
    ∧ (c.R : Int) ≤ 2147483647

/-- The number of rows that boundary extraction marks drivable in sector `j`. -/
def sectorRows (M : Libm) (c : Config) (obstacle : Sectors) (j : Nat) : Nat :=
  if c.x_backward = 0 ∧ (c.TH / 4 ≤ j ∧ j < c.TH / 4 * 3) then 0
  else if (obstacle j).length = 0 then c.R
  else
    (Rat.floor (M.sqrt
      (((obstacle j).getD (minScan 0 (obstacle j) (0, 0)).2 { x := 0, y := 0, z := 0 }).x
          * ((obstacle j).getD (minScan 0 (obstacle j) (0, 0)).2 { x := 0, y := 0, z := 0 }).x
        + ((obstacle j).getD (minScan 0 (obstacle j) (0, 0)).2 { x := 0, y := 0, z := 0 }).y
          * ((obstacle j).getD (minScan 0 (obstacle j) (0, 0)).2 { x := 0, y := 0, z := 0 }).y)
      / c.grid_size_r)).toNat

/-- The sectors of the example of C4: one obstacle point at radius 3 in sector 0. -/
def oneObstacle : Sectors := fun t => if t = 0 then [{ x := 3, y := 0, z := 0 }] else []

/-- An obstacle point on the x axis at radius 3.6. -/
def nearPoint : PointXYZ := { x := 18 / 5, y := 0, z := 0 }

/-- The obstacle point of the example of C5 that has the smaller score: on the x axis at
radius 3.7. -/
def frontPoint : PointXYZ := { x := 37 / 10, y := 0, z := 0 }

instance (M : Libm) (c : Config) (p : PointXYZ) : Decidable (CutoffInGrid M c p) := by
  unfold CutoffInGrid
  infer_instance

/-- The obstacle point of the example of C5 that has the smaller radius: at radius
`3601/1003 ≈ 3.59` and angle `acos(3599/3601) ≈ 1.9°`, inside sector 0 of 180. -/
def skewPoint : PointXYZ := { x := 3599 / 1003, y := 120 / 1003, z := 0 }

/-! ## The projection as the specification words it -/

/-- The cells `(i, j)` of the Cartesian grid in the order of the loops: lateral index `j`
ascending from `-y_width` to `y_width` (outer), longitudinal index `i` ascending from
`-x_backward` to `x_forward` (inner). -/
def gridCells (c : Config) : List (Int × Int) :=
  (intRange (-c.y_width) c.y_width).flatMap
    (fun j => (intRange (-c.x_backward) c.x_forward).map (fun i => (i, j)))

/-- The radius of the centre `(grid_size * i, grid_size * j)` of cell `(i, j)`. -/
def specRadius (M : Libm) (c : Config) (ij : Int × Int) : ℚ :=
  M.sqrt (c.grid_size * ij.1 * (c.grid_size * ij.1) + c.grid_size * ij.2 * (c.grid_size * ij.2))

/-- The radial index of the resolved polar cell: the radial bin `floor(r / grid_size_r)` of
the cell centre, clamped to `R - 1`. -/
def specRadial (M : Libm) (c : Config) (ij : Int × Int) : Int :=
  min (Rat.floor (specRadius M c ij / c.grid_size_r)) ((c.R : Int) - 1)

/-- The angle of the cell centre, counted from the positive `x` axis in `[0, 2π]`:
`acos(x / r)` for `j ≥ 0` and `2π - acos(x / r)` for `j < 0`. -/
def specAngle (M : Libm) (c : Config) (ij : Int × Int) : ℚ :=
  if ij.2 < 0 then 2 * M_PI - M.acos (c.grid_size * ij.1 / specRadius M c ij)
  else M.acos (c.grid_size * ij.1 / specRadius M c ij)

/-- The angular index as in binning: the angular bin `floor(θ / (2π / TH))`, reduced
modulo `TH` (the remainder of the division by `TH`). -/
def specAngular (M : Libm) (c : Config) (ij : Int × Int) : Int :=
  Int.tmod (Rat.floor (specAngle M c ij / (2 * M_PI / (c.TH : ℚ)))) (c.TH : Int)

/-- The one-bin seam correction when the backward extent is 0: the first skipped sector
`TH/4` is replaced by the sector before it, and the last skipped sector `3 * (TH/4) - 1`
by the sector after it. -/
def specSeam (c : Config) (t : Int) : Int :=
  if c.x_backward = 0 ∧ t = ((c.TH / 4 : Nat) : Int) then ((c.TH / 4 : Nat) : Int) - 1
  else if c.x_backward = 0 ∧ t = 3 * ((c.TH / 4 : Nat) : Int) - 1 then
    3 * ((c.TH / 4 : Nat) : Int)
  else t

/-- The polar cell of cell `(i, j)` can be resolved: the radius of the cell centre and the
radial width are not 0 (else the angle or the radial quotient is infinite or not a number)
and the radial quotient is in the range of `int`. -/
def Resolvable (M : Libm) (c : Config) (ij : Int × Int) : Prop :=
  specRadius M c ij ≠ 0 ∧ c.grid_size_r ≠ 0
    ∧ -2147483648 ≤ Rat.floor (specRadius M c ij / c.grid_size_r)
    ∧ Rat.floor (specRadius M c ij / c.grid_size_r) ≤ 2147483647

instance (M : Libm) (c : Config) (ij : Int × Int) : Decidable (Resolvable M c ij) := by
  unfold Resolvable
  infer_instance

/-- Cell `(i, j)` is emitted: it is the origin, or its resolved polar cell (radial index
clamped to `R - 1`, angular index as in binning, seam correction) is drivable. -/
def emittedSpec (M : Libm) (c : Config) (g : PolarGrid) (ij : Int × Int) : Bool :=
  decide (ij = (0, 0))
    || (g (specRadial M c ij) (specSeam c (specAngular M c ij))).IsDrivable

/-- The point emitted for cell `(i, j)`. -/
def cellPoint (c : Config) (ave : Option ℚ) (ij : Int × Int) : Point :=
  { x := c.grid_size * ij.1, y := c.grid_size * ij.2, z := ave }

/-- A configuration for examples of the projection: a 2 by 3 Cartesian grid. -/
def tinyConfig : Config where
  R := 3
  TH := 8
  grid_size_r := 1
  grid_size := 1
  threshold := 3 / 20
  cut_width := 3
  y_width := 1
  x_forward := 1
  x_backward := 0
  RANSAC_threshold := 1 / 5

/-! ## The ultrasonic points as the specification words them -/

/-- The longitudinal mount offsets `x_0, ..., x_3` of the four sensors of a side. -/
def mountOffset : Nat → ℚ
  | 0 => 9 / 10
  | 1 => 13 / 20
  | 2 => -3 / 10
  | _ => -21 / 20

/-- The points that the readings of sensor `k` contribute: one for a valid left reading,
then one for a valid right reading. -/
def sensorPoints (left_ultrasonic right_ultrasonic : Nat → ℚ) (k : Nat) : List PointXYZ :=
  (if 0 < left_ultrasonic k ∧ left_ultrasonic k < 5 then
      [{ x := mountOffset k, y := 3 / 4 + left_ultrasonic k, z := 0 }] else [])
    ++ (if 0 < right_ultrasonic k ∧ right_ultrasonic k < 5 then
      [{ x := mountOffset k, y := -3 / 4 - right_ultrasonic k, z := 0 }] else [])

/-- Column `u` belongs to the maximal contiguous run of drivable cells of ring `i` that
contains column `j`, and this run has `N` cells: a run `(a, N)` bounded by non-drivable
cells, or the whole ring (`N = TH`) when every cell of the ring is drivable. -/
def RingRun (g : PolarGrid) (TH i j N : Nat) (u : Int) : Prop :=
  (∃ a p, IsMaxRun g TH i a N ∧ p < N ∧ j = (a + p) % TH ∧ InRun TH a N u)
    ∨ (N = TH ∧ j < TH ∧ (∀ t : Nat, t < TH → (g i t).IsDrivable = true)
        ∧ 0 ≤ u ∧ u < (TH : Int))

/-- The state of a scan of an entirely drivable ring `i` before step `m`: no side is
closed and every step has counted two cells. -/
structure FullInv (c : Config) (g : PolarGrid) (i m : Nat) (s : ScanState) : Prop where
  drv : ∀ n u, (s.grid n u).IsDrivable = (g n u).IsDrivable
  chk : ∀ n u, (s.grid n u).IsChecked = true →
    (g n u).IsChecked = true ∨ (n = (i : Int) ∧ 0 ≤ u ∧ u < (c.TH : Int))
  lflag : s.left_flag = false
  rflag : s.right_flag = false
  cnt : s.cnt + 1 = 2 * m

/-- In every column the drivable cells of the rows `0 ≤ i < R` are a prefix: above a
non-drivable cell every cell is non-drivable. -/
def ColumnPrefix (c : Config) (g : PolarGrid) : Prop :=
  ∀ (u i n : Int), 0 ≤ i → i < n → n < (c.R : Int) → (g i u).IsDrivable = false →
    (g n u).IsDrivable = false

/-! ## The ground / obstacle split as the specification words it -/

/-- The cells of the real array in the order of the loops of lines 143-145. -/
def windowCells (c : Config) (g : PolarGrid) : List Grid :=
  (List.range c.R).flatMap (fun (i : Nat) => (List.range c.TH).map (fun (j : Nat) => g i j))

/-- All points stored in the cells of the real array. -/
def storedPoints (c : Config) (g : PolarGrid) : List PointXYZ :=
  (windowCells c g).flatMap (fun cell => cell.grid_cloud_ptr)

/-- The span `max z - min z` of the points `pts` is strictly below `h`: the heights of any
two of the points differ by less than `h`. -/
def SpanBelow (pts : List PointXYZ) (h : ℚ) : Prop :=
  ∀ p ∈ pts, ∀ q ∈ pts, p.z - q.z < h

instance (pts : List PointXYZ) (h : ℚ) : Decidable (SpanBelow pts h) := by
  unfold SpanBelow
  infer_instance

/-- The points of the cells whose span `max z - min z` is strictly below the threshold. -/
def lowSpanPoints (c : Config) (g : PolarGrid) : List PointXYZ :=
  ((windowCells c g).filter
      (fun cell => decide (SpanBelow cell.grid_cloud_ptr c.threshold))).flatMap
    (fun cell => cell.grid_cloud_ptr)

/-- The points of the cells whose span is at least the threshold. -/
def highSpanPoints (c : Config) (g : PolarGrid) : List PointXYZ :=
  ((windowCells c g).filter
      (fun cell => !decide (SpanBelow cell.grid_cloud_ptr c.threshold))).flatMap
    (fun cell => cell.grid_cloud_ptr)

/-- A grid for examples of the split: cell `(0, 0)` holds two points of span 0.1 and cell
`(1, 1)` two points of span 1. -/
def sampleGrid : PolarGrid := fun a t =>
  if a = 0 ∧ t = 0 then
    { grid_cloud_ptr := [{ x := 1, y := 0, z := 0 }, { x := 1, y := 0, z := 1 / 10 }] }
  else if a = 1 ∧ t = 1 then
    { grid_cloud_ptr := [{ x := 1, y := 1, z := 0 }, { x := 1, y := 1, z := 1 }] }
  else {}

/-- Lines 232-440 as a function of the obstacle cloud, for a given binned grid and mean
ground height: the final polar grid and the emitted cells. -/
def obstaclePipeline (M : Libm) (c : Config) (fuel : Nat) (grid : PolarGrid) (ave : Option ℚ)
    (obstacles : List PointXYZ) : Option (PolarGrid × List Point) := do
  let obstacle ← rebin M c obstacles
  let grid2 ← widthClip c fuel (SectorBoundaryExtractor M c obstacle grid)
  let cells ← CartesianProjector M c grid2 ave
  pure (grid2, cells)

/-- The table `exampleLibm` with one more value of `sqrt`: `sqrt (30.25²) = 30.25`. -/
def farLibm : Libm where
  sqrt := fun s => if s = 14641 / 16 then 121 / 4 else exampleLibm.sqrt s
  acos := exampleLibm.acos

/-- The sectors of the example of C16: one obstacle point at radius 30.25, beyond the
configured radius `60 * 0.4 = 24`, in sector 0. -/
def farObstacle : Sectors := fun t => if t = 0 then [{ x := 121 / 4, y := 0, z := 0 }] else []

/-- A configuration with rings wider than 1.6 m, so that `(int)(1.6/grid_size_r) = 0` and
ring 0 is clipped; no sector is skipped. -/
def coarseConfig : Config where
  R := 2
  TH := 4
  grid_size_r := 2
  grid_size := 1 / 5
  threshold := 3 / 20
  cut_width := 17 / 10
  y_width := 2
  x_forward := 2
  x_backward := 2
  RANSAC_threshold := 1 / 5

/-- The scan of ring `i` from column `j` on grid `g` has no result, whatever the fuel. -/
def NeverEnds (c : Config) (i j : Nat) (g : PolarGrid) : Prop :=
  ∀ fuel, clipCell c fuel i j g = none

/-- Column `u` lies in a narrow maximal run of ring `i`. -/
def NarrowCol (c : Config) (g : PolarGrid) (i : Nat) (u : Int) : Prop :=
  ∃ a N, IsMaxRun g c.TH i a N ∧ narrow c i N = true ∧ InRun c.TH a N u

/-- The state `g` of the pass over ring `i` that started on grid `g0`: cells are only
cleared, and only in the rows `i ≤ n < R` of narrow maximal runs of `g0`; every maximal
run of `g0` is either still a maximal run or cleared as a whole. -/
structure PassInv (c : Config) (i : Nat) (g0 g : PolarGrid) : Prop where
  mono : DrivableLe g0 g
  runs : ∀ a N, IsMaxRun g c.TH i a N → IsMaxRun g0 c.TH i a N
  keep : ∀ n u, ¬ (((i : Int) ≤ n ∧ n < (c.R : Int)) ∧ NarrowCol c g0 i u) →
    (g n u).IsDrivable = (g0 n u).IsDrivable
  cutOrKept : ∀ a N, IsMaxRun g0 c.TH i a N →
    IsMaxRun g c.TH i a N
      ∨ (narrow c i N = true ∧ ∀ n u, (i : Int) ≤ n → n < (c.R : Int) → InRun c.TH a N u →
          (g n u).IsDrivable = false)

/-! ## Mirror images (reflection in the longitudinal axis) -/

/-- The mirror image `(x, -y, z)` of a point. -/
def mirror (p : PointXYZ) : PointXYZ := { x := p.x, y := -p.y, z := p.z }

/-- The mirror column `TH - 1 - t` of column `t`. -/
def mirrorCol (TH t : Nat) : Int := ((TH - 1 - t : Nat) : Int)

/-- The first column of the mirror image of the run of `N` cells that starts at column `a`:
the mirror column of the last cell of the run. -/
def mirrorStart (TH a N : Nat) : Nat := TH - 1 - (a + N - 1) % TH

/-- The drivable flags are the same in mirror columns. -/
def Symmetric (c : Config) (g : PolarGrid) : Prop :=
  ∀ (n : Int) (t : Nat), t < c.TH →
    (g n (mirrorCol c.TH t)).IsDrivable = (g n (t : Int)).IsDrivable

/-- The point is on no sector boundary: it is off the longitudinal axis, and its angle
`acos(x/r)` is not a multiple of the sector width. -/
def OffBoundary (M : Libm) (c : Config) (p : PointXYZ) : Prop :=
  p.y ≠ 0
    ∧ ((Rat.floor (M.acos (p.x / M.sqrt (p.x * p.x + p.y * p.y)) / c.grid_size_th) : Int) : ℚ)
        ≠ M.acos (p.x / M.sqrt (p.x * p.x + p.y * p.y)) / c.grid_size_th

instance (M : Libm) (c : Config) (p : PointXYZ) : Decidable (OffBoundary M c p) := by
  unfold OffBoundary
  infer_instance

/-- An obstacle point on the longitudinal axis, one metre ahead of the sensor; it is its own
mirror image. -/
def axisPoint : PointXYZ := { x := 1, y := 0, z := 0 }

/-- A configuration for the examples of mirror symmetry: 3 rings, 8 sectors of 45 degrees,
radial width 1, corridor width threshold 0.5, no backward extent. -/
def pairConfig : Config where
  R := 3
  TH := 8
  grid_size_r := 1
  grid_size := 1
  threshold := 3 / 20
  cut_width := 1 / 2
  y_width := 2
  x_forward := 2
  x_backward := 0
  RANSAC_threshold := 1 / 5

/-- A configuration whose number of sectors is not divisible by 4: 1 ring, 6 sectors, no
backward extent. -/
def sixConfig : Config where
  R := 1
  TH := 6
  grid_size_r := 1
  grid_size := 1
  threshold := 3 / 20
  cut_width := 1 / 2
  y_width := 2
  x_forward := 2
  x_backward := 0
  RANSAC_threshold := 1 / 5

/-- An obstacle point off the longitudinal axis, at radius `sqrt(5/4)`, about 1.118, and
angle about 26.6 degrees. -/
def diagPoint : PointXYZ := { x := 1, y := 1 / 2, z := 0 }

/-- A cloud that is invariant under the mirror: `diagPoint` and its mirror image. -/
def pairCloud : List PointXYZ := [diagPoint, mirror diagPoint]

/-- The sectors that rebinning makes of `pairCloud` under `pairConfig`. -/
def pairSectors : Sectors := (rebin exampleLibm pairConfig pairCloud).getD (fun _ => [])

/-- The grid after boundary extraction and width clipping of `pairSectors`. -/
def pairGrid : PolarGrid :=
  (widthClip pairConfig 8
    (SectorBoundaryExtractor exampleLibm pairConfig pairSectors emptyGrid)).getD emptyGrid

/-- An obstacle point with score `|x| + |y| = 1.25`, at radius `sqrt(13/16)`, about 0.901,
and angle about 33.7 degrees. -/
def tieNear : PointXYZ := { x := 3 / 4, y := 1 / 2, z := 0 }

/-- An obstacle point with the same score `1.25`, at radius `sqrt(17/16)`, about 1.031, and
angle about 14.0 degrees. -/
def tieFar : PointXYZ := { x := 1, y := 1 / 4, z := 0 }

/-- A cloud that is invariant under the mirror as a set of points: `tieNear`, `tieFar` and
their mirror images. -/
def tieCloud : List PointXYZ := [tieNear, tieFar, mirror tieFar, mirror tieNear]

/-- The sectors that rebinning makes of `tieCloud` under `pairConfig`. -/
def tieSectors : Sectors := (rebin exampleLibm pairConfig tieCloud).getD (fun _ => [])

/-- The grid after boundary extraction and width clipping of `tieSectors`. -/
def tieGrid : PolarGrid :=
  (widthClip pairConfig 8
    (SectorBoundaryExtractor exampleLibm pairConfig tieSectors emptyGrid)).getD emptyGrid

/-- The grid after boundary extraction and width clipping of an empty obstacle cloud under
`sixConfig`. -/
def sixGrid : PolarGrid :=
  (widthClip sixConfig 6
    (SectorBoundaryExtractor exampleLibm sixConfig (fun _ => []) emptyGrid)).getD emptyGrid

/-- The sector that lines 242-251 compute for an obstacle point. -/
def sectorOf (M : Libm) (c : Config) (p : PointXYZ) : Option Int :=
  angleIndex M c p.x (M.sqrt (p.x * p.x + p.y * p.y)) (decide (p.y < 0))

/-- The obstacle point passes the guard of lines 234-240 and lands in sector `t`. -/
def inSector (M : Libm) (c : Config) (t : Int) (p : PointXYZ) : Bool :=
  !(decide (c.x_backward = 0 ∧ p.x < 0)) && decide (sectorOf M c p = some t)

/-! ## Basic facts about the grid updates -/

@[simp]
theorem setChecked_IsDrivable (g : PolarGrid) (a t : Int) (b : Bool) (n u : Int) :
    (setChecked g a t b n u).IsDrivable = (g n u).IsDrivable := by
  unfold setChecked
  split_ifs <;> rfl

theorem setChecked_IsChecked (g : PolarGrid) (a t : Int) (b : Bool) (n u : Int) :
    (setChecked g a t b n u).IsChecked = if n = a ∧ u = t then b else (g n u).IsChecked := by
  unfold setChecked
  split_ifs <;> rfl

@[simp]
theorem setDrivable_IsChecked (g : PolarGrid) (a t : Int) (b : Bool) (n u : Int) :
    (setDrivable g a t b n u).IsChecked = (g n u).IsChecked := by
  unfold setDrivable
  split_ifs <;> rfl

theorem setDrivable_IsDrivable (g : PolarGrid) (a t : Int) (b : Bool) (n u : Int) :
    (setDrivable g a t b n u).IsDrivable = if n = a ∧ u = t then b else (g n u).IsDrivable := by
  unfold setDrivable
  split_ifs <;> rfl

/-- Clearing rows `i, i+1, ..., i+len-1` of column `t`. -/
theorem foldl_clear_IsDrivable (i : Nat) (t : Int) (len : Nat) (g : PolarGrid) (n u : Int) :
    (((List.range len).foldl (fun g k => setDrivable g ((i + k : Nat) : Int) t false) g) n u).IsDrivable
      = if u = t ∧ (i : Int) ≤ n ∧ n < (i : Int) + (len : Int) then false
        else (g n u).IsDrivable := by
  induction len with
  | zero =>
    have : ¬ (u = t ∧ (i : Int) ≤ n ∧ n < (i : Int) + ((0 : Nat) : Int)) := by
      rintro ⟨-, h1, h2⟩; omega
    simp only [List.range_zero, List.foldl_nil, if_neg this]
  | succ len ih =>
    rw [List.range_succ, List.foldl_append]
    simp only [List.foldl_cons, List.foldl_nil]
    rw [setDrivable_IsDrivable, ih]
    by_cases hu : u = t
    · by_cases h1 : n = ((i + len : Nat) : Int)
      · have h2 : (i : Int) ≤ n ∧ n < (i : Int) + ((len + 1 : Nat) : Int) := by
          constructor <;> push_cast at h1 ⊢ <;> omega
        simp [hu, h1, h2]
      · have h3 : ((i : Int) ≤ n ∧ n < (i : Int) + ((len + 1 : Nat) : Int))
            ↔ ((i : Int) ≤ n ∧ n < (i : Int) + (len : Int)) := by
          push_cast at h1 ⊢; omega
        simp only [h1, hu, false_and, if_false, true_and, h3]
    · simp [hu]

theorem foldl_clear_IsChecked (i : Nat) (t : Int) (len : Nat) (g : PolarGrid) (n u : Int) :
    (((List.range len).foldl (fun g k => setDrivable g ((i + k : Nat) : Int) t false) g) n u).IsChecked
      = (g n u).IsChecked := by
  induction len with
  | zero => simp
  | succ len ih =>
    rw [List.range_succ, List.foldl_append]
    simp only [List.foldl_cons, List.foldl_nil]
    rw [setDrivable_IsChecked, ih]

/-- The effect of `cutColumn` on the drivable flags. -/
theorem cutColumn_IsDrivable (c : Config) (i : Nat) (t : Int) (g : PolarGrid) (n u : Int) :
    (cutColumn c i t g n u).IsDrivable
      = if u = t ∧ (i : Int) ≤ n ∧ n < (c.R : Int) then false else (g n u).IsDrivable := by
  unfold cutColumn
  rw [foldl_clear_IsDrivable]
  have h : ((i : Int) ≤ n ∧ n < (i : Int) + ((c.R - i : Nat) : Int))
      ↔ ((i : Int) ≤ n ∧ n < (c.R : Int)) := by omega
  simp only [h]

@[simp]
theorem cutColumn_IsChecked (c : Config) (i : Nat) (t : Int) (g : PolarGrid) (n u : Int) :
    (cutColumn c i t g n u).IsChecked = (g n u).IsChecked := by
  unfold cutColumn
  rw [foldl_clear_IsChecked]

/-- Cutting the columns `col 0, ..., col (len-1)`. -/
theorem foldl_cutColumn_IsDrivable (c : Config) (i : Nat) (col : Nat → Int) (len : Nat)
    (g : PolarGrid) (n u : Int) :
    (((List.range len).foldl (fun g k => cutColumn c i (col k) g) g) n u).IsDrivable
      = if (∃ k, k < len ∧ u = col k) ∧ (i : Int) ≤ n ∧ n < (c.R : Int) then false
        else (g n u).IsDrivable := by
  induction len with
  | zero => simp
  | succ len ih =>
    rw [List.range_succ, List.foldl_append]
    simp only [List.foldl_cons, List.foldl_nil]
    rw [cutColumn_IsDrivable, ih]
    by_cases hr : (i : Int) ≤ n ∧ n < (c.R : Int)
    · by_cases h1 : u = col len
      · have : ∃ k, k < len + 1 ∧ u = col k := ⟨len, by omega, h1⟩
        rw [if_pos ⟨h1, hr⟩, if_pos ⟨this, hr⟩]
      · have h3 : (∃ k, k < len + 1 ∧ u = col k) ↔ (∃ k, k < len ∧ u = col k) := by
          constructor
          · rintro ⟨k, hk, e⟩
            rcases Nat.lt_succ_iff_lt_or_eq.mp hk with h | h
            · exact ⟨k, h, e⟩
            · subst h; exact absurd e h1
          · rintro ⟨k, hk, e⟩; exact ⟨k, by omega, e⟩
        simp only [h1, false_and, if_false, h3]
    · simp [hr]

theorem foldl_cutColumn_IsChecked (c : Config) (i : Nat) (col : Nat → Int) (len : Nat)
    (g : PolarGrid) (n u : Int) :
    (((List.range len).foldl (fun g k => cutColumn c i (col k) g) g) n u).IsChecked
      = (g n u).IsChecked := by
  induction len with
  | zero => simp
  | succ len ih =>
    rw [List.range_succ, List.foldl_append]
    simp only [List.foldl_cons, List.foldl_nil]
    rw [cutColumn_IsChecked, ih]

theorem cutWedge_IsDrivable_of_mem (c : Config) (i j : Nat) (s : ScanState) (n u : Int)
    (hn : (i : Int) ≤ n ∧ n < (c.R : Int)) (hu : WedgeCol c j s u) :
    (cutWedge c i j s n u).IsDrivable = false := by
  unfold cutWedge
  rw [foldl_cutColumn_IsDrivable c i (fun k => rightCol c j (k + 1))]
  split_ifs with h1
  · rfl
  · rw [foldl_cutColumn_IsDrivable c i (fun k => leftCol c j (k + 1))]
    split_ifs with h2
    · rfl
    · rw [cutColumn_IsDrivable]
      rcases hu with h | h | h
      · simp [h, hn]
      · exact absurd ⟨h, hn⟩ h2
      · exact absurd ⟨h, hn⟩ h1

theorem cutWedge_IsDrivable_of_not_mem (c : Config) (i j : Nat) (s : ScanState) (n u : Int)
    (h : ¬ (((i : Int) ≤ n ∧ n < (c.R : Int)) ∧ WedgeCol c j s u)) :
    (cutWedge c i j s n u).IsDrivable = (s.grid n u).IsDrivable := by
  unfold cutWedge
  rw [foldl_cutColumn_IsDrivable c i (fun k => rightCol c j (k + 1)),
    foldl_cutColumn_IsDrivable c i (fun k => leftCol c j (k + 1)), cutColumn_IsDrivable]
  have e1 : ¬ ((∃ k, k < s.right_cut ∧ u = rightCol c j (k + 1))
      ∧ (i : Int) ≤ n ∧ n < (c.R : Int)) := fun hh => h ⟨hh.2, Or.inr (Or.inr hh.1)⟩
  have e2 : ¬ ((∃ k, k < s.left_cut ∧ u = leftCol c j (k + 1))
      ∧ (i : Int) ≤ n ∧ n < (c.R : Int)) := fun hh => h ⟨hh.2, Or.inr (Or.inl hh.1)⟩
  have e3 : ¬ (u = (j : Int) ∧ (i : Int) ≤ n ∧ n < (c.R : Int)) :=
    fun hh => h ⟨hh.2, Or.inl hh.1⟩
  simp only [e1, e2, e3, if_false]

theorem cutWedge_IsDrivable_le (c : Config) (i j : Nat) (s : ScanState) (n u : Int)
    (h : (cutWedge c i j s n u).IsDrivable = true) : (s.grid n u).IsDrivable = true := by
  by_cases hm : ((i : Int) ≤ n ∧ n < (c.R : Int)) ∧ WedgeCol c j s u
  · rw [cutWedge_IsDrivable_of_mem c i j s n u hm.1 hm.2] at h
    exact absurd h (by simp)
  · rwa [cutWedge_IsDrivable_of_not_mem c i j s n u hm] at h

@[simp]
theorem cutWedge_IsChecked (c : Config) (i j : Nat) (s : ScanState) (n u : Int) :
    (cutWedge c i j s n u).IsChecked = (s.grid n u).IsChecked := by
  unfold cutWedge
  rw [foldl_cutColumn_IsChecked c i (fun k => rightCol c j (k + 1)),
    foldl_cutColumn_IsChecked c i (fun k => leftCol c j (k + 1)), cutColumn_IsChecked]

/-! ## Folding a fallible step over a list -/

theorem foldlM_option_rel {α β : Type} (P : β → β → Prop) (hrefl : ∀ b, P b b)
    (htrans : ∀ x y z, P x y → P y z → P x z) (f : β → α → Option β)
    (hf : ∀ b a b', f b a = some b' → P b b') :
    ∀ (l : List α) (b b' : β), l.foldlM f b = some b' → P b b' := by
  intro l
  induction l with
  | nil =>
    intro b b' h
    simp only [List.foldlM_nil, Option.pure_def, Option.some.injEq] at h
    subst h
    exact hrefl b
  | cons a l ih =>
    intro b b' h
    simp only [List.foldlM_cons, Option.bind_eq_bind, Option.bind_eq_some] at h
    obtain ⟨b1, h1, h2⟩ := h
    exact htrans _ _ _ (hf b a b1 h1) (ih b1 b' h2)

/-- An invariant indexed by the position in `List.range n` is carried through the fold. -/
theorem foldlM_range_inv {β : Type} (P : Nat → β → Prop) (f : β → Nat → Option β) (n : Nat)
    (hf : ∀ k b b', k < n → P k b → f b k = some b' → P (k + 1) b') :
    ∀ (b b' : β), P 0 b → (List.range n).foldlM f b = some b' → P n b' := by
  induction n with
  | zero =>
    intro b b' h0 h
    simp only [List.range_zero, List.foldlM_nil, Option.pure_def, Option.some.injEq] at h
    subst h
    exact h0
  | succ n ih =>
    intro b b' h0 h
    rw [List.range_succ, List.foldlM_append] at h
    simp only [List.foldlM_cons, List.foldlM_nil, Option.bind_eq_bind, Option.bind_eq_some,
      Option.pure_def, Option.bind_some] at h
    obtain ⟨b1, h1, h2⟩ := h
    have hb1 : P n b1 := ih (fun k b b' hk => hf k b b' (by omega)) b b1 h0 h1
    exact hf n b1 b' (by omega) hb1 h2

/-- A fold whose steps all succeed under an invariant succeeds. -/
theorem foldlM_range_some {β : Type} (P : Nat → β → Prop) (f : β → Nat → Option β) (n : Nat)
    (hf : ∀ k b, k < n → P k b → ∃ b', f b k = some b' ∧ P (k + 1) b') :
    ∀ (b : β), P 0 b → ∃ b', (List.range n).foldlM f b = some b' ∧ P n b' := by
  induction n with
  | zero =>
    intro b h0
    exact ⟨b, by simp, h0⟩
  | succ n ih =>
    intro b h0
    obtain ⟨b1, h1, hb1⟩ := ih (fun k b hk => hf k b (by omega)) b h0
    obtain ⟨b2, h2, hb2⟩ := hf n b1 (by omega) hb1
    refine ⟨b2, ?_, hb2⟩
    rw [List.range_succ, List.foldlM_append, h1]
    simp [h2]

/-! ## The scan changes drivable flags only by clearing them -/

theorem scanLeft_IsDrivable (c : Config) (i j m : Nat) (s : ScanState) (n u : Int) :
    ((scanLeft c i j m s).grid n u).IsDrivable = (s.grid n u).IsDrivable := by
  unfold scanLeft
  split_ifs <;> simp

theorem scanRight_IsDrivable (c : Config) (i j m : Nat) (s : ScanState) (n u : Int) :
    ((scanRight c i j m s).grid n u).IsDrivable = (s.grid n u).IsDrivable := by
  unfold scanRight
  split_ifs <;> simp

theorem scanLoop_zero (c : Config) (i j m : Nat) (s : ScanState) :
    scanLoop c i j 0 m s = none := rfl

theorem scanLoop_succ (c : Config) (i j fuel m : Nat) (s : ScanState) :
    scanLoop c i j (fuel + 1) m s =
      if narrow c i s.cnt = true then
        if ((scanRight c i j m (scanLeft c i j m s)).left_flag
            && (scanRight c i j m (scanLeft c i j m s)).right_flag) = true then
          some (cutWedge c i j (scanRight c i j m (scanLeft c i j m s)))
        else scanLoop c i j fuel (m + 1) (scanRight c i j m (scanLeft c i j m s))
      else some s.grid := rfl

theorem scanLoop_IsDrivable_le (c : Config) (i j : Nat) :
    ∀ (fuel m : Nat) (s : ScanState) (g' : PolarGrid), scanLoop c i j fuel m s = some g' →
      ∀ n u, (g' n u).IsDrivable = true → (s.grid n u).IsDrivable = true := by
  intro fuel
  induction fuel with
  | zero => intro m s g' h; simp [scanLoop_zero] at h
  | succ fuel ih =>
    intro m s g' h n u hd
    rw [scanLoop_succ] at h
    split_ifs at h with h1 h2
    · simp only [Option.some.injEq] at h
      subst h
      have := cutWedge_IsDrivable_le c i j _ n u hd
      rwa [scanRight_IsDrivable, scanLeft_IsDrivable] at this
    · have := ih (m + 1) _ g' h n u hd
      rwa [scanRight_IsDrivable, scanLeft_IsDrivable] at this
    · simp only [Option.some.injEq] at h
      subst h
      exact hd

theorem clipCell_DrivableLe (c : Config) (fuel i j : Nat) (g g' : PolarGrid)
    (h : clipCell c fuel i j g = some g') : DrivableLe g g' := by
  unfold clipCell at h
  split_ifs at h
  · simp only [Option.some.injEq] at h; subst h; exact fun _ _ hd => hd
  · simp only [Option.some.injEq] at h; subst h; exact fun _ _ hd => hd
  · exact fun n u hd => scanLoop_IsDrivable_le c i j fuel 1 _ g' h n u hd

theorem clipRing_DrivableLe (c : Config) (fuel i : Nat) (g g' : PolarGrid)
    (h : clipRing c fuel i g = some g') : DrivableLe g g' :=
  foldlM_option_rel DrivableLe (fun _ _ _ hd => hd)
    (fun _ _ _ h1 h2 n u hd => h1 n u (h2 n u hd))
    (fun g j => clipCell c fuel i j g) (fun b a b' hb => clipCell_DrivableLe c fuel i a b b' hb)
    _ g g' h

theorem widthClip_DrivableLe (c : Config) (fuel : Nat) (g g' : PolarGrid)
    (h : widthClip c fuel g = some g') : DrivableLe g g' :=
  foldlM_option_rel DrivableLe (fun _ _ _ hd => hd)
    (fun _ _ _ h1 h2 n u hd => h1 n u (h2 n u hd))
    (fun g i => clipRing c fuel i g) (fun b a b' hb => clipRing_DrivableLe c fuel a b b' hb)
    _ g g' h

/-- C1. Width clipping is monotone: whenever the pass of lines 319-392 completes, every
cell that is drivable in the resulting grid was drivable in the grid the pass started
from, for every grid and every configuration. -/
theorem widthClip_monotone (c : Config) (fuel : Nat) (g g' : PolarGrid)
    (h : widthClip c fuel g = some g') (n u : Int) (hd : (g' n u).IsDrivable = true) :
    (g n u).IsDrivable = true :=
  widthClip_DrivableLe c fuel g g' h n u hd

/-! ## One scan in a ring with known reaches -/

theorem scanLeft_inv (c : Config) (g : PolarGrid) (i j L Rr m mr : Nat) (s : ScanState)
    (hm : 1 ≤ m) (hL : LeftReach c g i j L) (inv : ScanInv c g i j L Rr m mr s) :
    ScanInv c g i j L Rr (m + 1) mr (scanLeft c i j m s) := by
  unfold scanLeft
  by_cases hlt : L + 1 < m
  · have hf : s.left_flag = true := by rw [inv.lflag]; simp [hlt]
    simp only [hf, Bool.true_eq_false, if_false]
    exact { inv with
      lflag := by rw [hf]; simp; omega
      lcut := fun _ => inv.lcut hlt
      cnt := by rw [inv.cnt]; omega }
  · have hf : s.left_flag = false := by rw [inv.lflag]; simp [hlt]
    simp only [hf, if_true]
    rw [inv.drv]
    by_cases hle : m ≤ L
    · rw [hL.1 m hm hle]
      simp only [if_true]
      refine ⟨fun n u => by simp [inv.drv], ?_, ?_, ?_, inv.rflag, inv.rcut, ?_⟩
      · intro n u h
        simp only [setChecked_IsChecked] at h
        split_ifs at h with h1
        · exact Or.inr ⟨h1.1, Or.inl ⟨m, hm, hle, h1.2⟩⟩
        · exact inv.chk n u h
      · simp only [hf]; simp; omega
      · intro h; omega
      · simp only [inv.cnt]; omega
    · have hmL : m = L + 1 := by omega
      rw [hmL, hL.2]
      simp only [Bool.false_eq_true, if_false]
      refine ⟨inv.drv, inv.chk, ?_, ?_, inv.rflag, inv.rcut, ?_⟩
      · simp
      · intro _; simp
      · simp only [inv.cnt]; omega

theorem scanRight_inv (c : Config) (g : PolarGrid) (i j L Rr ml m : Nat) (s : ScanState)
    (hm : 1 ≤ m) (hR : RightReach c g i j Rr) (inv : ScanInv c g i j L Rr ml m s) :
    ScanInv c g i j L Rr ml (m + 1) (scanRight c i j m s) := by
  unfold scanRight
  by_cases hlt : Rr + 1 < m
  · have hf : s.right_flag = true := by rw [inv.rflag]; simp [hlt]
    simp only [hf, Bool.true_eq_false, if_false]
    exact { inv with
      rflag := by rw [hf]; simp; omega
      rcut := fun _ => inv.rcut hlt
      cnt := by rw [inv.cnt]; omega }
  · have hf : s.right_flag = false := by rw [inv.rflag]; simp [hlt]
    simp only [hf, if_true]
    rw [inv.drv]
    by_cases hle : m ≤ Rr
    · rw [hR.1 m hm hle]
      simp only [if_true]
      refine ⟨fun n u => by simp [inv.drv], ?_, inv.lflag, inv.lcut, ?_, ?_, ?_⟩
      · intro n u h
        simp only [setChecked_IsChecked] at h
        split_ifs at h with h1
        · exact Or.inr ⟨h1.1, Or.inr ⟨m, hm, hle, h1.2⟩⟩
        · exact inv.chk n u h
      · simp only [hf]; simp; omega
      · intro h; omega
      · simp only [inv.cnt]; omega
    · have hmL : m = Rr + 1 := by omega
      rw [hmL, hR.2]
      simp only [Bool.false_eq_true, if_false]
      refine ⟨inv.drv, inv.chk, inv.lflag, inv.lcut, ?_, ?_, ?_⟩
      · simp
      · intro _; simp
      · simp only [inv.cnt]; omega

theorem ScanInv_start (c : Config) (g : PolarGrid) (i j L Rr : Nat) :
    ScanInv c g i j L Rr 1 1 (ScanState.start g) where
  drv := fun _ _ => rfl
  chk := fun _ _ h => Or.inl h
  lflag := by simp [ScanState.start]
  lcut := fun h => by omega
  rflag := by simp [ScanState.start]
  rcut := fun h => by omega
  cnt := by simp [ScanState.start]

/-- A scan of a ring whose reaches from the origin column are `L` and `Rr` ends, and cuts
the wedge exactly when the run of `1 + L + Rr` cells is narrow. -/
theorem scanLoop_reach (c : Config) (g : PolarGrid) (i j L Rr : Nat)
    (hmono : ∀ n n', n ≤ n' → narrow c i n' = true → narrow c i n = true)
    (hL : LeftReach c g i j L) (hR : RightReach c g i j Rr) :
    ∀ (fuel m : Nat) (s : ScanState), 1 ≤ m → ScanInv c g i j L Rr m m s →
      max L Rr + 1 - m < fuel →
      ∃ g', scanLoop c i j fuel m s = some g' ∧ ScanPost c g i j L Rr g' := by
  intro fuel
  induction fuel with
  | zero => intro m s _ _ h; omega
  | succ fuel ih =>
    intro m s hm inv hfuel
    rw [scanLoop_succ]
    have hcnt : s.cnt ≤ 1 + L + Rr := by rw [inv.cnt]; omega
    by_cases hn : narrow c i s.cnt = true
    · simp only [hn, if_true]
      have inv2 := scanRight_inv c g i j L Rr (m + 1) m _ hm hR
        (scanLeft_inv c g i j L Rr m m s hm hL inv)
      by_cases hb : ((scanRight c i j m (scanLeft c i j m s)).left_flag
          && (scanRight c i j m (scanLeft c i j m s)).right_flag) = true
      · simp only [hb, if_true]
        refine ⟨_, rfl, ?_⟩
        rw [inv2.lflag, inv2.rflag] at hb
        simp only [Bool.and_eq_true, decide_eq_true_eq] at hb
        have hlc := inv2.lcut hb.1
        have hrc := inv2.rcut hb.2
        have hwc : ∀ u, WedgeCol c j (scanRight c i j m (scanLeft c i j m s)) u
            ↔ (u = (j : Int) ∨ SideCol c j L Rr u) := by
          intro u
          unfold WedgeCol SideCol
          rw [hlc, hrc]
          constructor
          · rintro (h | ⟨k, hk, e⟩ | ⟨k, hk, e⟩)
            · exact Or.inl h
            · exact Or.inr (Or.inl ⟨k + 1, by omega, by omega, e⟩)
            · exact Or.inr (Or.inr ⟨k + 1, by omega, by omega, e⟩)
          · rintro (h | ⟨k, hk1, hk2, e⟩ | ⟨k, hk1, hk2, e⟩)
            · exact Or.inl h
            · exact Or.inr (Or.inl ⟨k - 1, by omega, by
                rw [show k - 1 + 1 = k by omega]; exact e⟩)
            · exact Or.inr (Or.inr ⟨k - 1, by omega, by
                rw [show k - 1 + 1 = k by omega]; exact e⟩)
        have hcntN : s.cnt = 1 + L + Rr := by rw [inv.cnt]; omega
        have hnN : narrow c i (1 + L + Rr) = true := by rw [← hcntN]; exact hn
        refine ⟨?_, ?_, ?_, ?_⟩
        · intro _ n u h1 h2 hu
          exact cutWedge_IsDrivable_of_mem c i j _ n u ⟨h1, h2⟩ ((hwc u).mpr hu)
        · intro _ n u hu
          rw [cutWedge_IsDrivable_of_not_mem c i j _ n u (fun hh => hu ⟨hh.1, (hwc u).mp hh.2⟩)]
          exact inv2.drv n u
        · intro hf; rw [hnN] at hf; exact absurd hf (by simp)
        · intro n u h
          rw [cutWedge_IsChecked] at h
          exact inv2.chk n u h
      · simp only [hb, if_false]
        rw [inv2.lflag, inv2.rflag] at hb
        simp only [Bool.and_eq_true, decide_eq_true_eq] at hb
        exact ih (m + 1) _ (by omega) inv2 (by omega)
    · simp only [hn, if_false]
      refine ⟨_, rfl, ?_⟩
      have hnN : narrow c i (1 + L + Rr) = false := by
        by_contra hh
        exact hn (hmono _ _ hcnt (by simpa using hh))
      refine ⟨?_, ?_, ?_, ?_⟩
      · intro hf; rw [hnN] at hf; exact absurd hf (by simp)
      · intro hf; rw [hnN] at hf; exact absurd hf (by simp)
      · intro _ n u; exact inv.drv n u
      · exact inv.chk

/-! ## Runs of drivable cells -/

theorem M_PI_pos : 0 < M_PI := by unfold M_PI; norm_num

theorem grid_size_th_nonneg (c : Config) : 0 ≤ c.grid_size_th := by
  unfold Config.grid_size_th
  exact div_nonneg (mul_nonneg (by norm_num) M_PI_pos.le) (Nat.cast_nonneg _)

theorem narrow_mono (c : Config) (i : Nat) (hw : 0 ≤ c.grid_size_r) (n n' : Nat) (h : n ≤ n')
    (hn : narrow c i n' = true) : narrow c i n = true := by
  unfold narrow at *
  simp only [decide_eq_true_eq] at *
  refine lt_of_le_of_lt ?_ hn
  have h0 : 0 ≤ (i : ℚ) * c.grid_size_r * c.grid_size_th :=
    mul_nonneg (mul_nonneg (Nat.cast_nonneg _) hw) (grid_size_th_nonneg c)
  exact mul_le_mul_of_nonneg_left (by exact_mod_cast h) h0

theorem leftCol_eq (c : Config) (j m : Nat) :
    leftCol c j m = (((j + m) % c.TH : Nat) : Int) := by
  unfold leftCol
  rw [Int.tmod_eq_emod (by omega) (by omega)]
  push_cast
  rfl

theorem rightCol_eq (c : Config) (j m : Nat) (h : m ≤ j + c.TH) :
    rightCol c j m = (((j + c.TH - m) % c.TH : Nat) : Int) := by
  unfold rightCol
  rw [Int.tmod_eq_emod (by omega) (by omega)]
  rw [Int.natCast_mod]
  congr 1
  omega

/-- Subtraction modulo `TH`: if `x ≡ y + m` then `x + TH - m ≡ y`. -/
theorem mod_sub_eq (TH x y m : Nat) (hm : m ≤ TH) (h : x % TH = (y + m) % TH) :
    (x + TH - m) % TH = y % TH := by
  have h1 : (x + TH - m) + m ≡ y + m [MOD TH] := by
    have : (x + TH - m) + m = x + TH := by omega
    rw [this]
    unfold Nat.ModEq
    rw [Nat.add_mod_right]
    exact h
  exact Nat.ModEq.add_right_cancel' m h1

theorem leftCol_run (c : Config) (a p m : Nat) :
    leftCol c ((a + p) % c.TH) m = runCol c.TH a (p + m) := by
  rw [leftCol_eq]
  unfold runCol
  rw [Nat.mod_add_mod, Nat.add_assoc]

theorem rightCol_run (c : Config) (a p m : Nat) (hm : m ≤ p) (hp : p ≤ c.TH) :
    rightCol c ((a + p) % c.TH) m = runCol c.TH a (p - m) := by
  rw [rightCol_eq c _ m (by omega)]
  unfold runCol
  rw [mod_sub_eq c.TH _ (a + (p - m)) m (by omega)]
  rw [Nat.mod_mod]
  congr 1
  omega

theorem rightCol_run_succ (c : Config) (a p : Nat) (hp : p + 1 ≤ c.TH) :
    rightCol c ((a + p) % c.TH) (p + 1) = runCol c.TH a (c.TH - 1) := by
  rw [rightCol_eq c _ (p + 1) (by omega)]
  unfold runCol
  rw [mod_sub_eq c.TH _ (a + (c.TH - 1)) (p + 1) hp]
  rw [Nat.mod_mod]
  have : a + (c.TH - 1) + (p + 1) = (a + p) + c.TH := by omega
  rw [this, Nat.add_mod_right]

theorem IsMaxRun.lt {g : PolarGrid} {TH i a N : Nat} (h : IsMaxRun g TH i a N) : N < TH := by
  obtain ⟨ha, _, hd, _, hb⟩ := h
  by_contra hn
  have := hd (TH - 1) (by omega)
  rw [hb] at this
  exact absurd this (by simp)

theorem IsMaxRun.leftReach {c : Config} {g : PolarGrid} {i a N : Nat}
    (h : IsMaxRun g c.TH i a N) (p : Nat) (hp : p < N) :
    LeftReach c g i ((a + p) % c.TH) (N - 1 - p) := by
  constructor
  · intro k _ hk
    rw [leftCol_run]
    exact h.2.2.1 _ (by omega)
  · rw [leftCol_run, show p + (N - 1 - p + 1) = N by omega]
    exact h.2.2.2.1

theorem IsMaxRun.rightReach {c : Config} {g : PolarGrid} {i a N : Nat}
    (h : IsMaxRun g c.TH i a N) (p : Nat) (hp : p < N) :
    RightReach c g i ((a + p) % c.TH) p := by
  have hN := h.lt
  constructor
  · intro k _ hk
    rw [rightCol_run c a p k hk (by omega)]
    exact h.2.2.1 _ (by omega)
  · rw [rightCol_run_succ c a p (by omega)]
    exact h.2.2.2.2

theorem sideCol_run (c : Config) (a N p : Nat) (hp : p < N) (hN : N < c.TH) (u : Int) :
    (u = (((a + p) % c.TH : Nat) : Int) ∨ SideCol c ((a + p) % c.TH) (N - 1 - p) p u)
      ↔ InRun c.TH a N u := by
  unfold SideCol InRun
  constructor
  · rintro (h | ⟨k, hk1, hk2, e⟩ | ⟨k, hk1, hk2, e⟩)
    · exact ⟨p, hp, h⟩
    · exact ⟨p + k, by omega, by rw [e, leftCol_run]⟩
    · exact ⟨p - k, by omega, by rw [e, rightCol_run c a p k hk2 (by omega)]⟩
  · rintro ⟨k, hk, e⟩
    rcases Nat.lt_trichotomy k p with h | h | h
    · refine Or.inr (Or.inr ⟨p - k, by omega, by omega, ?_⟩)
      rw [e, rightCol_run c a p (p - k) (by omega) (by omega), show p - (p - k) = k by omega]
    · subst h; exact Or.inl e
    · refine Or.inr (Or.inl ⟨k - p, by omega, by omega, ?_⟩)
      rw [e, leftCol_run, show p + (k - p) = k by omega]

theorem sideCol_inRun (c : Config) (a N p : Nat) (hp : p < N) (hN : N < c.TH) (u : Int)
    (h : SideCol c ((a + p) % c.TH) (N - 1 - p) p u) : InRun c.TH a N u :=
  (sideCol_run c a N p hp hN u).mp (Or.inr h)

/-- A scan started at a cell of the maximal run `(a, N)` ends within `N` steps; it cuts the
whole run from ring `i` outward when the run is narrow and changes no drivable flag
otherwise. -/
theorem scanLoop_run (c : Config) (g : PolarGrid) (i a N p fuel : Nat)
    (hw : 0 ≤ c.grid_size_r) (hrun : IsMaxRun g c.TH i a N) (hp : p < N) (hfuel : N ≤ fuel) :
    ∃ g', scanLoop c i ((a + p) % c.TH) fuel 1 (ScanState.start g) = some g'
      ∧ RunPost c g i a N g' := by
  have hN := hrun.lt
  obtain ⟨g', hg', post⟩ := scanLoop_reach c g i ((a + p) % c.TH) (N - 1 - p) p
    (narrow_mono c i hw) (hrun.leftReach p hp) (hrun.rightReach p hp) fuel 1
    (ScanState.start g) (le_refl 1) (ScanInv_start c g i _ _ _) (by omega)
  have hsize : 1 + (N - 1 - p) + p = N := by omega
  have hcut := post.cut
  have hkeep := post.keep
  have hsame := post.same
  rw [hsize] at hcut hkeep hsame
  refine ⟨g', hg', ?_, ?_, hsame, ?_⟩
  · intro hn n u h1 h2 hu
    exact hcut hn n u h1 h2 ((sideCol_run c a N p hp hN u).mpr hu)
  · intro hn n u hu
    exact hkeep hn n u (fun hh => hu ⟨hh.1, (sideCol_run c a N p hp hN u).mp hh.2⟩)
  · intro n u h
    rcases post.chk n u h with h1 | ⟨h1, h2⟩
    · exact Or.inl h1
    · exact Or.inr ⟨h1, sideCol_inRun c a N p hp hN u h2⟩


theorem runCol_eq_iff (TH a k b l : Nat) :
    runCol TH a k = runCol TH b l ↔ a + k ≡ b + l [MOD TH] := by
  unfold runCol Nat.ModEq
  exact Int.ofNat_inj

theorem runCol_lt (TH a k : Nat) (h : 0 < TH) : runCol TH a k < (TH : Int) := by
  unfold runCol
  exact_mod_cast Nat.mod_lt _ h

theorem runCol_nonneg (TH a k : Nat) : 0 ≤ runCol TH a k := by
  unfold runCol
  exact Int.natCast_nonneg _

theorem runCol_zero (TH a : Nat) (h : a < TH) : runCol TH a 0 = (a : Int) := by
  unfold runCol
  rw [Nat.add_zero, Nat.mod_eq_of_lt h]

/-- Two maximal runs of a ring that share a cell are the same run. -/
theorem maxRun_unique {g : PolarGrid} {TH i a N b M : Nat} (h1 : IsMaxRun g TH i a N)
    (h2 : IsMaxRun g TH i b M) (k l : Nat) (hk : k < N) (hl : l < M)
    (e : runCol TH a k = runCol TH b l) : a = b ∧ N = M := by
  have hTH : 0 < TH := by have := h1.1; omega
  -- the start of the first run lies in the second run
  have key : ∀ d, d ≤ k → ∃ q, q < M ∧ runCol TH a (k - d) = runCol TH b q := by
    intro d
    induction d with
    | zero => intro _; exact ⟨l, hl, e⟩
    | succ d ih =>
      intro hd
      obtain ⟨q, hq, eq⟩ := ih (by omega)
      rw [runCol_eq_iff] at eq
      rcases Nat.eq_zero_or_pos q with h0 | hpos
      · subst h0
        exfalso
        have e2 : runCol TH a (k - (d + 1)) = runCol TH b (TH - 1) := by
          rw [runCol_eq_iff]
          apply Nat.ModEq.add_right_cancel' 1
          have : a + (k - (d + 1)) + 1 = a + (k - d) := by omega
          rw [this]
          refine eq.trans ?_
          have : b + (TH - 1) + 1 = b + 0 + TH := by omega
          rw [this]
          unfold Nat.ModEq
          rw [Nat.add_mod_right]
        have hd1 := h1.2.2.1 (k - (d + 1)) (by omega)
        rw [e2, h2.2.2.2.2] at hd1
        exact absurd hd1 (by simp)
      · refine ⟨q - 1, by omega, ?_⟩
        rw [runCol_eq_iff]
        apply Nat.ModEq.add_right_cancel' 1
        have e1 : a + (k - (d + 1)) + 1 = a + (k - d) := by omega
        have e3 : b + (q - 1) + 1 = b + q := by omega
        rw [e1, e3]
        exact eq
  obtain ⟨q, hq, eq⟩ := key k (le_refl k)
  rw [Nat.sub_self] at eq
  have hq0 : q = 0 := by
    by_contra hne
    have e2 : runCol TH b (q - 1) = runCol TH a (TH - 1) := by
      rw [runCol_eq_iff] at eq ⊢
      apply Nat.ModEq.add_right_cancel' 1
      have e1 : b + (q - 1) + 1 = b + q := by omega
      have e3 : a + (TH - 1) + 1 = a + 0 + TH := by omega
      rw [e1, e3]
      refine eq.symm.trans ?_
      unfold Nat.ModEq
      rw [Nat.add_mod_right]
    have hd := h2.2.2.1 (q - 1) (by omega)
    rw [e2, h1.2.2.2.2] at hd
    exact absurd hd (by simp)
  subst hq0
  have hab : a = b := by
    rw [runCol_zero TH a h1.1, runCol_zero TH b h2.1] at eq
    exact_mod_cast eq
  subst hab
  refine ⟨rfl, ?_⟩
  rcases Nat.lt_trichotomy N M with h | h | h
  · have hd := h2.2.2.1 N h
    rw [h1.2.2.2.1] at hd
    exact absurd hd (by simp)
  · exact h
  · have hd := h1.2.2.1 M h
    rw [h2.2.2.2.1] at hd
    exact absurd hd (by simp)


theorem scanLoop_fuel_mono (c : Config) (i j : Nat) :
    ∀ (fuel m : Nat) (s : ScanState) (g' : PolarGrid), scanLoop c i j fuel m s = some g' →
      ∀ fuel2, fuel ≤ fuel2 → scanLoop c i j fuel2 m s = some g' := by
  intro fuel
  induction fuel with
  | zero => intro m s g' h; simp [scanLoop_zero] at h
  | succ fuel ih =>
    intro m s g' h fuel2 hle
    obtain ⟨f2, rfl⟩ : ∃ f2, fuel2 = f2 + 1 := ⟨fuel2 - 1, by omega⟩
    rw [scanLoop_succ] at h ⊢
    split_ifs at h ⊢ with h1 h2
    · exact h
    · exact ih _ _ _ h f2 (by omega)
    · exact h

/-- In a ring whose cells are all drivable the left side of a scan never closes, so the
scan cuts nothing. -/
theorem scanLoop_full (c : Config) (g : PolarGrid) (i j : Nat)
    (hfull : ∀ m, (g i (leftCol c j m)).IsDrivable = true) :
    ∀ (fuel m : Nat) (s : ScanState) (g' : PolarGrid),
      (∀ n u, (s.grid n u).IsDrivable = (g n u).IsDrivable) → s.left_flag = false →
      scanLoop c i j fuel m s = some g' → ∀ n u, (g' n u).IsDrivable = (g n u).IsDrivable := by
  intro fuel
  induction fuel with
  | zero => intro m s g' _ _ h; simp [scanLoop_zero] at h
  | succ fuel ih =>
    intro m s g' hdrv hflag h
    rw [scanLoop_succ] at h
    have hl : (scanLeft c i j m s).left_flag = false := by
      unfold scanLeft
      simp [hflag, hdrv, hfull]
    have hr : (scanRight c i j m (scanLeft c i j m s)).left_flag = false := by
      unfold scanRight
      split_ifs <;> simp [hl]
    split_ifs at h with h1 h2
    · rw [hr] at h2; simp at h2
    · exact ih (m + 1) _ g' (fun n u => by
        rw [scanRight_IsDrivable, scanLeft_IsDrivable]; exact hdrv n u) hr h
    · simp only [Option.some.injEq] at h
      subst h
      exact hdrv

theorem scanLeft_frame (c : Config) (i j m : Nat) (s : ScanState) (n u : Int)
    (hn : n ≠ (i : Int)) :
    ((scanLeft c i j m s).grid n u).IsChecked = (s.grid n u).IsChecked := by
  unfold scanLeft
  split_ifs <;> simp [setChecked_IsChecked, hn]

theorem scanRight_frame (c : Config) (i j m : Nat) (s : ScanState) (n u : Int)
    (hn : n ≠ (i : Int)) :
    ((scanRight c i j m s).grid n u).IsChecked = (s.grid n u).IsChecked := by
  unfold scanRight
  split_ifs <;> simp [setChecked_IsChecked, hn]

/-- A scan of ring `i` leaves the drivable flags of the rings below `i` and the checked
marks of all other rings as they are. -/
theorem scanLoop_frame (c : Config) (i j : Nat) :
    ∀ (fuel m : Nat) (s : ScanState) (g' : PolarGrid), scanLoop c i j fuel m s = some g' →
      (∀ n u, n < (i : Int) → (g' n u).IsDrivable = (s.grid n u).IsDrivable)
      ∧ (∀ n u, n ≠ (i : Int) → (g' n u).IsChecked = (s.grid n u).IsChecked) := by
  intro fuel
  induction fuel with
  | zero => intro m s g' h; simp [scanLoop_zero] at h
  | succ fuel ih =>
    intro m s g' h
    rw [scanLoop_succ] at h
    split_ifs at h with h1 h2
    · simp only [Option.some.injEq] at h
      subst h
      constructor
      · intro n u hn
        rw [cutWedge_IsDrivable_of_not_mem c i j _ n u (fun hh => by omega),
          scanRight_IsDrivable, scanLeft_IsDrivable]
      · intro n u hn
        rw [cutWedge_IsChecked, scanRight_frame c i j m _ n u hn, scanLeft_frame c i j m _ n u hn]
    · obtain ⟨a1, a2⟩ := ih (m + 1) _ g' h
      constructor
      · intro n u hn
        rw [a1 n u hn, scanRight_IsDrivable, scanLeft_IsDrivable]
      · intro n u hn
        rw [a2 n u hn, scanRight_frame c i j m _ n u hn, scanLeft_frame c i j m _ n u hn]
    · simp only [Option.some.injEq] at h
      subst h
      exact ⟨fun _ _ _ => rfl, fun _ _ _ => rfl⟩


theorem leftCol_hits (c : Config) (j t : Nat) (hj : j < c.TH) (ht : t < c.TH) (hne : t ≠ j) :
    ∃ m, 1 ≤ m ∧ m < c.TH ∧ leftCol c j m = (t : Int) := by
  refine ⟨(t + c.TH - j) % c.TH, ?_, Nat.mod_lt _ (by omega), ?_⟩
  · rcases Nat.lt_or_ge j t with h | h
    · have : (t + c.TH - j) % c.TH = t - j := by
        rw [show t + c.TH - j = (t - j) + c.TH by omega, Nat.add_mod_right,
          Nat.mod_eq_of_lt (by omega)]
      omega
    · have : (t + c.TH - j) % c.TH = t + c.TH - j := Nat.mod_eq_of_lt (by omega)
      omega
  · rw [leftCol_eq, Nat.add_mod_mod, show j + (t + c.TH - j) = t + c.TH by omega,
      Nat.add_mod_right, Nat.mod_eq_of_lt ht]

theorem rightCol_hits (c : Config) (j t : Nat) (hj : j < c.TH) (ht : t < c.TH) (hne : t ≠ j) :
    ∃ m, 1 ≤ m ∧ m < c.TH ∧ rightCol c j m = (t : Int) := by
  have hm : (j + c.TH - t) % c.TH < c.TH := Nat.mod_lt _ (by omega)
  refine ⟨(j + c.TH - t) % c.TH, ?_, hm, ?_⟩
  · rcases Nat.lt_or_ge t j with h | h
    · have : (j + c.TH - t) % c.TH = j - t := by
        rw [show j + c.TH - t = (j - t) + c.TH by omega, Nat.add_mod_right,
          Nat.mod_eq_of_lt (by omega)]
      omega
    · have : (j + c.TH - t) % c.TH = j + c.TH - t := Nat.mod_eq_of_lt (by omega)
      omega
  · rw [rightCol_eq c j _ (by omega), mod_sub_eq c.TH j t _ (by omega), Nat.mod_eq_of_lt ht]
    rw [Nat.add_mod_mod, show t + (j + c.TH - t) = j + c.TH by omega, Nat.add_mod_right]

/-- In a ring that is not entirely drivable every drivable cell lies in a maximal run. -/
theorem exists_maxRun (c : Config) (g : PolarGrid) (i j : Nat) (hj : j < c.TH)
    (hd : (g i j).IsDrivable = true) (hring : ∃ t, t < c.TH ∧ (g i t).IsDrivable = false) :
    ∃ a N p, IsMaxRun g c.TH i a N ∧ p < N ∧ j = (a + p) % c.TH := by
  classical
  obtain ⟨t, ht, hnd⟩ := hring
  have hne : t ≠ j := by
    rintro rfl
    rw [hd] at hnd
    exact absurd hnd (by simp)
  -- the reaches to the left and to the right of column j
  have exL : ∃ L, (g i (leftCol c j (L + 1))).IsDrivable = false ∧ L + 1 < c.TH := by
    obtain ⟨m, hm1, hm2, e⟩ := leftCol_hits c j t hj ht hne
    exact ⟨m - 1, by rw [show m - 1 + 1 = m by omega, e]; exact hnd, by omega⟩
  have exR : ∃ Rr, (g i (rightCol c j (Rr + 1))).IsDrivable = false ∧ Rr + 1 < c.TH := by
    obtain ⟨m, hm1, hm2, e⟩ := rightCol_hits c j t hj ht hne
    exact ⟨m - 1, by rw [show m - 1 + 1 = m by omega, e]; exact hnd, by omega⟩
  have hL := Nat.find_spec exL
  have hLmin := fun k => @Nat.find_min _ _ exL k
  have hR := Nat.find_spec exR
  have hRmin := fun k => @Nat.find_min _ _ exR k
  generalize Nat.find exL = L at hL hLmin
  generalize Nat.find exR = Rr at hR hRmin
  have hLd : ∀ k, 1 ≤ k → k ≤ L → (g i (leftCol c j k)).IsDrivable = true := by
    intro k hk1 hk2
    have := hLmin (k - 1) (by omega)
    rw [show k - 1 + 1 = k by omega] at this
    by_contra hh
    exact this ⟨by simpa using hh, by omega⟩
  have hRd : ∀ k, 1 ≤ k → k ≤ Rr → (g i (rightCol c j k)).IsDrivable = true := by
    intro k hk1 hk2
    have := hRmin (k - 1) (by omega)
    rw [show k - 1 + 1 = k by omega] at this
    by_contra hh
    exact this ⟨by simpa using hh, by omega⟩
  -- the run starts Rr columns to the right of j
  have hja : j = ((j + c.TH - Rr) % c.TH + Rr) % c.TH := by
    rw [Nat.mod_add_mod, show j + c.TH - Rr + Rr = j + c.TH by omega, Nat.add_mod_right,
      Nat.mod_eq_of_lt hj]
  refine ⟨(j + c.TH - Rr) % c.TH, 1 + L + Rr, Rr, ?_, by omega, hja⟩
  refine ⟨Nat.mod_lt _ (by omega), by omega, ?_, ?_, ?_⟩
  · intro k hk
    rcases Nat.lt_trichotomy k Rr with h | h | h
    · have := hRd (Rr - k) (by omega) (by omega)
      rw [hja, rightCol_run c _ Rr (Rr - k) (by omega) (by omega),
        show Rr - (Rr - k) = k by omega] at this
      exact this
    · subst h
      unfold runCol
      rw [← hja]
      exact hd
    · have := hLd (k - Rr) (by omega) (by omega)
      rw [hja, leftCol_run, show Rr + (k - Rr) = k by omega] at this
      exact this
  · have := hL.1
    rw [hja, leftCol_run, show Rr + (L + 1) = 1 + L + Rr by omega] at this
    exact this
  · have := hR.1
    rw [hja, rightCol_run_succ c _ Rr (by omega)] at this
    exact this


/-- After the cut of the maximal run `(a0, N0)` of ring `i`, every maximal run of ring `i`
was already a maximal run before the cut. -/
theorem maxRun_of_cut {g g' : PolarGrid} {TH i a0 N0 a N : Nat} (h0 : IsMaxRun g TH i a0 N0)
    (hcut : ∀ u, InRun TH a0 N0 u → (g' i u).IsDrivable = false)
    (hkeep : ∀ u, ¬ InRun TH a0 N0 u → (g' i u).IsDrivable = (g i u).IsDrivable)
    (h : IsMaxRun g' TH i a N) : IsMaxRun g TH i a N := by
  have hTH : 0 < TH := by have := h.1; omega
  have hcell : ∀ k, k < N → ¬ InRun TH a0 N0 (runCol TH a k)
      ∧ (g i (runCol TH a k)).IsDrivable = true := by
    intro k hk
    have hd := h.2.2.1 k hk
    have hnot : ¬ InRun TH a0 N0 (runCol TH a k) := by
      intro hin
      rw [hcut _ hin] at hd
      exact absurd hd (by simp)
    exact ⟨hnot, by rw [← hkeep _ hnot]; exact hd⟩
  refine ⟨h.1, h.2.1, fun k hk => (hcell k hk).2, ?_, ?_⟩
  · by_cases hin : InRun TH a0 N0 (runCol TH a N)
    · exfalso
      obtain ⟨k0, hk0, e⟩ := hin
      rw [runCol_eq_iff] at e
      have hN1 := hcell (N - 1) (by have := h.2.1; omega)
      rcases Nat.eq_zero_or_pos k0 with hz | hpos
      · subst hz
        have e2 : runCol TH a (N - 1) = runCol TH a0 (TH - 1) := by
          rw [runCol_eq_iff]
          apply Nat.ModEq.add_right_cancel' 1
          have e1 : a + (N - 1) + 1 = a + N := by have := h.2.1; omega
          have e3 : a0 + (TH - 1) + 1 = a0 + 0 + TH := by omega
          rw [e1, e3]
          refine e.trans ?_
          unfold Nat.ModEq
          rw [Nat.add_mod_right]
        have := hN1.2
        rw [e2, h0.2.2.2.2] at this
        exact absurd this (by simp)
      · apply hN1.1
        refine ⟨k0 - 1, by omega, ?_⟩
        rw [runCol_eq_iff]
        apply Nat.ModEq.add_right_cancel' 1
        have e1 : a + (N - 1) + 1 = a + N := by have := h.2.1; omega
        have e3 : a0 + (k0 - 1) + 1 = a0 + k0 := by omega
        rw [e1, e3]
        exact e
    · rw [← hkeep _ hin]
      exact h.2.2.2.1
  · by_cases hin : InRun TH a0 N0 (runCol TH a (TH - 1))
    · exfalso
      obtain ⟨k0, hk0, e⟩ := hin
      rw [runCol_eq_iff] at e
      have h00 := hcell 0 h.2.1
      have e2 : runCol TH a 0 = runCol TH a0 (k0 + 1) := by
        rw [runCol_eq_iff]
        have e1 : a + (TH - 1) + 1 ≡ a0 + k0 + 1 [MOD TH] := Nat.ModEq.add_right 1 e
        have e3 : a + (TH - 1) + 1 = a + 0 + TH := by omega
        rw [e3] at e1
        refine Nat.ModEq.trans ?_ e1
        unfold Nat.ModEq
        rw [Nat.add_mod_right]
      rcases Nat.lt_or_ge (k0 + 1) N0 with hlt | hge
      · exact h00.1 ⟨k0 + 1, hlt, e2⟩
      · have hk : k0 + 1 = N0 := by omega
        have := h00.2
        rw [e2, hk, h0.2.2.2.1] at this
        exact absurd this (by simp)
    · rw [← hkeep _ hin]
      exact h.2.2.2.2

/-- `IsMaxRun` of ring `i` depends on the drivable flags of the real cells of ring `i` only. -/
theorem IsMaxRun.congr {g g' : PolarGrid} {TH i a N : Nat}
    (hsame : ∀ t : Nat, t < TH → (g' i t).IsDrivable = (g i t).IsDrivable)
    (h : IsMaxRun g TH i a N) : IsMaxRun g' TH i a N := by
  have hTH : 0 < TH := by have := h.1; omega
  have key : ∀ k, (g' i (runCol TH a k)).IsDrivable = (g i (runCol TH a k)).IsDrivable :=
    fun k => hsame _ (Nat.mod_lt _ hTH)
  refine ⟨h.1, h.2.1, fun k hk => ?_, ?_, ?_⟩
  · rw [key]; exact h.2.2.1 k hk
  · rw [key]; exact h.2.2.2.1
  · rw [key]; exact h.2.2.2.2


/-- The outcome of the scan that `clipCell` starts at a cell of the maximal run `(a, N)`. -/
theorem clipCell_run (c : Config) (g g' : PolarGrid) (i a N p fuel : Nat)
    (hw : 0 ≤ c.grid_size_r) (hmin : c.minRing ≤ (i : Int)) (hrun : IsMaxRun g c.TH i a N)
    (hp : p < N) (hchk : (g i (runCol c.TH a p)).IsChecked = false)
    (h : clipCell c fuel i ((a + p) % c.TH) g = some g') : RunPost c g i a N g' := by
  have hd : (g i (((a + p) % c.TH : Nat) : Int)).IsDrivable = true := hrun.2.2.1 p hp
  have hc : (g i (((a + p) % c.TH : Nat) : Int)).IsChecked = false := hchk
  unfold clipCell at h
  rw [if_neg (by rw [hd]; simp; omega), hc] at h
  simp only [Bool.false_eq_true, if_false] at h
  obtain ⟨g2, h2, post⟩ := scanLoop_run c g i a N p (max fuel N) hw hrun hp (le_max_right _ _)
  have := scanLoop_fuel_mono c i _ fuel 1 _ g' h (max fuel N) (le_max_left _ _)
  rw [h2] at this
  simp only [Option.some.injEq] at this
  rw [← this]
  exact post

theorem clipCell_RingInv (c : Config) (fuel i j : Nat) (g g' : PolarGrid)
    (hw : 0 ≤ c.grid_size_r) (hmin : c.minRing ≤ (i : Int)) (hiR : i < c.R) (hj : j < c.TH)
    (inv : RingInv c i j g) (h : clipCell c fuel i j g = some g') :
    RingInv c i (j + 1) g' := by
  have hTH : 0 < c.TH := by omega
  -- a run that avoids column j and satisfies the invariant at j satisfies it at j + 1
  have step : ∀ a N k, k < N → runCol c.TH a k ≠ (j : Int) →
      (j : Int) ≤ runCol c.TH a k → ((j + 1 : Nat) : Int) ≤ runCol c.TH a k := by
    intro a N k _ hne hle
    push_cast
    omega
  by_cases hd : (g i j).IsDrivable = true
  swap
  · -- the cell is not drivable: nothing happens
    have hg : g' = g := by
      unfold clipCell at h
      rw [if_pos (Or.inr (by simpa using hd))] at h
      simp only [Option.some.injEq] at h
      exact h.symm
    subst hg
    intro a N hrun hn k hk
    obtain ⟨h1, h2⟩ := inv a N hrun hn k hk
    refine ⟨step a N k hk ?_ h1, h2⟩
    intro e
    have := hrun.2.2.1 k hk
    rw [e] at this
    exact hd this
  by_cases hc : (g i j).IsChecked = true
  · -- the cell is already checked: nothing happens
    have hg : g' = g := by
      unfold clipCell at h
      rw [if_neg (by rw [hd]; simp; omega), if_pos hc] at h
      simp only [Option.some.injEq] at h
      exact h.symm
    subst hg
    intro a N hrun hn k hk
    obtain ⟨h1, h2⟩ := inv a N hrun hn k hk
    refine ⟨step a N k hk ?_ h1, h2⟩
    intro e
    rw [e, hc] at h2
    exact absurd h2 (by simp)
  -- a scan is started at column j
  by_cases hring : ∃ t, t < c.TH ∧ (g i t).IsDrivable = false
  · obtain ⟨a0, N0, p0, hrun0, hp0, hj0⟩ := exists_maxRun c g i j hj hd hring
    subst hj0
    have post := clipCell_run c g g' i a0 N0 p0 fuel hw hmin hrun0 hp0 (by simpa using hc) h
    by_cases hn0 : narrow c i N0 = true
    · -- the run of column j is cut
      have hcut : ∀ u, InRun c.TH a0 N0 u → (g' i u).IsDrivable = false :=
        fun u hu => post.cut hn0 i u (le_refl _) (by exact_mod_cast hiR) hu
      have hkeep : ∀ u, ¬ InRun c.TH a0 N0 u → (g' i u).IsDrivable = (g i u).IsDrivable :=
        fun u hu => post.keep hn0 i u (fun hh => hu hh.2)
      intro a N hrun hn k hk
      have hrunG := maxRun_of_cut hrun0 hcut hkeep hrun
      obtain ⟨h1, h2⟩ := inv a N hrunG hn k hk
      have hnot : ¬ InRun c.TH a0 N0 (runCol c.TH a k) := by
        intro hin
        have := hrun.2.2.1 k hk
        rw [hcut _ hin] at this
        exact absurd this (by simp)
      refine ⟨step a N k hk ?_ h1, ?_⟩
      · intro e
        exact hnot ⟨p0, hp0, e⟩
      · by_contra hh
        rcases post.chk i _ (by simpa using hh) with h3 | ⟨_, h3⟩
        · rw [h2] at h3; exact absurd h3 (by simp)
        · exact hnot h3
    · -- the run of column j is wide: only checked marks are set, inside that run
      have hsame := post.same (by simpa using hn0)
      intro a N hrun hn k hk
      have hrunG : IsMaxRun g c.TH i a N := hrun.congr (fun t _ => (hsame i t).symm)
      obtain ⟨h1, h2⟩ := inv a N hrunG hn k hk
      have hnot : ¬ InRun c.TH a0 N0 (runCol c.TH a k) := by
        rintro ⟨l, hl, e⟩
        have := (maxRun_unique hrunG hrun0 k l hk hl e).2
        rw [this] at hn
        exact hn0 hn
      refine ⟨step a N k hk ?_ h1, ?_⟩
      · intro e
        exact hnot ⟨p0, hp0, e⟩
      · by_contra hh
        rcases post.chk i _ (by simpa using hh) with h3 | ⟨_, h3⟩
        · rw [h2] at h3; exact absurd h3 (by simp)
        · exact hnot h3
  · -- the whole ring is drivable: the scan cuts nothing and the ring has no maximal run
    have hall : ∀ t : Nat, t < c.TH → (g i t).IsDrivable = true := by
      intro t ht
      by_contra hh
      exact hring ⟨t, ht, by simpa using hh⟩
    have hfull : ∀ m, (g i (leftCol c j m)).IsDrivable = true := by
      intro m
      rw [leftCol_eq]
      exact hall _ (Nat.mod_lt _ hTH)
    have hsame : ∀ n u, (g' n u).IsDrivable = (g n u).IsDrivable := by
      unfold clipCell at h
      rw [if_neg (by rw [hd]; simp; omega), if_neg hc] at h
      exact scanLoop_full c g i j hfull fuel 1 _ g' (fun _ _ => rfl) rfl h
    intro a N hrun _ k _
    exfalso
    have hb := hrun.2.2.2.1
    rw [hsame] at hb
    have := hall ((a + N) % c.TH) (Nat.mod_lt _ hTH)
    unfold runCol at hb
    rw [hb] at this
    exact absurd this (by simp)


theorem Frame.refl (i : Nat) (g : PolarGrid) : Frame i g g :=
  ⟨fun _ _ _ => rfl, fun _ _ _ => rfl⟩

theorem Frame.trans {i : Nat} {g1 g2 g3 : PolarGrid} (h1 : Frame i g1 g2)
    (h2 : Frame i g2 g3) : Frame i g1 g3 :=
  ⟨fun n u hn => (h2.1 n u hn).trans (h1.1 n u hn),
    fun n u hn => (h2.2 n u hn).trans (h1.2 n u hn)⟩

theorem clipCell_frame (c : Config) (fuel i j : Nat) (g g' : PolarGrid)
    (h : clipCell c fuel i j g = some g') : Frame i g g' := by
  unfold clipCell at h
  split_ifs at h
  · simp only [Option.some.injEq] at h; subst h; exact Frame.refl i g
  · simp only [Option.some.injEq] at h; subst h; exact Frame.refl i g
  · exact scanLoop_frame c i j fuel 1 _ g' h

theorem clipRing_frame (c : Config) (fuel i : Nat) (g g' : PolarGrid)
    (h : clipRing c fuel i g = some g') : Frame i g g' :=
  foldlM_option_rel (Frame i) (Frame.refl i) (fun _ _ _ h1 h2 => h1.trans h2)
    (fun g j => clipCell c fuel i j g) (fun b a b' hb => clipCell_frame c fuel i a b b' hb)
    _ g g' h

/-- After the pass over a ring at or beyond the first clipped ring, no narrow maximal run
is left in that ring. -/
theorem clipRing_no_narrow (c : Config) (fuel i : Nat) (g g' : PolarGrid)
    (hw : 0 ≤ c.grid_size_r) (hmin : c.minRing ≤ (i : Int)) (hiR : i < c.R)
    (hfresh : ∀ u, (g i u).IsChecked = false) (h : clipRing c fuel i g = some g')
    (a N : Nat) (hrun : IsMaxRun g' c.TH i a N) : narrow c i N = false := by
  have h0 : RingInv c i 0 g := by
    intro a N _ _ k _
    exact ⟨by simpa using runCol_nonneg c.TH a k, hfresh _⟩
  have hend : RingInv c i c.TH g' :=
    foldlM_range_inv (fun j G => RingInv c i j G) (fun g j => clipCell c fuel i j g) c.TH
      (fun k b b' hk inv hb => clipCell_RingInv c fuel i k b b' hw hmin hiR hk inv hb)
      g g' h0 h
  by_contra hn
  have := (hend a N hrun (by simpa using hn) 0 hrun.2.1).1
  have hlt := runCol_lt c.TH a 0 (by have := hrun.1; omega)
  omega

theorem clipRing_ClipInv (c : Config) (fuel k : Nat) (g g' : PolarGrid)
    (hw : 0 ≤ c.grid_size_r) (hk : k < c.R) (inv : ClipInv c k g)
    (h : clipRing c fuel k g = some g') : ClipInv c (k + 1) g' := by
  have hf := clipRing_frame c fuel k g g' h
  constructor
  · intro n u hn
    rw [hf.2 n u (by push_cast at hn; omega)]
    exact inv.1 n u (by push_cast at hn; omega)
  · intro i hi hmin a N hrun
    rcases Nat.lt_succ_iff_lt_or_eq.mp hi with hlt | heq
    · exact inv.2 i hlt hmin a N
        (hrun.congr (fun t _ => (hf.1 i t (by exact_mod_cast hlt)).symm))
    · subst heq
      exact clipRing_no_narrow c fuel i g g' hw hmin hk (fun u => inv.1 i u (le_refl _)) h
        a N hrun

theorem castInt_of_nonneg (q : ℚ) (h : 0 ≤ q) : castInt q = Rat.floor q := by
  unfold castInt
  rw [Rat.floor_def', Int.tdiv_eq_ediv (Rat.num_nonneg.mpr h) (by positivity)]

theorem minRing_eq_floor (c : Config) (hw : 0 ≤ c.grid_size_r) :
    c.minRing = Rat.floor ((8 / 5 : ℚ) / c.grid_size_r) :=
  castInt_of_nonneg _ (div_nonneg (by norm_num) hw)

/-- The grid that the width clipping of a fresh grid (no checked marks) returns has no
narrow maximal run in a ring at or beyond `floor(1.6 / grid_size_r)`. -/
theorem widthClip_result_wide (c : Config) (fuel : Nat) (g g' : PolarGrid)
    (hw : 0 ≤ c.grid_size_r) (hfresh : ∀ n u, (g n u).IsChecked = false)
    (h : widthClip c fuel g = some g') (i : Nat) (hiR : i < c.R)
    (hi : Rat.floor ((8 / 5 : ℚ) / c.grid_size_r) ≤ (i : Int))
    (a N : Nat) (hrun : IsMaxRun g' c.TH i a N) :
    c.cut_width ≤ (i : ℚ) * c.grid_size_r * c.grid_size_th * (N : ℚ) := by
  have hend : ClipInv c c.R g' :=
    foldlM_range_inv (fun k G => ClipInv c k G) (fun g i => clipRing c fuel i g) c.R
      (fun k b b' hk inv hb => clipRing_ClipInv c fuel k b b' hw hk inv hb)
      g g' ⟨fun n u _ => hfresh n u, fun i hi => by omega⟩ h
  have := hend.2 i hiR (by rw [minRing_eq_floor c hw]; exact hi) a N hrun
  unfold narrow at this
  simpa using this


theorem clip_small_isSome :
    (widthClip smallConfig 8 (columnsGrid [0, 1, 2, 3, 4, 5])).isSome = true := by decide!

theorem widthClip_monotone_witness :
    (((widthClip smallConfig 8 (columnsGrid [0, 1, 2, 3, 4, 5])).get clip_small_isSome) 2 0).IsDrivable
        = true
      ∧ (columnsGrid [0, 1, 2, 3, 4, 5] 2 0).IsDrivable = true :=
  ⟨by decide!, widthClip_monotone smallConfig 8 (columnsGrid [0, 1, 2, 3, 4, 5]) _
    (Option.some_get clip_small_isSome).symm 2 0 (by decide!)⟩


/-! ## Boundary extraction -/

theorem markColumn_IsDrivable (g : PolarGrid) (j n : Nat) (a t : Int) :
    (markColumn g j n a t).IsDrivable
      = if t = (j : Int) ∧ 0 ≤ a ∧ a < (n : Int) then true else (g a t).IsDrivable := by
  unfold markColumn
  induction n with
  | zero =>
    have : ¬ (t = (j : Int) ∧ 0 ≤ a ∧ a < ((0 : Nat) : Int)) := by
      rintro ⟨-, h1, h2⟩; omega
    simp only [List.range_zero, List.foldl_nil, if_neg this]
  | succ n ih =>
    rw [List.range_succ, List.foldl_append]
    simp only [List.foldl_cons, List.foldl_nil]
    rw [setDrivable_IsDrivable, ih]
    by_cases ht : t = (j : Int)
    · by_cases h1 : a = (n : Int)
      · have h2 : 0 ≤ a ∧ a < ((n + 1 : Nat) : Int) := by
          constructor <;> push_cast <;> omega
        simp [ht, h1, h2]
      · have h3 : (0 ≤ a ∧ a < ((n + 1 : Nat) : Int)) ↔ (0 ≤ a ∧ a < (n : Int)) := by
          push_cast; omega
        simp only [h1, ht, false_and, if_false, true_and, h3]
    · simp [ht]

theorem markColumn_IsChecked (g : PolarGrid) (j n : Nat) (a t : Int) :
    (markColumn g j n a t).IsChecked = (g a t).IsChecked := by
  unfold markColumn
  induction n with
  | zero => simp
  | succ n ih =>
    rw [List.range_succ, List.foldl_append]
    simp only [List.foldl_cons, List.foldl_nil]
    rw [setDrivable_IsChecked, ih]

theorem markColumn_zero (g : PolarGrid) (j : Nat) : markColumn g j 0 = g := rfl

/-- The first step of the minimum search overwrites `min` and `min_idx`. -/
theorem minScan_init (pts : List PointXYZ) (h : pts ≠ []) (st st2 : ℚ × Nat) :
    minScan 0 pts st = minScan 0 pts st2 := by
  cases pts with
  | nil => exact absurd rfl h
  | cons p ps => simp [minScan, minStep]

/-- The minimum search from index `pre.length` on, after the non-empty part `pre`. -/
theorem minScan_invariant (ps pre : List PointXYZ) (m : ℚ) (idx : Nat) (p : PointXYZ)
    (hpre : pre ≠ []) (hm : m = score p) (hp : IsNearest pre idx p) :
    ∃ q, IsNearest (pre ++ ps) (minScan pre.length ps (m, idx)).2 q := by
  induction ps generalizing pre m idx p with
  | nil => exact ⟨p, by simpa [minScan] using hp⟩
  | cons x xs ih =>
    rw [minScan]
    have hlen : pre.length ≠ 0 := by
      intro h; exact hpre (List.length_eq_zero.mp h)
    have hidx : idx < pre.length := by
      by_contra hh
      have := hp.1
      rw [List.getElem?_eq_none (by omega)] at this
      exact absurd this (by simp)
    have hstep : minStep (m, idx) pre.length x
        = if score x < m then (score x, pre.length) else (m, idx) := by
      unfold minStep
      simp [hlen]
    rw [hstep]
    have happ : pre ++ x :: xs = (pre ++ [x]) ++ xs := by simp
    have hlen2 : (pre ++ [x]).length = pre.length + 1 := by simp
    rw [happ, ← hlen2]
    by_cases hlt : score x < m
    · rw [if_pos hlt]
      refine ih (pre ++ [x]) (score x) pre.length x (by simp) rfl ?_
      refine ⟨by simp, ?_, ?_⟩
      · intro q hq
        rcases List.mem_append.mp hq with h | h
        · exact le_of_lt (lt_of_lt_of_le hlt (hm ▸ hp.2.1 q h))
        · simp only [List.mem_singleton] at h
          rw [h]
      · intro k2 q hk2 hq
        rw [List.getElem?_append_left hk2] at hq
        exact lt_of_lt_of_le hlt (hm ▸ hp.2.1 q (List.getElem?_mem hq))
    · rw [if_neg hlt, hlen2]
      have := ih (pre ++ [x]) m idx p (by simp) hm ?_
      · rwa [hlen2] at this
      refine ⟨?_, ?_, ?_⟩
      · rw [List.getElem?_append_left hidx]; exact hp.1
      · intro q hq
        rcases List.mem_append.mp hq with h | h
        · exact hp.2.1 q h
        · simp only [List.mem_singleton] at h
          rw [h]
          have hle := not_lt.mp hlt
          rw [hm] at hle
          exact hle
      · intro k2 q hk2 hq
        rw [List.getElem?_append_left (by omega)] at hq
        exact hp.2.2 k2 q hk2 hq

theorem IsNearest.unique {pts : List PointXYZ} {k k2 : Nat} {p q : PointXYZ}
    (h1 : IsNearest pts k p) (h2 : IsNearest pts k2 q) : k = k2 ∧ p = q := by
  have hk : k = k2 := by
    rcases Nat.lt_trichotomy k k2 with h | h | h
    · have a := h2.2.2 k p h h1.1
      have b := h1.2.1 q (List.getElem?_mem h2.1)
      exact absurd (lt_of_lt_of_le a b) (lt_irrefl _)
    · exact h
    · have a := h1.2.2 k2 q h h2.1
      have b := h2.2.1 p (List.getElem?_mem h1.1)
      exact absurd (lt_of_lt_of_le a b) (lt_irrefl _)
  subst hk
  have := h1.1.symm.trans h2.1
  simp only [Option.some.injEq] at this
  exact ⟨rfl, this⟩

/-- The minimum search returns the index of the first point of minimal score. -/
theorem minScan_nearest (pts : List PointXYZ) (k : Nat) (p : PointXYZ) (st : ℚ × Nat)
    (h : IsNearest pts k p) : (minScan 0 pts st).2 = k := by
  cases pts with
  | nil =>
    have := h.1
    simp at this
  | cons x xs =>
    rw [minScan]
    have hstep : minStep st 0 x = (score x, 0) := by
      unfold minStep
      simp
    rw [hstep]
    obtain ⟨q, hq⟩ := minScan_invariant xs [x] (score x) 0 x (by simp) rfl
      ⟨by simp, by simp, by intro k2 q hk2; omega⟩
    simp only [List.length_singleton, List.singleton_append, zero_add] at hq
    exact (hq.unique h).1


theorem extractSector_grid (M : Libm) (c : Config) (obstacle : Sectors) (st : ExtractState)
    (j : Nat) :
    (extractSector M c obstacle st j).grid = markColumn st.grid j (sectorRows M c obstacle j) := by
  unfold extractSector sectorRows
  split_ifs with h1 h2
  · rfl
  · rfl
  · have hne : obstacle (j : Int) ≠ [] := fun h => h2 (by rw [h]; rfl)
    simp only
    rw [minScan_init (obstacle j) hne (st.min, st.min_idx) (0, 0)]

/-- The drivable flags after the sectors below `n` have been processed. -/
theorem extract_fold_IsDrivable (M : Libm) (c : Config) (obstacle : Sectors) (n : Nat)
    (st : ExtractState) (a t : Int) :
    (((List.range n).foldl (extractSector M c obstacle) st).grid a t).IsDrivable
      = if ∃ j, j < n ∧ t = (j : Int) ∧ 0 ≤ a ∧ a < (sectorRows M c obstacle j : Int) then true
        else (st.grid a t).IsDrivable := by
  induction n with
  | zero => simp
  | succ n ih =>
    rw [List.range_succ, List.foldl_append]
    simp only [List.foldl_cons, List.foldl_nil]
    rw [extractSector_grid, markColumn_IsDrivable, ih]
    by_cases h1 : t = (n : Int) ∧ 0 ≤ a ∧ a < (sectorRows M c obstacle n : Int)
    · rw [if_pos h1, if_pos ⟨n, by omega, h1⟩]
    · rw [if_neg h1]
      have h3 : (∃ j, j < n + 1 ∧ t = (j : Int) ∧ 0 ≤ a ∧ a < (sectorRows M c obstacle j : Int))
          ↔ (∃ j, j < n ∧ t = (j : Int) ∧ 0 ≤ a ∧ a < (sectorRows M c obstacle j : Int)) := by
        constructor
        · rintro ⟨j, hj, e⟩
          rcases Nat.lt_succ_iff_lt_or_eq.mp hj with h | h
          · exact ⟨j, h, e⟩
          · subst h; exact absurd e h1
        · rintro ⟨j, hj, e⟩; exact ⟨j, by omega, e⟩
      simp only [h3]

theorem extract_fold_IsChecked (M : Libm) (c : Config) (obstacle : Sectors) (n : Nat)
    (st : ExtractState) (a t : Int) :
    (((List.range n).foldl (extractSector M c obstacle) st).grid a t).IsChecked
      = (st.grid a t).IsChecked := by
  induction n with
  | zero => simp
  | succ n ih =>
    rw [List.range_succ, List.foldl_append]
    simp only [List.foldl_cons, List.foldl_nil]
    rw [extractSector_grid, markColumn_IsChecked, ih]

/-- The drivable flags of column `j` after boundary extraction. -/
theorem extract_IsDrivable (M : Libm) (c : Config) (obstacle : Sectors) (g : PolarGrid)
    (j : Nat) (hj : j < c.TH) (a : Int) :
    (SectorBoundaryExtractor M c obstacle g a j).IsDrivable
      = if 0 ≤ a ∧ a < (sectorRows M c obstacle j : Int) then true else (g a j).IsDrivable := by
  unfold SectorBoundaryExtractor
  rw [extract_fold_IsDrivable]
  by_cases h : 0 ≤ a ∧ a < (sectorRows M c obstacle j : Int)
  · rw [if_pos h, if_pos ⟨j, hj, rfl, h⟩]
  · rw [if_neg h, if_neg]
    rintro ⟨j2, _, e, h2⟩
    have : j2 = j := by exact_mod_cast e.symm
    subst this
    exact h h2

theorem extract_IsChecked (M : Libm) (c : Config) (obstacle : Sectors) (g : PolarGrid)
    (a t : Int) :
    (SectorBoundaryExtractor M c obstacle g a t).IsChecked = (g a t).IsChecked := by
  unfold SectorBoundaryExtractor
  rw [extract_fold_IsChecked]

theorem sectorRows_nearest (M : Libm) (c : Config) (obstacle : Sectors) (j k : Nat)
    (p : PointXYZ) (hskip : ¬ (c.x_backward = 0 ∧ (c.TH / 4 ≤ j ∧ j < c.TH / 4 * 3)))
    (hp : IsNearest (obstacle j) k p) :
    sectorRows M c obstacle j
      = (Rat.floor (M.sqrt (p.x * p.x + p.y * p.y) / c.grid_size_r)).toNat := by
  unfold sectorRows
  have hne : (obstacle (j : Int)).length ≠ 0 := by
    intro h
    have := hp.1
    rw [List.length_eq_zero.mp h] at this
    simp at this
  rw [if_neg hskip, if_neg hne, minScan_nearest (obstacle j) k p (0, 0) hp]
  have : (obstacle (j : Int)).getD k { x := 0, y := 0, z := 0 } = p := by
    rw [List.getD_eq_getElem?_getD, hp.1]
    rfl
  rw [this]

/-- Every non-empty list of points has a first point of minimal score. -/
theorem exists_nearest (pts : List PointXYZ) (h : pts ≠ []) : ∃ k p, IsNearest pts k p := by
  cases pts with
  | nil => exact absurd rfl h
  | cons x xs =>
    obtain ⟨q, hq⟩ := minScan_invariant xs [x] (score x) 0 x (by simp) rfl
      ⟨by simp, by simp, by intro k2 q hk2; omega⟩
    exact ⟨_, q, hq⟩

/-- A scan of a ring in which both sides meet a non-drivable cell ends. -/
theorem scanLoop_terminates (c : Config) (g : PolarGrid) (i j L Rr : Nat)
    (hL : LeftReach c g i j L) (hR : RightReach c g i j Rr) :
    ∀ (fuel m : Nat) (s : ScanState), 1 ≤ m → ScanInv c g i j L Rr m m s →
      max L Rr + 1 - m < fuel → ∃ g', scanLoop c i j fuel m s = some g' := by
  intro fuel
  induction fuel with
  | zero => intro m s _ _ h; omega
  | succ fuel ih =>
    intro m s hm inv hfuel
    rw [scanLoop_succ]
    have inv2 := scanRight_inv c g i j L Rr (m + 1) m _ hm hR
      (scanLeft_inv c g i j L Rr m m s hm hL inv)
    split_ifs with h1 hb
    · exact ⟨_, rfl⟩
    · rw [inv2.lflag, inv2.rflag] at hb
      simp only [Bool.and_eq_true, decide_eq_true_eq] at hb
      exact ih (m + 1) _ (by omega) inv2 (by omega)
    · exact ⟨_, rfl⟩

/-- In a ring that is not entirely drivable the loop body ends within `TH` steps. -/
theorem clipCell_terminates (c : Config) (fuel i j : Nat) (g : PolarGrid) (hj : j < c.TH)
    (hring : ∃ t, t < c.TH ∧ (g i t).IsDrivable = false) (hfuel : c.TH ≤ fuel) :
    ∃ g', clipCell c fuel i j g = some g' := by
  unfold clipCell
  split_ifs with h1 h2
  · exact ⟨_, rfl⟩
  · exact ⟨_, rfl⟩
  · have hd : (g i j).IsDrivable = true := by
      by_contra hh
      exact h1 (Or.inr (by simpa using hh))
    obtain ⟨a, N, p, hrun, hp, hja⟩ := exists_maxRun c g i j hj hd hring
    subst hja
    have hN := hrun.lt
    exact scanLoop_terminates c g i _ (N - 1 - p) p (hrun.leftReach p hp) (hrun.rightReach p hp)
      fuel 1 (ScanState.start g) (le_refl 1) (ScanInv_start c g i _ _ _) (by omega)

theorem clipRing_terminates (c : Config) (fuel i : Nat) (g : PolarGrid)
    (hring : ∃ t, t < c.TH ∧ (g i t).IsDrivable = false) (hfuel : c.TH ≤ fuel) :
    ∃ g', clipRing c fuel i g = some g' := by
  obtain ⟨g', h, _⟩ := foldlM_range_some
    (fun _ G => ∃ t, t < c.TH ∧ (G i t).IsDrivable = false)
    (fun g j => clipCell c fuel i j g) c.TH
    (fun k b hk hb => by
      obtain ⟨b', hb'⟩ := clipCell_terminates c fuel i k b hk hb hfuel
      refine ⟨b', hb', ?_⟩
      obtain ⟨t, ht, hnd⟩ := hb
      refine ⟨t, ht, ?_⟩
      by_contra hh
      have := clipCell_DrivableLe c fuel i k b b' hb' i t (by simpa using hh)
      rw [hnd] at this
      exact absurd this (by simp))
    g hring
  exact ⟨g', h⟩

/-- When no ring is entirely drivable, the width clipping ends with fuel `TH`. -/
theorem widthClip_terminates (c : Config) (fuel : Nat) (g : PolarGrid)
    (hring : ∀ i, i < c.R → ∃ t, t < c.TH ∧ (g i t).IsDrivable = false) (hfuel : c.TH ≤ fuel) :
    ∃ g', widthClip c fuel g = some g' := by
  obtain ⟨g', h, _⟩ := foldlM_range_some
    (fun _ G => ∀ i, i < c.R → ∃ t, t < c.TH ∧ (G i t).IsDrivable = false)
    (fun g i => clipRing c fuel i g) c.R
    (fun k b hk hb => by
      obtain ⟨b', hb'⟩ := clipRing_terminates c fuel k b (hb k hk) hfuel
      refine ⟨b', hb', ?_⟩
      intro i hi
      obtain ⟨t, ht, hnd⟩ := hb i hi
      refine ⟨t, ht, ?_⟩
      by_contra hh
      have := clipRing_DrivableLe c fuel k b b' hb' i t (by simpa using hh)
      rw [hnd] at this
      exact absurd this (by simp))
    g hring
  exact ⟨g', h⟩

/-- C9. Rear exclusion. With backward extent 0 and a grid without drivable flags, for every
contents of the obstacle sectors, every cell `(i, j)` with `TH/4 ≤ j < 3 * (TH/4)` (integer
division) and `0 ≤ i < R` is non-drivable after boundary extraction; the width clipping
(with fuel `TH` or more) ends, and the cell is still non-drivable after it. -/
theorem rear_sectors_excluded (M : Libm) (c : Config) (obstacle : Sectors) (g : PolarGrid)
    (fuel : Nat) (hback : c.x_backward = 0) (hfresh : ∀ n u, (g n u).IsDrivable = false)
    (hfuel : c.TH ≤ fuel) (i j : Nat) (_hi : i < c.R) (hj1 : c.TH / 4 ≤ j)
    (hj2 : j < c.TH / 4 * 3) :
    (SectorBoundaryExtractor M c obstacle g i j).IsDrivable = false
      ∧ ∃ g', widthClip c fuel (SectorBoundaryExtractor M c obstacle g) = some g'
        ∧ (g' i j).IsDrivable = false := by
  have hj : j < c.TH := by omega
  have hcol : ∀ n : Int, (SectorBoundaryExtractor M c obstacle g n j).IsDrivable = false := by
    intro n
    rw [extract_IsDrivable M c obstacle g j hj]
    have : sectorRows M c obstacle j = 0 := by
      unfold sectorRows
      rw [if_pos ⟨hback, hj1, hj2⟩]
    rw [this, if_neg (by omega)]
    exact hfresh n j
  refine ⟨hcol i, ?_⟩
  obtain ⟨g', hg'⟩ := widthClip_terminates c fuel (SectorBoundaryExtractor M c obstacle g)
    (fun n _ => ⟨j, hj, hcol n⟩) hfuel
  refine ⟨g', hg', ?_⟩
  by_contra hh
  have := widthClip_DrivableLe c fuel _ g' hg' i j (by simpa using hh)
  rw [hcol i] at this
  exact absurd this (by simp)

theorem rear_sectors_excluded_witness :
    (SectorBoundaryExtractor exampleLibm defaultConfig oneObstacle emptyGrid
        ((7 : Nat) : Int) ((45 : Nat) : Int)).IsDrivable = false
      ∧ ∃ g', widthClip defaultConfig 180
            (SectorBoundaryExtractor exampleLibm defaultConfig oneObstacle emptyGrid) = some g'
        ∧ (g' ((7 : Nat) : Int) ((45 : Nat) : Int)).IsDrivable = false :=
  rear_sectors_excluded exampleLibm defaultConfig oneObstacle emptyGrid 180 rfl (fun _ _ => rfl)
    (by decide) 7 45 (by decide) (by decide) (by decide)


/-! ## The obstacle-free frame under the default configuration -/

/-- With the single-precision radial width `0.4f` the quotient `1.6/grid_size_r` is just
below 4, so the first clipped ring is ring 3. -/
theorem defaultConfig_minRing : defaultConfig.minRing = 3 := by decide!

theorem defaultConfig_wide (i : Nat) (hi : 3 ≤ i) : narrow defaultConfig i 90 = false := by
  unfold narrow
  simp only [decide_eq_false_iff_not, not_lt]
  have h4 : (3 : ℚ) ≤ (i : ℚ) := by exact_mod_cast hi
  have : defaultConfig.cut_width = 7130317 / 4194304 := rfl
  rw [this]
  have : defaultConfig.grid_size_r = 13421773 / 33554432 := rfl
  rw [this]
  have : defaultConfig.grid_size_th = 2 * M_PI / 180 := by
    unfold Config.grid_size_th
    norm_num [defaultConfig]
  rw [this]
  unfold M_PI
  linarith

/-- The drivable flags after boundary extraction when every sector is empty. -/
theorem extract_empty_default (M : Libm) (g : PolarGrid)
    (hfresh : ∀ n u, (g n u).IsDrivable = false) (n : Int) (j : Nat) (hj : j < 180) :
    (SectorBoundaryExtractor M defaultConfig (fun _ => []) g n j).IsDrivable
      = decide ((0 ≤ n ∧ n < 60) ∧ (j < 45 ∨ 135 ≤ j)) := by
  rw [extract_IsDrivable M defaultConfig (fun _ => []) g j hj, hfresh]
  by_cases h1 : 45 ≤ j ∧ j < 135
  · have hrows : sectorRows M defaultConfig (fun _ => []) j = 0 := by
      unfold sectorRows
      simp [defaultConfig, h1]
    rw [hrows, if_neg (by omega)]
    symm
    simp only [decide_eq_false_iff_not]
    omega
  · have hrows : sectorRows M defaultConfig (fun _ => []) j = 60 := by
      unfold sectorRows
      simp [defaultConfig]
      omega
    rw [hrows]
    by_cases h2 : 0 ≤ n ∧ n < 60
    · rw [if_pos (by omega)]
      symm
      simp only [decide_eq_true_eq]
      omega
    · rw [if_neg (by omega)]
      symm
      simp only [decide_eq_false_iff_not]
      omega

/-- In a grid with the flags of the obstacle-free frame, the drivable cells of a ring are
the maximal run of 90 cells that starts at column 135. -/
theorem default_run (g : PolarGrid)
    (hflags : ∀ (n : Int) (j : Nat), j < 180 →
      (g n j).IsDrivable = decide ((0 ≤ n ∧ n < 60) ∧ (j < 45 ∨ 135 ≤ j)))
    (i : Nat) (hi : i < 60) : IsMaxRun g defaultConfig.TH i 135 90 := by
  have hTH : defaultConfig.TH = 180 := rfl
  rw [hTH]
  refine ⟨by omega, by omega, ?_, ?_, ?_⟩
  · intro k hk
    unfold runCol
    rw [hflags _ _ (Nat.mod_lt _ (by omega))]
    simp only [decide_eq_true_eq]
    omega
  · unfold runCol
    rw [hflags _ _ (Nat.mod_lt _ (by omega))]
    simp only [decide_eq_false_iff_not]
    omega
  · unfold runCol
    rw [hflags _ _ (Nat.mod_lt _ (by omega))]
    simp only [decide_eq_false_iff_not]
    omega

theorem default_clipCell (fuel i j : Nat) (g : PolarGrid) (hfuel : 180 ≤ fuel) (hi : i < 60)
    (hj : j < 180)
    (hflags : ∀ (n : Int) (j : Nat), j < 180 →
      (g n j).IsDrivable = decide ((0 ≤ n ∧ n < 60) ∧ (j < 45 ∨ 135 ≤ j))) :
    ∃ g', clipCell defaultConfig fuel i j g = some g'
      ∧ ∀ n u, (g' n u).IsDrivable = (g n u).IsDrivable := by
  by_cases hscan : ((i : Int) < defaultConfig.minRing ∨ (g i j).IsDrivable = false)
      ∨ (g i j).IsChecked = true
  · refine ⟨g, ?_, fun _ _ => rfl⟩
    unfold clipCell
    rcases hscan with h | h
    · rw [if_pos h]
    · split_ifs <;> rfl
  · push_neg at hscan
    obtain ⟨⟨h1, h2⟩, h3⟩ := hscan
    rw [defaultConfig_minRing] at h1
    have hd : (g i j).IsDrivable = true := by simpa using h2
    have hjj : j < 45 ∨ 135 ≤ j := by
      rw [hflags i j hj] at hd
      simp only [decide_eq_true_eq] at hd
      exact hd.2
    have hrun := default_run g hflags i hi
    have hp : (j + 45) % 180 < 90 := by omega
    have hja : j = (135 + (j + 45) % 180) % defaultConfig.TH := by
      have : defaultConfig.TH = 180 := rfl
      rw [this]
      omega
    obtain ⟨g', hg', post⟩ := scanLoop_run defaultConfig g i 135 90 ((j + 45) % 180) fuel
      (by norm_num [defaultConfig]) hrun hp (by omega)
    rw [← hja] at hg'
    refine ⟨g', ?_, post.same (defaultConfig_wide i (by omega))⟩
    unfold clipCell
    rw [if_neg (by push_neg; exact ⟨by rw [defaultConfig_minRing]; exact h1, h2⟩),
      if_neg h3]
    exact hg'

theorem default_widthClip (fuel : Nat) (g : PolarGrid) (hfuel : 180 ≤ fuel)
    (hflags : ∀ (n : Int) (j : Nat), j < 180 →
      (g n j).IsDrivable = decide ((0 ≤ n ∧ n < 60) ∧ (j < 45 ∨ 135 ≤ j))) :
    ∃ g', widthClip defaultConfig fuel g = some g'
      ∧ ∀ n u, (g' n u).IsDrivable = (g n u).IsDrivable := by
  have hring : ∀ i, i < 60 → ∀ G : PolarGrid,
      (∀ n u, (G n u).IsDrivable = (g n u).IsDrivable) →
      ∃ G', clipRing defaultConfig fuel i G = some G'
        ∧ ∀ n u, (G' n u).IsDrivable = (g n u).IsDrivable := by
    intro i hi G hG
    exact foldlM_range_some (fun _ G => ∀ n u, (G n u).IsDrivable = (g n u).IsDrivable)
      (fun g j => clipCell defaultConfig fuel i j g) defaultConfig.TH
      (fun k b hk hb => by
        obtain ⟨b', hb', hsame⟩ := default_clipCell fuel i k b hfuel hi hk
          (fun n j hj => by rw [hb]; exact hflags n j hj)
        exact ⟨b', hb', fun n u => by rw [hsame, hb]⟩)
      G hG
  exact foldlM_range_some (fun _ G => ∀ n u, (G n u).IsDrivable = (g n u).IsDrivable)
    (fun g i => clipRing defaultConfig fuel i g) defaultConfig.R
    (fun k b hk hb => hring k hk b hb) g (fun _ _ => rfl)

/-- C10. Obstacle-free frame. With an empty obstacle set every sector is empty, and under
the default configuration (R = 60, TH = 180, radial width `0.4f`, cut width `1.7f`,
backward extent 0), starting from a grid without drivable flags, every polar cell `(i, j)`
of every non-excluded sector (`j < TH/4` or `j ≥ 3 * (TH/4)`, `0 ≤ i < R`) is drivable after
boundary extraction; the width clipping (with fuel 180 or more), which scans the rings from
`(int)(1.6 / 0.4f) = 3` on, ends and the cell is still drivable after it. -/
theorem obstacle_free_frame (M : Libm) (g : PolarGrid) (fuel : Nat)
    (hfresh : ∀ n u, (g n u).IsDrivable = false) (hfuel : 180 ≤ fuel) :
    ∃ obstacle, rebin M defaultConfig [] = some obstacle ∧ (∀ t, obstacle t = [])
      ∧ ∃ g', widthClip defaultConfig fuel (SectorBoundaryExtractor M defaultConfig obstacle g)
          = some g'
        ∧ ∀ i j : Nat, i < defaultConfig.R → j < defaultConfig.TH →
            (j < defaultConfig.TH / 4 ∨ defaultConfig.TH / 4 * 3 ≤ j) →
            (SectorBoundaryExtractor M defaultConfig obstacle g i j).IsDrivable = true
              ∧ (g' i j).IsDrivable = true := by
  refine ⟨fun _ => [], rfl, fun _ => rfl, ?_⟩
  have hflags := extract_empty_default M g hfresh
  obtain ⟨g', hg', hsame⟩ := default_widthClip fuel _ hfuel hflags
  refine ⟨g', hg', ?_⟩
  intro i j hi hj hjj
  have hR : defaultConfig.R = 60 := rfl
  have hTH : defaultConfig.TH = 180 := rfl
  rw [hR] at hi
  rw [hTH] at hj hjj
  have hd : (SectorBoundaryExtractor M defaultConfig (fun _ => []) g i j).IsDrivable = true := by
    rw [hflags i j hj]
    simp only [decide_eq_true_eq]
    omega
  exact ⟨hd, by rw [hsame]; exact hd⟩

theorem obstacle_free_frame_witness :
    ∃ obstacle, rebin exampleLibm defaultConfig [] = some obstacle ∧ (∀ t, obstacle t = [])
      ∧ ∃ g', widthClip defaultConfig 180
            (SectorBoundaryExtractor exampleLibm defaultConfig obstacle emptyGrid) = some g'
        ∧ ∀ i j : Nat, i < defaultConfig.R → j < defaultConfig.TH →
            (j < defaultConfig.TH / 4 ∨ defaultConfig.TH / 4 * 3 ≤ j) →
            (SectorBoundaryExtractor exampleLibm defaultConfig obstacle emptyGrid i j).IsDrivable
                = true
              ∧ (g' i j).IsDrivable = true :=
  obstacle_free_frame exampleLibm emptyGrid 180 (fun _ _ => rfl) (le_refl _)


/-! ## The nearest obstacle of a sector is nearest by score, not by radius -/

theorem abs_sq_le (x y : ℚ) : (|x| + |y|) * (|x| + |y|) ≤ 2 * (x * x + y * y) := by
  have hx : |x| * |x| = x * x := abs_mul_abs_self x
  have hy : |y| * |y| = y * y := abs_mul_abs_self y
  nlinarith [sq_nonneg (|x| - |y|)]

theorem sq_le_abs_sq (x y : ℚ) : x * x + y * y ≤ (|x| + |y|) * (|x| + |y|) := by
  have hx : |x| * |x| = x * x := abs_mul_abs_self x
  have hy : |y| * |y| = y * y := abs_mul_abs_self y
  nlinarith [abs_nonneg x, abs_nonneg y, mul_nonneg (abs_nonneg x) (abs_nonneg y)]

theorem frontPoint_nearest : IsNearest [frontPoint, skewPoint] 0 frontPoint := by
  refine ⟨rfl, ?_, by intro k2 q hk2; omega⟩
  intro q hq
  simp only [List.mem_cons, List.mem_singleton, List.not_mem_nil, or_false] at hq
  rcases hq with h | h
  · rw [h]
  · rw [h]
    unfold frontPoint skewPoint
    norm_num [abs_of_nonneg]

theorem angleIndex_range (M : Libm) (c : Config) (x r : ℚ) (neg : Bool) (hTH : 1 ≤ c.TH)
    (hacos : ∀ v, 0 ≤ M.acos v ∧ M.acos v ≤ 2 * M_PI) (hr : r ≠ 0) :
    ∃ t, angleIndex M c x r neg = some t ∧ 0 ≤ t ∧ t < (c.TH : Int) := by
  unfold angleIndex
  rw [if_neg hr]
  refine ⟨_, rfl, ?_⟩
  have hpi := M_PI_pos
  have hth : 0 ≤ (if neg = true then 2 * M_PI - M.acos (x / r) else M.acos (x / r)) := by
    have := hacos (x / r)
    split_ifs <;> linarith
  have hgth : 0 ≤ c.grid_size_th := grid_size_th_nonneg c
  have hfl : 0 ≤ Rat.floor
      ((if neg = true then 2 * M_PI - M.acos (x / r) else M.acos (x / r)) / c.grid_size_th) := by
    rw [Rat.le_floor]
    simpa using div_nonneg hth hgth
  have hTHpos : (0 : Int) < (c.TH : Int) := by omega
  rw [Int.tmod_eq_emod hfl (by omega)]
  exact ⟨Int.emod_nonneg _ (by omega), Int.emod_lt_of_pos _ hTHpos⟩

theorem radialIndex_range (c : Config) (r : ℚ) (hR : 1 ≤ c.R) (hw : 0 < c.grid_size_r)
    (hr : 0 ≤ r) (hmax : Rat.floor (r / c.grid_size_r) ≤ 2147483647) :
    ∃ a, radialIndex c r = some a ∧ 0 ≤ a ∧ a < (c.R : Int)
      ∧ ((c.R : ℚ) * c.grid_size_r ≤ r → a = (c.R : Int) - 1) := by
  have hfl : 0 ≤ Rat.floor (r / c.grid_size_r) := by
    rw [Rat.le_floor]
    simpa using div_nonneg hr hw.le
  unfold radialIndex floorToInt
  rw [if_neg hw.ne.symm, if_pos ⟨by omega, hmax⟩, Option.map_some']
  refine ⟨_, rfl, ?_, ?_, ?_⟩
  · beta_reduce
    split_ifs <;> omega
  · beta_reduce
    split_ifs <;> omega
  · intro h
    have : (c.R : Int) ≤ Rat.floor (r / c.grid_size_r) := by
      rw [Rat.le_floor, le_div_iff₀ hw]
      exact_mod_cast h
    rw [if_pos this]

/-- The polar indices of a point away from the sensor origin whose radial quotient is in
the range of `int` are inside the grid, and the radial index is `R - 1` from the
configured radius on. -/
theorem polarIndex_range (M : Libm) (c : Config) (p : PointXYZ) (hR : 1 ≤ c.R)
    (hTH : 1 ≤ c.TH) (hw : 0 < c.grid_size_r)
    (hacos : ∀ v, 0 ≤ M.acos v ∧ M.acos v ≤ 2 * M_PI) (hsqrt : ∀ s, 0 ≤ M.sqrt s)
    (hr : M.sqrt (p.x * p.x + p.y * p.y) ≠ 0)
    (hmax : Rat.floor (M.sqrt (p.x * p.x + p.y * p.y) / c.grid_size_r) ≤ 2147483647) :
    ∃ a t, polarIndex M c p = some (a, t) ∧ 0 ≤ t ∧ t < (c.TH : Int) ∧ 0 ≤ a
      ∧ a < (c.R : Int)
      ∧ ((c.R : ℚ) * c.grid_size_r ≤ M.sqrt (p.x * p.x + p.y * p.y) → a = (c.R : Int) - 1) := by
  obtain ⟨t, ht, h0, h1⟩ := angleIndex_range M c p.x _ (decide (p.y < 0)) hTH hacos hr
  obtain ⟨a, ha, h2, h3, h4⟩ :=
    radialIndex_range c (M.sqrt (p.x * p.x + p.y * p.y)) hR hw (hsqrt _) hmax
  refine ⟨a, t, ?_, h0, h1, h2, h3, h4⟩
  unfold polarIndex
  rw [ht, ha]
  rfl

/-- At the sensor origin the angle of lines 126-133 has no value, and so has the index. -/
theorem polarIndex_origin (M : Libm) (c : Config) (z : ℚ) (h0 : M.sqrt 0 = 0) :
    polarIndex M c { x := 0, y := 0, z := z } = none := by
  unfold polarIndex angleIndex
  simp [h0]

/-- C6 fails at the sensor origin: for the input point `(0, 0, 0)` under the default
configuration lines 123-135 yield no indices at all, and the binning of a cloud that
contains this point has no defined result. -/
theorem polarIndex_origin_undefined :
    polarIndex exampleLibm defaultConfig { x := 0, y := 0, z := 0 } = none
      ∧ (PolarBinner exampleLibm defaultConfig [{ x := 0, y := 0, z := 0 }]).isNone = true :=
  ⟨by decide!, by decide!⟩


/-! ## The projection to the Cartesian grid -/

theorem mem_intRange (lo hi x : Int) : x ∈ intRange lo hi ↔ lo ≤ x ∧ x ≤ hi := by
  unfold intRange
  simp only [List.mem_map, List.mem_range]
  constructor
  · rintro ⟨k, hk, rfl⟩
    omega
  · rintro ⟨h1, h2⟩
    exact ⟨(x - lo).toNat, by omega, by omega⟩

theorem intRange_nodup (lo hi : Int) : (intRange lo hi).Nodup := by
  unfold intRange
  refine List.Nodup.map ?_ (List.nodup_range _)
  intro a b h
  simp only at h
  omega

theorem gridCells_nodup (c : Config) : (gridCells c).Nodup := by
  unfold gridCells
  rw [List.nodup_flatMap]
  constructor
  · intro j _
    refine List.Nodup.map ?_ (intRange_nodup _ _)
    intro a b h
    simp only [Prod.mk.injEq, and_true] at h
    exact h
  · refine List.Pairwise.imp ?_ (intRange_nodup _ _)
    intro a b hab
    simp only [Function.onFun]
    rw [List.disjoint_left]
    intro x hx hx2
    simp only [List.mem_map] at hx hx2
    obtain ⟨i1, _, rfl⟩ := hx
    obtain ⟨i2, _, h⟩ := hx2
    simp only [Prod.mk.injEq] at h
    exact hab h.2.symm

theorem mem_gridCells (c : Config) (i j : Int) :
    (i, j) ∈ gridCells c
      ↔ (-c.x_backward ≤ i ∧ i ≤ c.x_forward) ∧ (-c.y_width ≤ j ∧ j ≤ c.y_width) := by
  unfold gridCells
  simp only [List.mem_flatMap, List.mem_map, mem_intRange, Prod.mk.injEq]
  constructor
  · rintro ⟨j2, hj, i2, hi, rfl, rfl⟩
    exact ⟨hi, hj⟩
  · rintro ⟨hi, hj⟩
    exact ⟨j, hj, i, hi, rfl, rfl⟩

/-- The cells are listed in the order of the loops: ascending in `j`, and for equal `j`
ascending in `i`. -/
theorem gridCells_sorted (c : Config) :
    (gridCells c).Pairwise (fun a b => a.2 < b.2 ∨ (a.2 = b.2 ∧ a.1 < b.1)) := by
  have hsorted : ∀ lo hi : Int, (intRange lo hi).Pairwise (fun a b => a < b) := by
    intro lo hi
    unfold intRange
    rw [List.pairwise_map]
    refine List.Pairwise.imp ?_ (List.pairwise_lt_range _)
    intro a b hab
    omega
  unfold gridCells
  rw [List.pairwise_flatMap]
  constructor
  · intro j _
    rw [List.pairwise_map]
    exact List.Pairwise.imp (fun h => Or.inr ⟨rfl, h⟩) (hsorted _ _)
  · refine List.Pairwise.imp ?_ (hsorted _ _)
    intro j1 j2 hj x hx y hy
    simp only [List.mem_map] at hx hy
    obtain ⟨i1, _, rfl⟩ := hx
    obtain ⟨i2, _, rfl⟩ := hy
    exact Or.inl hj

/-- The polar cell that lines 408-430 compute for cell `(i, j)` is the resolved polar cell
of the specification, and it has a value exactly when the cell is resolvable. -/
theorem resolveCell_spec (M : Libm) (c : Config) (i j : Int) :
    resolveCell M c i j
      = if Resolvable M c (i, j) then
          some (specRadial M c (i, j), specSeam c (specAngular M c (i, j)))
        else none := by
  unfold resolveCell angleIndex radialIndex floorToInt Resolvable specRadial specAngular
    specAngle specRadius specSeam seamFix Config.grid_size_th
  by_cases hr : M.sqrt (c.grid_size * i * (c.grid_size * i) + c.grid_size * j * (c.grid_size * j))
      = 0
  · simp [hr]
  by_cases hw : c.grid_size_r = 0
  · simp [hr, hw]
  by_cases hrange : -2147483648 ≤ Rat.floor (M.sqrt (c.grid_size * i * (c.grid_size * i)
        + c.grid_size * j * (c.grid_size * j)) / c.grid_size_r)
      ∧ Rat.floor (M.sqrt (c.grid_size * i * (c.grid_size * i)
        + c.grid_size * j * (c.grid_size * j)) / c.grid_size_r) ≤ 2147483647
  swap
  · rw [if_neg hr, if_neg hw, if_neg hrange, if_neg (fun h => hrange ⟨h.2.2.1, h.2.2.2⟩)]
    rfl
  rw [if_neg hr, if_neg hw, if_pos hrange, if_pos ⟨hr, hw, hrange.1, hrange.2⟩]
  simp only [Option.map_some', Option.some_bind, Option.some.injEq, Prod.mk.injEq,
    decide_eq_true_eq]
  constructor
  · split_ifs with h1
    · rw [min_eq_right (by omega)]
    · rw [min_eq_left (by omega)]
  · by_cases hb : c.x_backward = 0
    · simp only [hb, true_and, if_true]
      push_cast
      split_ifs <;> first | rfl | omega
    · simp only [hb, false_and, if_false]

/-- Folding a step that appends the elements of `h a` when `P a` holds and fails
otherwise. -/
theorem foldlM_guard {α γ : Type} (P : α → Prop) [DecidablePred P] (h : α → List γ)
    (f : List γ → α → Option (List γ))
    (hf : ∀ b a, f b a = if P a then some (b ++ h a) else none) :
    ∀ (l : List α) (b : List γ),
      l.foldlM f b = if ∀ a ∈ l, P a then some (b ++ l.flatMap h) else none := by
  intro l
  induction l with
  | nil => intro b; simp
  | cons a l ih =>
    intro b
    rw [List.foldlM_cons, hf]
    have hcons : (∀ x ∈ a :: l, P x) ↔ P a ∧ ∀ x ∈ l, P x := by
      simp only [List.mem_cons, forall_eq_or_imp]
    by_cases ha : P a
    · rw [if_pos ha]
      simp only [Option.bind_eq_bind, Option.some_bind]
      rw [ih]
      by_cases hl : ∀ x ∈ l, P x
      · rw [if_pos hl, if_pos (hcons.mpr ⟨ha, hl⟩)]
        simp [List.append_assoc]
      · rw [if_neg hl, if_neg (fun h => hl (hcons.mp h).2)]
    · rw [if_neg ha, if_neg (fun h => ha (hcons.mp h).1)]
      rfl

/-- One step of the inner loop: it fails when the cell cannot be resolved, and else emits
the point of the cell exactly when `emittedSpec` holds. -/
theorem projectCell_spec (M : Libm) (c : Config) (g : PolarGrid) (ave : Option ℚ) (j : Int)
    (cells : List Point) (i : Int) :
    projectCell M c g ave j cells i
      = if (i, j) = ((0 : Int), (0 : Int)) ∨ Resolvable M c (i, j) then
          some (cells ++ ([(i, j)].filter (emittedSpec M c g)).map (cellPoint c ave))
        else none := by
  unfold projectCell
  by_cases hij : i = 0 ∧ j = 0
  · rw [if_pos hij, if_pos (Or.inl (by rw [hij.1, hij.2]))]
    obtain ⟨rfl, rfl⟩ := hij
    simp [emittedSpec, cellPoint]
  · have hne : (i, j) ≠ ((0 : Int), (0 : Int)) := by
      intro h
      simp only [Prod.mk.injEq] at h
      exact hij h
    rw [if_neg hij, resolveCell_spec]
    by_cases hres : Resolvable M c (i, j)
    · rw [if_pos hres, if_pos (Or.inr hres)]
      simp only [Option.map_some', Option.some.injEq]
      by_cases hd : (g (specRadial M c (i, j)) (specSeam c (specAngular M c (i, j)))).IsDrivable
          = true
      · simp [emittedSpec, hne, hd, cellPoint]
      · have hd2 : (g (specRadial M c (i, j))
            (specSeam c (specAngular M c (i, j)))).IsDrivable = false := by simpa using hd
        have hij2 : i = 0 → ¬ j = 0 := fun h1 h2 => hij ⟨h1, h2⟩
        simp only [emittedSpec, hd2, List.filter_cons, List.filter_nil, Bool.or_false,
          decide_eq_true_eq, Prod.mk.injEq]
        rw [if_neg hij]
        simp
    · rw [if_neg hres, if_neg (fun h => h.elim hne hres)]
      rfl

/-- The loops of lines 395-440 fail when some cell other than the origin cannot be
resolved, and else emit the sub-sequence of the cells for which `emittedSpec` holds. -/
theorem projector_eq_spec (M : Libm) (c : Config) (g : PolarGrid) (ave : Option ℚ) :
    CartesianProjector M c g ave
      = if ∀ ij ∈ gridCells c, ij = ((0 : Int), (0 : Int)) ∨ Resolvable M c ij then
          some (((gridCells c).filter (emittedSpec M c g)).map (cellPoint c ave))
        else none := by
  have hrow : ∀ (j : Int) (cells : List Point),
      (intRange (-c.x_backward) c.x_forward).foldlM (projectCell M c g ave j) cells
        = if ∀ i ∈ intRange (-c.x_backward) c.x_forward,
              (i, j) = ((0 : Int), (0 : Int)) ∨ Resolvable M c (i, j) then
            some (cells ++ (intRange (-c.x_backward) c.x_forward).flatMap
              (fun i => ([(i, j)].filter (emittedSpec M c g)).map (cellPoint c ave)))
          else none := by
    intro j cells
    exact foldlM_guard (fun i => (i, j) = ((0 : Int), (0 : Int)) ∨ Resolvable M c (i, j))
      (fun i => ([(i, j)].filter (emittedSpec M c g)).map (cellPoint c ave))
      (projectCell M c g ave j) (fun b a => projectCell_spec M c g ave j b a) _ cells
  unfold CartesianProjector
  rw [foldlM_guard
    (fun j => ∀ i ∈ intRange (-c.x_backward) c.x_forward,
      (i, j) = ((0 : Int), (0 : Int)) ∨ Resolvable M c (i, j))
    (fun j => (intRange (-c.x_backward) c.x_forward).flatMap
      (fun i => ([(i, j)].filter (emittedSpec M c g)).map (cellPoint c ave)))
    _ (fun b a => hrow a b)]
  have hcond : (∀ j ∈ intRange (-c.y_width) c.y_width,
        ∀ i ∈ intRange (-c.x_backward) c.x_forward,
          (i, j) = ((0 : Int), (0 : Int)) ∨ Resolvable M c (i, j))
      ↔ ∀ ij ∈ gridCells c, ij = ((0 : Int), (0 : Int)) ∨ Resolvable M c ij := by
    unfold gridCells
    simp only [List.mem_flatMap, List.mem_map]
    constructor
    · rintro h ij ⟨j, hj, i, hi, rfl⟩
      exact h j hj i hi
    · intro h j hj i hi
      exact h (i, j) ⟨j, hj, i, hi, rfl⟩
  have hone : ∀ l : List (Int × Int),
      l.flatMap (fun ij => ([ij].filter (emittedSpec M c g)).map (cellPoint c ave))
        = (l.filter (emittedSpec M c g)).map (cellPoint c ave) := by
    intro l
    induction l with
    | nil => rfl
    | cons x l ih =>
      rw [List.flatMap_cons, ih]
      simp only [List.filter_cons, List.filter_nil]
      split_ifs <;> simp
  have hlist : (intRange (-c.y_width) c.y_width).flatMap
        (fun j => (intRange (-c.x_backward) c.x_forward).flatMap
          (fun i => ([(i, j)].filter (emittedSpec M c g)).map (cellPoint c ave)))
      = ((gridCells c).filter (emittedSpec M c g)).map (cellPoint c ave) := by
    rw [← hone]
    unfold gridCells
    rw [List.flatMap_assoc]
    apply List.flatMap_congr
    intro j _
    generalize intRange (-c.x_backward) c.x_forward = cols
    induction cols with
    | nil => rfl
    | cons i cols ih2 =>
      rw [List.flatMap_cons, List.map_cons, List.flatMap_cons, ih2]
  by_cases hall : ∀ ij ∈ gridCells c, ij = ((0 : Int), (0 : Int)) ∨ Resolvable M c ij
  · rw [if_pos (hcond.mpr hall), if_pos hall, List.nil_append, hlist]
  · rw [if_neg (fun h => hall (hcond.mp h)), if_neg hall]

/-- With non-negative extents the origin cell is among the emitted cells, and no cell is
emitted twice. -/
theorem emitted_origin_once (M : Libm) (c : Config) (g : PolarGrid)
    (hy : 0 ≤ c.y_width) (hf : 0 ≤ c.x_forward) (hb : 0 ≤ c.x_backward) :
    ((0 : Int), (0 : Int)) ∈ (gridCells c).filter (emittedSpec M c g)
      ∧ ((gridCells c).filter (emittedSpec M c g)).Nodup := by
  refine ⟨?_, (gridCells_nodup c).filter _⟩
  rw [List.mem_filter]
  refine ⟨(mem_gridCells c 0 0).mpr ⟨⟨by omega, hf⟩, ⟨by omega, hy⟩⟩, ?_⟩
  simp [emittedSpec]

theorem exampleLibm_sqrt (s : ℚ) (h : exampleLibm.sqrt s = 0) : s = 0 := by
  unfold exampleLibm at h
  simp only at h
  split_ifs at h with h1 <;> first | exact h1 | (norm_num at h)

theorem foldl_id {α β : Type} (f : β → α → β) (hf : ∀ b a, f b a = b) (l : List α) (b : β) :
    l.foldl f b = b := by
  induction l with
  | nil => rfl
  | cons a l ih => rw [List.foldl_cons, hf, ih]

theorem heightSplit_emptyGrid (c : Config) : heightSplit c emptyGrid = ([], []) := by
  unfold heightSplit
  apply foldl_id
  intro acc i
  apply foldl_id
  intro acc2 j
  rfl

theorem extractIndices_nil (indices : List Nat) : extractIndices [] indices = [] := by
  unfold extractIndices
  induction indices with
  | nil => rfl
  | cons k ks ih => simp [List.filterMap_cons]

theorem extractNegative_nil (indices : List Nat) : extractNegative [] indices = [] := rfl

theorem ProximityFuser_invalid (cloud : List PointXYZ) :
    ProximityFuser (fun _ => 0) (fun _ => 0) cloud = cloud := by
  simp [ProximityFuser, fuseSensor, List.range_succ]

/-- Away from the origin every cell can be resolved when the grid spacing and the radial
width are not 0, `sqrt` vanishes at 0 only and its radial quotients are in the range of
`int`. -/
theorem resolvable_of (M : Libm) (c : Config) (ij : Int × Int) (hg : c.grid_size ≠ 0)
    (hw : c.grid_size_r ≠ 0) (hsqrt : ∀ s, M.sqrt s = 0 → s = 0)
    (hrange : ∀ s, -2147483648 ≤ Rat.floor (M.sqrt s / c.grid_size_r)
      ∧ Rat.floor (M.sqrt s / c.grid_size_r) ≤ 2147483647)
    (hij : ij ≠ ((0 : Int), (0 : Int))) : Resolvable M c ij := by
  obtain ⟨i, j⟩ := ij
  refine ⟨?_, hw, (hrange _).1, (hrange _).2⟩
  intro h
  have h2 := hsqrt _ h
  simp only at h2
  have hx : c.grid_size * i = 0 := by
    nlinarith [mul_self_nonneg (c.grid_size * (i : ℚ)), mul_self_nonneg (c.grid_size * (j : ℚ))]
  have hy : c.grid_size * j = 0 := by
    nlinarith [mul_self_nonneg (c.grid_size * (i : ℚ)), mul_self_nonneg (c.grid_size * (j : ℚ))]
  rcases mul_eq_zero.mp hx with h3 | h3
  · exact hg h3
  rcases mul_eq_zero.mp hy with h4 | h4
  · exact hg h4
  apply hij
  rw [Prod.mk.injEq]
  exact ⟨by exact_mod_cast h3, by exact_mod_cast h4⟩

/-- For an empty input cloud (and no valid ultrasonic reading) under the default
configuration the frame does not fail: the mean ground height is the quotient `0/0`, and
the origin cell is emitted with it. -/
theorem empty_frame (M : Libm) (segment : List PointXYZ → List Nat) (fuel : Nat)
    (hsqrt : ∀ s, M.sqrt s = 0 → s = 0)
    (hrange : ∀ s, -2147483648 ≤ Rat.floor (M.sqrt s / defaultConfig.grid_size_r)
      ∧ Rat.floor (M.sqrt s / defaultConfig.grid_size_r) ≤ 2147483647)
    (hfuel : 180 ≤ fuel) :
    ∃ out, rasterization M segment defaultConfig (fun _ => 0) (fun _ => 0) fuel [] = some out
      ∧ out.ground_z = none ∧ ({ x := 0, y := 0, z := none } : Point) ∈ out.cells := by
  obtain ⟨g', hg', _⟩ := default_widthClip fuel
    (SectorBoundaryExtractor M defaultConfig (fun _ => []) emptyGrid) hfuel
    (extract_empty_default M emptyGrid (fun _ _ => rfl))
  have hall : ∀ ij ∈ gridCells defaultConfig,
      ij = ((0 : Int), (0 : Int)) ∨ Resolvable M defaultConfig ij := by
    intro ij _
    by_cases h : ij = ((0 : Int), (0 : Int))
    · exact Or.inl h
    · exact Or.inr (resolvable_of M defaultConfig ij (by norm_num [defaultConfig])
        (by norm_num [defaultConfig]) hsqrt hrange h)
  have hproj := projector_eq_spec M defaultConfig g' none
  rw [if_pos hall] at hproj
  have hbin : PolarBinner M defaultConfig [] = some emptyGrid := rfl
  have hrebin : rebin M defaultConfig [] = some (fun _ => []) := rfl
  have hmean : meanGround [] = none := rfl
  refine ⟨{ cells := (((gridCells defaultConfig).filter (emittedSpec M defaultConfig g')).map
      (cellPoint defaultConfig none)), ground_z := none }, ?_, rfl, ?_⟩
  · unfold rasterization
    simp only [hbin, heightSplit_emptyGrid, extractIndices_nil, extractNegative_nil,
      List.append_nil, ProximityFuser_invalid, hrebin, hmean, hg', hproj, Option.bind_eq_bind,
      Option.some_bind, Option.pure_def]
  · have := (emitted_origin_once M defaultConfig g' (by decide) (by decide) (by decide)).1
    simp only
    rw [List.mem_map]
    exact ⟨(0, 0), this, by simp [cellPoint]⟩

theorem exampleLibm_range (s : ℚ) :
    -2147483648 ≤ Rat.floor (exampleLibm.sqrt s / defaultConfig.grid_size_r)
      ∧ Rat.floor (exampleLibm.sqrt s / defaultConfig.grid_size_r) ≤ 2147483647 := by
  unfold exampleLibm
  dsimp only
  split_ifs <;> decide!

/-- C7 fails on the code: for the empty input point set the frame yields an output, not a
failure; the mean ground height is the undefined quotient `0/0` of lines 187-193, and the
origin cell is emitted. -/
theorem empty_frame_emits_origin :
    meanGround [] = none
      ∧ ∃ out, rasterization exampleLibm (fun _ => []) defaultConfig (fun _ => 0) (fun _ => 0)
            180 [] = some out
          ∧ out.ground_z = none ∧ ({ x := 0, y := 0, z := none } : Point) ∈ out.cells :=
  ⟨rfl, empty_frame exampleLibm (fun _ => []) 180 exampleLibm_sqrt exampleLibm_range
    (le_refl _)⟩


/-! ## The ultrasonic points -/

/-- One sensor appends its points to the cloud and leaves `z = 0` in `ultrasonic_point`. -/
theorem fuseSensor_eq (left_ultrasonic right_ultrasonic : Nat → ℚ) (cloud : List PointXYZ)
    (pt : PointXYZ) (k : Nat) (hk : k < 4) (hz : pt.z = 0) :
    (fuseSensor left_ultrasonic right_ultrasonic (cloud, pt) k).1
        = cloud ++ sensorPoints left_ultrasonic right_ultrasonic k
      ∧ (fuseSensor left_ultrasonic right_ultrasonic (cloud, pt) k).2.z = 0 := by
  have hk4 : k = 0 ∨ k = 1 ∨ k = 2 ∨ k = 3 := by omega
  rcases hk4 with rfl | rfl | rfl | rfl <;>
  · unfold fuseSensor sensorPoints mountOffset
    simp only
    split_ifs <;> simp [hz]

/-- The fuser appends the points of the sensors `0, 1, 2, 3` in turn. -/
theorem ProximityFuser_eq (left_ultrasonic right_ultrasonic : Nat → ℚ)
    (cloud : List PointXYZ) :
    ProximityFuser left_ultrasonic right_ultrasonic cloud
      = cloud ++ (sensorPoints left_ultrasonic right_ultrasonic 0
        ++ sensorPoints left_ultrasonic right_ultrasonic 1
        ++ sensorPoints left_ultrasonic right_ultrasonic 2
        ++ sensorPoints left_ultrasonic right_ultrasonic 3) := by
  unfold ProximityFuser
  have h4 : List.range 4 = [0, 1, 2, 3] := rfl
  rw [h4]
  simp only [List.foldl_cons, List.foldl_nil]
  obtain ⟨a0, z0⟩ := fuseSensor_eq left_ultrasonic right_ultrasonic cloud
    { x := 0, y := 0, z := 0 } 0 (by omega) rfl
  generalize fuseSensor left_ultrasonic right_ultrasonic (cloud, { x := 0, y := 0, z := 0 }) 0
    = s0 at a0 z0
  obtain ⟨a1, z1⟩ := fuseSensor_eq left_ultrasonic right_ultrasonic s0.1 s0.2 1 (by omega) z0
  generalize fuseSensor left_ultrasonic right_ultrasonic s0 1 = s1 at a1 z1
  obtain ⟨a2, z2⟩ := fuseSensor_eq left_ultrasonic right_ultrasonic s1.1 s1.2 2 (by omega) z1
  generalize fuseSensor left_ultrasonic right_ultrasonic s1 2 = s2 at a2 z2
  obtain ⟨a3, _⟩ := fuseSensor_eq left_ultrasonic right_ultrasonic s2.1 s2.2 3 (by omega) z2
  rw [a3, a2, a1, a0]
  simp only [List.append_assoc]

/-- C11. For every pair of reading arrays and every prior obstacle cloud, the fuser leaves
the prior points as they are and appends, for the sensors `k = 0, 1, 2, 3` in turn, the
point `(x_k, 0.75 + d, 0)` for a left reading `d` with `0 < d < 5` and then the point
`(x_k, -0.75 - d, 0)` for a right reading `d` with `0 < d < 5`, with mount offsets
`0.9, 0.65, -0.3, -1.05`; a reading `d ≤ 0` or `d ≥ 5` appends nothing. -/
theorem ProximityFuser_appends (left_ultrasonic right_ultrasonic : Nat → ℚ)
    (cloud : List PointXYZ) :
    ProximityFuser left_ultrasonic right_ultrasonic cloud
      = cloud ++ (sensorPoints left_ultrasonic right_ultrasonic 0
        ++ sensorPoints left_ultrasonic right_ultrasonic 1
        ++ sensorPoints left_ultrasonic right_ultrasonic 2
        ++ sensorPoints left_ultrasonic right_ultrasonic 3) :=
  ProximityFuser_eq left_ultrasonic right_ultrasonic cloud

/-- The example of C11: a left reading of 1.0 on sensor 0, all other readings invalid,
appends exactly the point `(0.9, 1.75, 0)`. -/
theorem ProximityFuser_appends_witness :
    ProximityFuser (fun k => if k = 0 then 1 else 0) (fun _ => 0) [nearPoint]
      = [nearPoint, { x := 9 / 10, y := 7 / 4, z := 0 }] := by
  rw [ProximityFuser_appends]
  decide!


/-! ## A scan of a wide run changes no drivable flag -/

theorem setChecked_cloud (g : PolarGrid) (a t : Int) (b : Bool) (n u : Int) :
    (setChecked g a t b n u).grid_cloud_ptr = (g n u).grid_cloud_ptr := by
  unfold setChecked
  split_ifs <;> rfl

theorem scanLeft_IsChecked_mono (c : Config) (i j m : Nat) (s : ScanState) (n u : Int)
    (h : (s.grid n u).IsChecked = true) : ((scanLeft c i j m s).grid n u).IsChecked = true := by
  unfold scanLeft
  split_ifs
  · simp only [setChecked_IsChecked]
    split_ifs <;> simp [h]
  · exact h
  · exact h

theorem scanRight_IsChecked_mono (c : Config) (i j m : Nat) (s : ScanState) (n u : Int)
    (h : (s.grid n u).IsChecked = true) : ((scanRight c i j m s).grid n u).IsChecked = true := by
  unfold scanRight
  split_ifs
  · simp only [setChecked_IsChecked]
    split_ifs <;> simp [h]
  · exact h
  · exact h

/-- A scan never removes a checked mark. -/
theorem scanLoop_IsChecked_mono (c : Config) (i j : Nat) :
    ∀ (fuel m : Nat) (s : ScanState) (g' : PolarGrid), scanLoop c i j fuel m s = some g' →
      ∀ n u, (s.grid n u).IsChecked = true → (g' n u).IsChecked = true := by
  intro fuel
  induction fuel with
  | zero => intro m s g' h; simp [scanLoop_zero] at h
  | succ fuel ih =>
    intro m s g' h n u hc
    rw [scanLoop_succ] at h
    have h2 := scanRight_IsChecked_mono c i j m _ n u (scanLeft_IsChecked_mono c i j m s n u hc)
    split_ifs at h with h1 hb
    · simp only [Option.some.injEq] at h
      subst h
      rw [cutWedge_IsChecked]
      exact h2
    · exact ih (m + 1) _ g' h n u h2
    · simp only [Option.some.injEq] at h
      subst h
      exact hc

/-- A scan of an entirely drivable ring whose `TH` cells are wide ends within `TH` steps,
changes no drivable flag and sets checked marks in ring `i` only. -/
theorem scanLoop_fullring (c : Config) (g : PolarGrid) (i j : Nat) (hj : j < c.TH)
    (hmono : ∀ n n', n ≤ n' → narrow c i n' = true → narrow c i n = true)
    (hall : ∀ t : Nat, t < c.TH → (g i t).IsDrivable = true)
    (hwide : narrow c i c.TH = false) :
    ∀ (fuel m : Nat) (s : ScanState), 1 ≤ m → FullInv c g i m s → c.TH + 1 ≤ fuel + m →
      2 * m ≤ c.TH + 2 →
      ∃ g', scanLoop c i j fuel m s = some g'
        ∧ (∀ n u, (g' n u).IsDrivable = (g n u).IsDrivable)
        ∧ (∀ n u, (g' n u).IsChecked = true →
            (g n u).IsChecked = true ∨ (n = (i : Int) ∧ 0 ≤ u ∧ u < (c.TH : Int))) := by
  intro fuel
  induction fuel with
  | zero => intro m s _ _ h1 h2; omega
  | succ fuel ih =>
    intro m s hm inv hfuel hm2
    rw [scanLoop_succ]
    by_cases hn : narrow c i s.cnt = true
    · have hcnt : s.cnt < c.TH := by
        by_contra hh
        have := hmono c.TH s.cnt (by omega) hn
        rw [hwide] at this
        exact absurd this (by simp)
      have hcnt2 := inv.cnt
      have hl : (s.grid i (leftCol c j m)).IsDrivable = true := by
        rw [inv.drv, leftCol_eq]
        exact hall _ (Nat.mod_lt _ (by omega))
      have hleft : scanLeft c i j m s
          = { s with grid := setChecked s.grid i (leftCol c j m) true, cnt := s.cnt + 1 } := by
        unfold scanLeft
        rw [if_pos inv.lflag, if_pos hl]
      have hr : ((scanLeft c i j m s).grid i (rightCol c j m)).IsDrivable = true := by
        rw [scanLeft_IsDrivable, inv.drv, rightCol_eq c j m (by omega)]
        exact hall _ (Nat.mod_lt _ (by omega))
      have hright : scanRight c i j m (scanLeft c i j m s)
          = { scanLeft c i j m s with
              grid := setChecked (scanLeft c i j m s).grid i (rightCol c j m) true,
              cnt := (scanLeft c i j m s).cnt + 1 } := by
        unfold scanRight
        rw [if_pos (by rw [hleft]; exact inv.rflag), if_pos hr]
      have inv2 : FullInv c g i (m + 1) (scanRight c i j m (scanLeft c i j m s)) := by
        refine ⟨?_, ?_, ?_, ?_, ?_⟩
        · intro n u
          rw [scanRight_IsDrivable, scanLeft_IsDrivable]
          exact inv.drv n u
        · intro n u h
          rw [hright] at h
          simp only [setChecked_IsChecked] at h
          split_ifs at h with h1
          · refine Or.inr ⟨h1.1, ?_⟩
            rw [h1.2, rightCol_eq c j m (by omega)]
            have := Nat.mod_lt (j + c.TH - m) (show 0 < c.TH by omega)
            omega
          · rw [hleft] at h
            simp only [setChecked_IsChecked] at h
            split_ifs at h with h2
            · refine Or.inr ⟨h2.1, ?_⟩
              rw [h2.2, leftCol_eq]
              have := Nat.mod_lt (j + m) (show 0 < c.TH by omega)
              omega
            · exact inv.chk n u h
        · rw [hright, hleft]
          exact inv.lflag
        · rw [hright, hleft]
          exact inv.rflag
        · rw [hright, hleft]
          simp only
          omega
      have hb : ((scanRight c i j m (scanLeft c i j m s)).left_flag
          && (scanRight c i j m (scanLeft c i j m s)).right_flag) = false := by
        rw [inv2.lflag]
        rfl
      simp only [hn, if_true, hb, Bool.false_eq_true, if_false]
      exact ih (m + 1) _ (by omega) inv2 (by omega) (by omega)
    · simp only [hn, if_false]
      exact ⟨_, rfl, inv.drv, inv.chk⟩

theorem FullInv_start (c : Config) (g : PolarGrid) (i : Nat) :
    FullInv c g i 1 (ScanState.start g) where
  drv := fun _ _ => rfl
  chk := fun _ _ h => Or.inl h
  lflag := rfl
  rflag := rfl
  cnt := rfl


theorem InRun_drivable {g : PolarGrid} {TH i a N : Nat} {u : Int} (hrun : IsMaxRun g TH i a N)
    (hu : InRun TH a N u) : (g i u).IsDrivable = true := by
  obtain ⟨k, hk, rfl⟩ := hu
  exact hrun.2.2.1 k hk

theorem RingRun_drivable {g : PolarGrid} {TH i j N : Nat} {u : Int}
    (h : RingRun g TH i j N u) : (g i u).IsDrivable = true := by
  rcases h with ⟨a, p, hrun, _, _, hu⟩ | ⟨_, _, hall, h0, h1⟩
  · exact InRun_drivable hrun hu
  · have := hall u.toNat (by omega)
    rwa [Int.toNat_of_nonneg h0] at this

/-- A scan leaves the drivable flags as they are or ends with the cut of a wedge. -/
theorem scanLoop_result (c : Config) (i j : Nat) :
    ∀ (fuel m : Nat) (s : ScanState) (g' : PolarGrid), scanLoop c i j fuel m s = some g' →
      (∀ n u, (g' n u).IsDrivable = (s.grid n u).IsDrivable)
        ∨ ∃ s2 : ScanState, (∀ n u, (s2.grid n u).IsDrivable = (s.grid n u).IsDrivable)
            ∧ g' = cutWedge c i j s2 := by
  intro fuel
  induction fuel with
  | zero => intro m s g' h; simp [scanLoop_zero] at h
  | succ fuel ih =>
    intro m s g' h
    rw [scanLoop_succ] at h
    have hstep : ∀ n u, ((scanRight c i j m (scanLeft c i j m s)).grid n u).IsDrivable
        = (s.grid n u).IsDrivable := by
      intro n u
      rw [scanRight_IsDrivable, scanLeft_IsDrivable]
    split_ifs at h with h1 hb
    · simp only [Option.some.injEq] at h
      exact Or.inr ⟨_, hstep, h.symm⟩
    · rcases ih (m + 1) _ g' h with h2 | ⟨s2, h2, h3⟩
      · exact Or.inl (fun n u => by rw [h2, hstep])
      · exact Or.inr ⟨s2, fun n u => by rw [h2, hstep], h3⟩
    · simp only [Option.some.injEq] at h
      subst h
      exact Or.inl (fun _ _ => rfl)

theorem cutWedge_ColumnPrefix (c : Config) (i j : Nat) (s : ScanState) (g : PolarGrid)
    (hs : ∀ n u, (s.grid n u).IsDrivable = (g n u).IsDrivable) (hg : ColumnPrefix c g) :
    ColumnPrefix c (cutWedge c i j s) := by
  intro u i1 n h0 hlt hR hnd
  by_cases hcut : ((i : Int) ≤ n ∧ n < (c.R : Int)) ∧ WedgeCol c j s u
  · exact cutWedge_IsDrivable_of_mem c i j s n u hcut.1 hcut.2
  · rw [cutWedge_IsDrivable_of_not_mem c i j s n u hcut, hs]
    by_cases hcut1 : ((i : Int) ≤ i1 ∧ i1 < (c.R : Int)) ∧ WedgeCol c j s u
    · exact absurd ⟨⟨by omega, hR⟩, hcut1.2⟩ hcut
    · rw [cutWedge_IsDrivable_of_not_mem c i j s i1 u hcut1, hs] at hnd
      exact hg u i1 n h0 hlt hR hnd

theorem ColumnPrefix_congr {c : Config} {g g' : PolarGrid}
    (h : ∀ n u, (g' n u).IsDrivable = (g n u).IsDrivable) (hg : ColumnPrefix c g) :
    ColumnPrefix c g' := by
  intro u i n h0 hlt hR hnd
  rw [h] at hnd ⊢
  exact hg u i n h0 hlt hR hnd

theorem clipCell_ColumnPrefix (c : Config) (fuel i j : Nat) (g g' : PolarGrid)
    (hg : ColumnPrefix c g) (h : clipCell c fuel i j g = some g') : ColumnPrefix c g' := by
  unfold clipCell at h
  split_ifs at h
  · simp only [Option.some.injEq] at h; subst h; exact hg
  · simp only [Option.some.injEq] at h; subst h; exact hg
  · rcases scanLoop_result c i j fuel 1 _ g' h with h2 | ⟨s2, h2, h3⟩
    · exact ColumnPrefix_congr h2 hg
    · rw [h3]
      exact cutWedge_ColumnPrefix c i j s2 g h2 hg

theorem clipRing_ColumnPrefix (c : Config) (fuel i : Nat) (g g' : PolarGrid)
    (hg : ColumnPrefix c g) (h : clipRing c fuel i g = some g') : ColumnPrefix c g' :=
  foldlM_option_rel (fun G G' => ColumnPrefix c G → ColumnPrefix c G') (fun _ h => h)
    (fun _ _ _ h1 h2 h => h2 (h1 h))
    (fun g j => clipCell c fuel i j g)
    (fun b a b' hb hpre => clipCell_ColumnPrefix c fuel i a b b' hpre hb) _ g g' h hg

theorem widthClip_ColumnPrefix (c : Config) (fuel : Nat) (g g' : PolarGrid)
    (hg : ColumnPrefix c g) (h : widthClip c fuel g = some g') : ColumnPrefix c g' :=
  foldlM_option_rel (fun G G' => ColumnPrefix c G → ColumnPrefix c G') (fun _ h => h)
    (fun _ _ _ h1 h2 h => h2 (h1 h))
    (fun g i => clipRing c fuel i g)
    (fun b a b' hb hpre => clipRing_ColumnPrefix c fuel a b b' hpre hb) _ g g' h hg

theorem extract_ColumnPrefix (M : Libm) (c : Config) (obstacle : Sectors) (g : PolarGrid)
    (hfresh : ∀ n u, (g n u).IsDrivable = false) :
    ColumnPrefix c (SectorBoundaryExtractor M c obstacle g) := by
  intro u i n h0 hlt _ hnd
  unfold SectorBoundaryExtractor at hnd ⊢
  rw [extract_fold_IsDrivable] at hnd ⊢
  rw [hfresh] at hnd ⊢
  split_ifs at hnd with h1
  split_ifs with h2
  · obtain ⟨j, hj, hu, _, hrows⟩ := h2
    exact absurd ⟨j, hj, hu, h0, by omega⟩ h1
  · rfl

/-- C18. Non-drivability propagates outward. Starting from a grid without drivable flags,
after boundary extraction the drivable cells of every column are a prefix of the radial
indices (above a non-drivable cell `(i, j)` every cell `(n, j)`, `i < n < R`, is
non-drivable); every single scan of the width clipping keeps this property, and it holds
in the final grid. -/
theorem drivable_prefix (M : Libm) (c : Config) (obstacle : Sectors) (g : PolarGrid)
    (fuel : Nat) (hfresh : ∀ n u, (g n u).IsDrivable = false) :
    ColumnPrefix c (SectorBoundaryExtractor M c obstacle g)
      ∧ (∀ (G G' : PolarGrid) (i j : Nat), ColumnPrefix c G →
          clipCell c fuel i j G = some G' → ColumnPrefix c G')
      ∧ (∀ g', widthClip c fuel (SectorBoundaryExtractor M c obstacle g) = some g' →
          ColumnPrefix c g') :=
  ⟨extract_ColumnPrefix M c obstacle g hfresh,
    fun G G' i j hG h => clipCell_ColumnPrefix c fuel i j G G' hG h,
    fun g' h => widthClip_ColumnPrefix c fuel _ g' (extract_ColumnPrefix M c obstacle g hfresh) h⟩

theorem drivable_prefix_witness :
    ColumnPrefix defaultConfig
        (SectorBoundaryExtractor exampleLibm defaultConfig oneObstacle emptyGrid)
      ∧ (∀ (G G' : PolarGrid) (i j : Nat), ColumnPrefix defaultConfig G →
          clipCell defaultConfig 180 i j G = some G' → ColumnPrefix defaultConfig G')
      ∧ (∀ g', widthClip defaultConfig 180
            (SectorBoundaryExtractor exampleLibm defaultConfig oneObstacle emptyGrid) = some g' →
          ColumnPrefix defaultConfig g') :=
  drivable_prefix exampleLibm defaultConfig oneObstacle emptyGrid 180 (fun _ _ => rfl)


/-! ## The ground / obstacle split -/

/-- The running maximum of the heights is an upper bound that is attained. -/
theorem foldl_max_spec (ps : List PointXYZ) :
    ∀ a : ℚ, a ≤ ps.foldl (fun m q => max m q.z) a
      ∧ (∀ q ∈ ps, q.z ≤ ps.foldl (fun m q => max m q.z) a)
      ∧ (ps.foldl (fun m q => max m q.z) a = a
          ∨ ∃ q ∈ ps, q.z = ps.foldl (fun m q => max m q.z) a) := by
  induction ps with
  | nil => intro a; simp
  | cons x xs ih =>
    intro a
    rw [List.foldl_cons]
    obtain ⟨h1, h2, h3⟩ := ih (max a x.z)
    refine ⟨le_trans (le_max_left _ _) h1, ?_, ?_⟩
    · intro q hq
      rcases List.mem_cons.mp hq with h | h
      · rw [h]
        exact le_trans (le_max_right _ _) h1
      · exact h2 q h
    · rcases h3 with h | ⟨q, hq, e⟩
      · rcases max_choice a x.z with hm | hm
        · left
          rw [h, hm]
        · right
          exact ⟨x, List.mem_cons_self _ _, by rw [h, hm]⟩
      · right
        exact ⟨q, List.mem_cons_of_mem _ hq, e⟩

/-- The running minimum of the heights is a lower bound that is attained. -/
theorem foldl_min_spec (ps : List PointXYZ) :
    ∀ a : ℚ, ps.foldl (fun m q => min m q.z) a ≤ a
      ∧ (∀ q ∈ ps, ps.foldl (fun m q => min m q.z) a ≤ q.z)
      ∧ (ps.foldl (fun m q => min m q.z) a = a
          ∨ ∃ q ∈ ps, q.z = ps.foldl (fun m q => min m q.z) a) := by
  induction ps with
  | nil => intro a; simp
  | cons x xs ih =>
    intro a
    rw [List.foldl_cons]
    obtain ⟨h1, h2, h3⟩ := ih (min a x.z)
    refine ⟨le_trans h1 (min_le_left _ _), ?_, ?_⟩
    · intro q hq
      rcases List.mem_cons.mp hq with h | h
      · rw [h]
        exact le_trans h1 (min_le_right _ _)
      · exact h2 q h
    · rcases h3 with h | ⟨q, hq, e⟩
      · rcases min_choice a x.z with hm | hm
        · left
          rw [h, hm]
        · right
          exact ⟨x, List.mem_cons_self _ _, by rw [h, hm]⟩
      · right
        exact ⟨q, List.mem_cons_of_mem _ hq, e⟩

/-- On a non-empty cell the value `maxpoint.z - minpoint.z` is below `h` exactly when the
heights of any two points of the cell differ by less than `h`. -/
theorem zSpan_lt_iff (pts : List PointXYZ) (hne : pts ≠ []) (h : ℚ) :
    zSpan pts < h ↔ SpanBelow pts h := by
  cases pts with
  | nil => exact absurd rfl hne
  | cons x xs =>
    unfold SpanBelow
    change xs.foldl (fun m q => max m q.z) x.z - xs.foldl (fun m q => min m q.z) x.z < h
      ↔ ∀ p ∈ x :: xs, ∀ q ∈ x :: xs, p.z - q.z < h
    obtain ⟨a1, a2, a3⟩ := foldl_max_spec xs x.z
    obtain ⟨b1, b2, b3⟩ := foldl_min_spec xs x.z
    have hmax : ∀ q ∈ x :: xs, q.z ≤ xs.foldl (fun m q => max m q.z) x.z := by
      intro q hq
      rcases List.mem_cons.mp hq with e | e
      · rw [e]; exact a1
      · exact a2 q e
    have hmin : ∀ q ∈ x :: xs, xs.foldl (fun m q => min m q.z) x.z ≤ q.z := by
      intro q hq
      rcases List.mem_cons.mp hq with e | e
      · rw [e]; exact b1
      · exact b2 q e
    have hmaxw : ∃ q ∈ x :: xs, q.z = xs.foldl (fun m q => max m q.z) x.z := by
      rcases a3 with e | ⟨q, hq, e⟩
      · exact ⟨x, List.mem_cons_self _ _, e.symm⟩
      · exact ⟨q, List.mem_cons_of_mem _ hq, e⟩
    have hminw : ∃ q ∈ x :: xs, q.z = xs.foldl (fun m q => min m q.z) x.z := by
      rcases b3 with e | ⟨q, hq, e⟩
      · exact ⟨x, List.mem_cons_self _ _, e.symm⟩
      · exact ⟨q, List.mem_cons_of_mem _ hq, e⟩
    constructor
    · intro hlt p hp q hq
      have e1 := hmax p hp
      have e2 := hmin q hq
      linarith
    · intro hall
      obtain ⟨p, hp, ep⟩ := hmaxw
      obtain ⟨q, hq, eq⟩ := hminw
      have := hall p hp q hq
      rw [ep, eq] at this
      exact this

/-- Folding `splitCell` over a list of cells sorts their points by the span of the cell. -/
theorem foldl_splitCell (c : Config) (cells : List Grid) (acc : List PointXYZ × List PointXYZ) :
    cells.foldl (splitCell c) acc
      = (acc.1 ++ (cells.filter
            (fun cell => decide (SpanBelow cell.grid_cloud_ptr c.threshold))).flatMap
            (fun cell => cell.grid_cloud_ptr),
         acc.2 ++ (cells.filter
            (fun cell => !decide (SpanBelow cell.grid_cloud_ptr c.threshold))).flatMap
            (fun cell => cell.grid_cloud_ptr)) := by
  induction cells generalizing acc with
  | nil => simp
  | cons cell cells ih =>
    rw [List.foldl_cons, ih]
    unfold splitCell
    by_cases hlen : 0 < cell.grid_cloud_ptr.length
    · have hne : cell.grid_cloud_ptr ≠ [] := by
        intro h
        rw [h] at hlen
        exact absurd hlen (by simp)
      have hiff := zSpan_lt_iff cell.grid_cloud_ptr hne c.threshold
      by_cases hs : zSpan cell.grid_cloud_ptr < c.threshold
      · simp [hlen, hs, hiff.mp hs, List.filter_cons]
      · have hs2 : ¬ SpanBelow cell.grid_cloud_ptr c.threshold := fun h => hs (hiff.mpr h)
        simp [hlen, hs, hs2, List.filter_cons]
    · have hnil : cell.grid_cloud_ptr = [] := List.length_eq_zero.mp (by omega)
      rw [if_neg hlen]
      simp only [List.filter_cons]
      split_ifs <;> simp [List.flatMap_cons, hnil]

theorem foldl_flatMap_eq {α β γ : Type} (f : γ → β → γ) (h : α → List β) (l : List α)
    (init : γ) :
    l.foldl (fun acc a => (h a).foldl f acc) init = (l.flatMap h).foldl f init := by
  induction l generalizing init with
  | nil => rfl
  | cons a l ih => simp [List.flatMap_cons, List.foldl_append, ih]

/-- The loops of lines 143-168 sort the stored points by the span of their cell. -/
theorem heightSplit_eq (c : Config) (g : PolarGrid) :
    heightSplit c g = (lowSpanPoints c g, highSpanPoints c g) := by
  unfold heightSplit lowSpanPoints highSpanPoints windowCells
  have h1 : ∀ (i : Nat) (acc : List PointXYZ × List PointXYZ),
      (List.range c.TH).foldl (fun acc (j : Nat) => splitCell c acc (g i j)) acc
        = ((List.range c.TH).map (fun (j : Nat) => g i j)).foldl (splitCell c) acc := by
    intro i acc
    rw [List.foldl_map]
  simp only [h1]
  rw [foldl_flatMap_eq (splitCell c)
    (fun (i : Nat) => (List.range c.TH).map (fun (j : Nat) => g i j)), foldl_splitCell]
  simp

theorem filter_flatMap_perm {α β : Type} (P : α → Bool) (f : α → List β) (l : List α) :
    List.Perm ((l.filter P).flatMap f ++ (l.filter (fun a => !P a)).flatMap f) (l.flatMap f) := by
  induction l with
  | nil => simp
  | cons a l ih =>
    by_cases h : P a = true
    · simp only [List.filter_cons, h, if_true, Bool.not_true, Bool.false_eq_true, if_false,
        List.flatMap_cons, List.append_assoc]
      exact List.Perm.append_left _ ih
    · simp only [List.filter_cons, h, if_false, Bool.not_eq_true] at *
      simp only [h, Bool.not_false, if_true, List.flatMap_cons]
      refine List.Perm.trans ?_ (List.Perm.append_left _ ih)
      rw [← List.append_assoc, ← List.append_assoc]
      exact List.Perm.append_right _ List.perm_append_comm

theorem filterMap_getElem?_range (l : List PointXYZ) :
    (List.range l.length).filterMap (fun k => l[k]?) = l := by
  apply List.ext_getElem?
  intro n
  by_cases hn : n < l.length
  · have hmap : (List.range l.length).filterMap (fun k => l[k]?)
        = (List.range l.length).pmap (fun k (hk : k < l.length) => l[k])
            (fun k hk => List.mem_range.mp hk) := by
      rw [List.pmap_eq_map_attach, ← List.filterMap_eq_map]
      conv_lhs => rw [← List.attach_map_subtype_val (List.range l.length)]
      rw [List.filterMap_map]
      apply List.filterMap_congr
      rintro ⟨k, hk⟩ _
      simp [List.getElem?_eq_getElem (List.mem_range.mp hk)]
    rw [hmap]
    simp [List.getElem?_eq_getElem hn, hn]
  · have h1 : ((List.range l.length).filterMap (fun k => l[k]?)).length ≤ l.length := by
      refine le_trans (List.length_filterMap_le _ _) ?_
      simp
    rw [List.getElem?_eq_none (by omega), List.getElem?_eq_none (by omega)]

/-- Inliers and outliers of the plane fit together are the candidate cloud. -/
theorem extract_perm (cloud : List PointXYZ) (indices : List Nat)
    (hvalid : ∀ k, k ∈ indices → k < cloud.length) (hnodup : indices.Nodup) :
    List.Perm (extractIndices cloud indices ++ extractNegative cloud indices) cloud := by
  unfold extractIndices extractNegative
  have hneg : (List.range cloud.length).filterMap
        (fun k => if k ∈ indices then none else cloud[k]?)
      = ((List.range cloud.length).filter (fun k => decide (k ∉ indices))).filterMap
          (fun k => cloud[k]?) := by
    rw [List.filterMap_filter]
    apply List.filterMap_congr
    intro k _
    by_cases hk : k ∈ indices <;> simp [hk]
  rw [hneg, ← List.filterMap_append]
  have hperm : List.Perm
      (indices ++ (List.range cloud.length).filter (fun k => decide (k ∉ indices)))
      (List.range cloud.length) := by
    rw [List.perm_ext_iff_of_nodup]
    · intro k
      simp only [List.mem_append, List.mem_filter, List.mem_range, decide_eq_true_eq]
      constructor
      · rintro (h | h)
        · exact hvalid k h
        · exact h.1
      · intro h
        by_cases hk : k ∈ indices
        · exact Or.inl hk
        · exact Or.inr ⟨h, hk⟩
    · refine List.Nodup.append hnodup ((List.nodup_range _).filter _) ?_
      intro k h1 h2
      simp only [List.mem_filter, decide_eq_true_eq] at h2
      exact h2.2 h1
    · exact List.nodup_range _
  have := hperm.filterMap (fun k => cloud[k]?)
  rwa [filterMap_getElem?_range] at this

theorem rebin_fold_filter (M : Libm) (c : Config) (hback : c.x_backward = 0)
    (cloud : List PointXYZ) (obstacle : Sectors) :
    cloud.foldlM (rebinPoint M c) obstacle
      = (cloud.filter (fun p => decide (0 ≤ p.x))).foldlM (rebinPoint M c) obstacle := by
  induction cloud generalizing obstacle with
  | nil => rfl
  | cons p ps ih =>
    by_cases hp : 0 ≤ p.x
    · simp only [List.filter_cons, hp, decide_True, if_true, List.foldlM_cons]
      cases rebinPoint M c obstacle p with
      | none => rfl
      | some ob => simp only [Option.bind_eq_bind, Option.some_bind]; exact ih ob
    · have hskip : rebinPoint M c obstacle p = some obstacle := by
        unfold rebinPoint
        rw [if_pos ⟨hback, not_le.mp hp⟩]
      simp only [List.filter_cons, hp, decide_False, Bool.false_eq_true, if_false,
        List.foldlM_cons, hskip, Option.bind_eq_bind, Option.some_bind]
      exact ih obstacle

/-- With backward extent 0, rebinning sees the points with `x ≥ 0` only. -/
theorem rebin_filter (M : Libm) (c : Config) (hback : c.x_backward = 0)
    (cloud : List PointXYZ) :
    rebin M c cloud = rebin M c (cloud.filter (fun p => decide (0 ≤ p.x))) :=
  rebin_fold_filter M c hback cloud _

theorem obstaclePipeline_filter (M : Libm) (c : Config) (fuel : Nat) (grid : PolarGrid)
    (ave : Option ℚ) (hback : c.x_backward = 0) (cloud : List PointXYZ) :
    obstaclePipeline M c fuel grid ave cloud
      = obstaclePipeline M c fuel grid ave (cloud.filter (fun p => decide (0 ≤ p.x))) := by
  unfold obstaclePipeline
  rw [rebin_filter M c hback cloud]

theorem rasterization_eq (M : Libm) (segment : List PointXYZ → List Nat) (c : Config)
    (left_ultrasonic right_ultrasonic : Nat → ℚ) (fuel : Nat) (cloud : List PointXYZ) :
    rasterization M segment c left_ultrasonic right_ultrasonic fuel cloud
      = (PolarBinner M c cloud).bind (fun grid =>
          (obstaclePipeline M c fuel grid
            (meanGround (extractIndices (heightSplit c grid).1 (segment (heightSplit c grid).1)))
            (ProximityFuser left_ultrasonic right_ultrasonic
              ((heightSplit c grid).2
                ++ extractNegative (heightSplit c grid).1 (segment (heightSplit c grid).1)))).map
            (fun r => { cells := r.2,
                        ground_z := meanGround (extractIndices (heightSplit c grid).1
                          (segment (heightSplit c grid).1)) })) := by
  unfold rasterization obstaclePipeline
  cases PolarBinner M c cloud with
  | none => rfl
  | some grid =>
    simp only [Option.bind_eq_bind, Option.some_bind]
    cases rebin M c (ProximityFuser left_ultrasonic right_ultrasonic
        ((heightSplit c grid).2
          ++ extractNegative (heightSplit c grid).1 (segment (heightSplit c grid).1))) with
    | none => rfl
    | some obstacle =>
      simp only [Option.some_bind]
      cases widthClip c fuel (SectorBoundaryExtractor M c obstacle grid) with
      | none => rfl
      | some grid2 =>
        simp only [Option.some_bind]
        cases CartesianProjector M c grid2
            (meanGround (extractIndices (heightSplit c grid).1
              (segment (heightSplit c grid).1))) with
        | none => rfl
        | some cells => rfl

theorem sensorPoints_filter (left_ultrasonic right_ultrasonic : Nat → ℚ) (k : Nat) :
    (sensorPoints left_ultrasonic right_ultrasonic k).filter (fun p => decide (0 ≤ p.x))
      = if k < 2 then sensorPoints left_ultrasonic right_ultrasonic k else [] := by
  unfold sensorPoints
  rcases Nat.lt_or_ge k 2 with hk | hk
  · rw [if_pos (show k < 2 from hk)]
    have hk2 : k = 0 ∨ k = 1 := by omega
    rcases hk2 with rfl | rfl <;>
    · unfold mountOffset
      split_ifs <;> simp [List.filter_cons] <;> norm_num
  · rw [if_neg (show ¬ k < 2 by omega)]
    have hm : mountOffset k < 0 := by
      unfold mountOffset
      split <;> first | omega | norm_num
    split_ifs <;> simp [List.filter_cons, not_le.mpr hm]

/-- The points with `x ≥ 0` of the fused cloud depend on the readings of the sensors 0 and
1 only. -/
theorem ProximityFuser_filter (left_ultrasonic right_ultrasonic : Nat → ℚ)
    (cloud : List PointXYZ) :
    (ProximityFuser left_ultrasonic right_ultrasonic cloud).filter (fun p => decide (0 ≤ p.x))
      = cloud.filter (fun p => decide (0 ≤ p.x))
        ++ (sensorPoints left_ultrasonic right_ultrasonic 0
          ++ sensorPoints left_ultrasonic right_ultrasonic 1) := by
  rw [ProximityFuser_eq]
  simp only [List.filter_append, sensorPoints_filter]
  simp

theorem sensorPoints_congr (l1 r1 l2 r2 : Nat → ℚ) (k : Nat) (hl : l1 k = l2 k)
    (hr : r1 k = r2 k) : sensorPoints l1 r1 k = sensorPoints l2 r2 k := by
  unfold sensorPoints
  rw [hl, hr]

/-- C20. With backward extent 0, obstacle points behind the vehicle do not influence the
result: two obstacle clouds with the same points of `x ≥ 0` in the same order give, for the
same binned grid and mean ground height, the same final polar grid and the same emitted
sequence; and two frames that differ only in the readings of the rear sensors 2 and 3
(mount offsets -0.3 and -1.05) have the same output. -/
theorem rear_points_ignored (M : Libm) (c : Config) (fuel : Nat) (hback : c.x_backward = 0) :
    (∀ (grid : PolarGrid) (ave : Option ℚ) (obs1 obs2 : List PointXYZ),
        obs1.filter (fun p => decide (0 ≤ p.x)) = obs2.filter (fun p => decide (0 ≤ p.x)) →
        obstaclePipeline M c fuel grid ave obs1 = obstaclePipeline M c fuel grid ave obs2)
      ∧ (∀ (segment : List PointXYZ → List Nat) (l1 r1 l2 r2 : Nat → ℚ)
          (cloud : List PointXYZ),
        l1 0 = l2 0 → r1 0 = r2 0 → l1 1 = l2 1 → r1 1 = r2 1 →
        rasterization M segment c l1 r1 fuel cloud
          = rasterization M segment c l2 r2 fuel cloud) := by
  constructor
  · intro grid ave obs1 obs2 h
    rw [obstaclePipeline_filter M c fuel grid ave hback obs1,
      obstaclePipeline_filter M c fuel grid ave hback obs2, h]
  · intro segment l1 r1 l2 r2 cloud hl0 hr0 hl1 hr1
    rw [rasterization_eq, rasterization_eq]
    congr 1
    funext grid
    rw [obstaclePipeline_filter M c fuel grid _ hback (ProximityFuser l1 r1 _),
      obstaclePipeline_filter M c fuel grid _ hback (ProximityFuser l2 r2 _),
      ProximityFuser_filter, ProximityFuser_filter,
      sensorPoints_congr l1 r1 l2 r2 0 hl0 hr0, sensorPoints_congr l1 r1 l2 r2 1 hl1 hr1]

theorem rear_points_ignored_witness :
    (∀ (grid : PolarGrid) (ave : Option ℚ) (obs1 obs2 : List PointXYZ),
        obs1.filter (fun p => decide (0 ≤ p.x)) = obs2.filter (fun p => decide (0 ≤ p.x)) →
        obstaclePipeline exampleLibm defaultConfig 180 grid ave obs1
          = obstaclePipeline exampleLibm defaultConfig 180 grid ave obs2)
      ∧ (∀ (segment : List PointXYZ → List Nat) (l1 r1 l2 r2 : Nat → ℚ)
          (cloud : List PointXYZ),
        l1 0 = l2 0 → r1 0 = r2 0 → l1 1 = l2 1 → r1 1 = r2 1 →
        rasterization exampleLibm segment defaultConfig l1 r1 180 cloud
          = rasterization exampleLibm segment defaultConfig l2 r2 180 cloud) :=
  rear_points_ignored exampleLibm defaultConfig 180 rfl


/-! ## Accesses outside the array in boundary extraction -/

/-- Boundary extraction changes a drivable flag only in a column `0 ≤ j < TH`, and there
only in the rows below the cutoff of the sector. -/
theorem extract_changes (M : Libm) (c : Config) (obstacle : Sectors) (g : PolarGrid)
    (a t : Int)
    (h : (SectorBoundaryExtractor M c obstacle g a t).IsDrivable ≠ (g a t).IsDrivable) :
    ∃ j, j < c.TH ∧ t = (j : Int) ∧ 0 ≤ a ∧ a < (sectorRows M c obstacle j : Int) := by
  unfold SectorBoundaryExtractor at h
  rw [extract_fold_IsDrivable] at h
  split_ifs at h with h1
  · exact h1
  · exact absurd rfl h

/-- C16 fails on the code: the cutoff of line 304 is not clamped. Under the default
configuration (R = 60) an obstacle at radius 30.25 in sector 0 gives the cutoff
`floor(30.25 / 0.4) = 75`, and the loop of lines 306-309 sets the drivable flag of the
cells `(60, 0), ..., (74, 0)`, which lie outside the array `grid[R][TH]`. -/
theorem extraction_writes_outside :
    defaultConfig.R = 60
      ∧ Rat.floor (farLibm.sqrt ((121 / 4 : ℚ) * (121 / 4) + 0 * 0) / defaultConfig.grid_size_r)
          = 75
      ∧ (emptyGrid 60 0).IsDrivable = false
      ∧ (SectorBoundaryExtractor farLibm defaultConfig farObstacle emptyGrid 60 0).IsDrivable
          = true
      ∧ (SectorBoundaryExtractor farLibm defaultConfig farObstacle emptyGrid 74 0).IsDrivable
          = true :=
  ⟨rfl, by decide!, rfl, by decide!, by decide!⟩

/-! ## The sensor origin -/

/-- C17 fails on the code: a point at the sensor origin is not special-cased. Binning and
sector rebinning both take the quotient `x / r` with `r = 0` (lines 126 and 244), so they
yield no angular index (in particular not the index 0) and no result. -/
theorem origin_not_special_cased :
    polarIndex exampleLibm defaultConfig { x := 0, y := 0, z := 0 } ≠ some (0, 0)
      ∧ (binPoint exampleLibm defaultConfig emptyGrid { x := 0, y := 0, z := 0 }).isNone = true
      ∧ (rebinPoint exampleLibm defaultConfig (fun _ => []) { x := 0, y := 0, z := 0 }).isNone
          = true
      ∧ (rebin exampleLibm defaultConfig [{ x := 0, y := 0, z := 0 }]).isNone = true :=
  ⟨by decide!, by decide!, by decide!, by decide!⟩

/-- C14 fails on the code: a cloud that contains a point at the sensor origin is not
conserved. For the cloud `nearPoint, (0, 0, 0), skewPoint` binning has no result: the
origin point is stored in no cell of the array. -/
theorem binning_loses_origin :
    (PolarBinner exampleLibm defaultConfig [nearPoint, { x := 0, y := 0, z := 0 }, skewPoint]).isNone
        = true
      ∧ (PolarBinner exampleLibm defaultConfig [nearPoint, skewPoint]).isSome = true :=
  ⟨by decide!, by decide!⟩

/-! ## Termination of a scan -/

/-- When the accumulated width never reaches the cut width and the left side never meets
a non-drivable cell, the scan loop has no result. -/
theorem scanLoop_never (c : Config) (g : PolarGrid) (i j : Nat)
    (hnarrow : ∀ cnt, narrow c i cnt = true)
    (hfull : ∀ m, (g i (leftCol c j m)).IsDrivable = true) :
    ∀ (fuel m : Nat) (s : ScanState),
      (∀ n u, (s.grid n u).IsDrivable = (g n u).IsDrivable) → s.left_flag = false →
      scanLoop c i j fuel m s = none := by
  intro fuel
  induction fuel with
  | zero => intro m s _ _; rfl
  | succ fuel ih =>
    intro m s hdrv hflag
    rw [scanLoop_succ, if_pos (hnarrow _)]
    have hl : (scanLeft c i j m s).left_flag = false := by
      unfold scanLeft
      simp [hflag, hdrv, hfull]
    have hr : (scanRight c i j m (scanLeft c i j m s)).left_flag = false := by
      unfold scanRight
      split_ifs <;> simp [hl]
    rw [if_neg (by rw [hr]; simp)]
    exact ih (m + 1) _ (fun n u => by
      rw [scanRight_IsDrivable, scanLeft_IsDrivable]; exact hdrv n u) hr

/-- C19 fails on the code: with a radial width of 2 m (`(int)(1.6/2) = 0`) ring 0 is
clipped; its accumulated width `0 * grid_size_r * grid_size_th * cnt` is 0 for every count,
and in a ring 0 that is entirely drivable no direction closes: the scan started at cell
`(0, 0)` does not stop. -/
theorem ring_zero_scan_never_ends :
    0 < coarseConfig.R ∧ 0 < coarseConfig.TH ∧ 0 < coarseConfig.grid_size_r
      ∧ 0 < coarseConfig.cut_width
      ∧ NeverEnds coarseConfig 0 0 (columnsGrid [0, 1, 2, 3]) := by
  refine ⟨by decide, by decide, by decide!, by decide!, ?_⟩
  intro fuel
  have hclip : clipCell coarseConfig fuel 0 0 (columnsGrid [0, 1, 2, 3])
      = scanLoop coarseConfig 0 0 fuel 1 (ScanState.start (columnsGrid [0, 1, 2, 3])) := by
    unfold clipCell
    rw [if_neg (by decide!), if_neg (by decide!)]
  rw [hclip]
  refine scanLoop_never coarseConfig (columnsGrid [0, 1, 2, 3]) 0 0 ?_ ?_ fuel 1 _
    (fun _ _ => rfl) rfl
  · intro cnt
    unfold narrow
    simp only [decide_eq_true_eq]
    have : coarseConfig.cut_width = 17 / 10 := rfl
    rw [this]
    norm_num
  · intro m
    rw [leftCol_eq]
    have hlt : (0 + m) % coarseConfig.TH < 4 := Nat.mod_lt _ (by decide)
    have h4 : ∀ k : Nat, k < 4 → (columnsGrid [0, 1, 2, 3] ((0 : Nat) : Int) (k : Int)).IsDrivable
        = true := by decide
    exact h4 _ hlt


theorem scanLeft_flag_cnt (c : Config) (i j m : Nat) (s : ScanState) :
    ((scanLeft c i j m s).left_flag = false →
        s.left_flag = false ∧ (scanLeft c i j m s).cnt = s.cnt + 1)
      ∧ s.cnt ≤ (scanLeft c i j m s).cnt
      ∧ (scanLeft c i j m s).right_flag = s.right_flag := by
  unfold scanLeft
  split_ifs with h1 h2
  · exact ⟨fun _ => ⟨h1, rfl⟩, Nat.le_succ _, rfl⟩
  · exact ⟨fun h => absurd h (by simp), le_refl _, rfl⟩
  · exact ⟨fun h => absurd h h1, le_refl _, rfl⟩

theorem scanRight_flag_cnt (c : Config) (i j m : Nat) (s : ScanState) :
    ((scanRight c i j m s).right_flag = false →
        s.right_flag = false ∧ (scanRight c i j m s).cnt = s.cnt + 1)
      ∧ s.cnt ≤ (scanRight c i j m s).cnt
      ∧ (scanRight c i j m s).left_flag = s.left_flag := by
  unfold scanRight
  split_ifs with h1 h2
  · exact ⟨fun _ => ⟨h1, rfl⟩, Nat.le_succ _, rfl⟩
  · exact ⟨fun h => absurd h (by simp), le_refl _, rfl⟩
  · exact ⟨fun h => absurd h h1, le_refl _, rfl⟩

/-- When some count `K` is wide for ring `i`, every scan of ring `i` ends within `K`
steps, on every grid: while a side is open the count grows with every step. -/
theorem scanLoop_terminates_of_wide (c : Config) (i j K : Nat)
    (hmono : ∀ n n', n ≤ n' → narrow c i n' = true → narrow c i n = true)
    (hwide : narrow c i K = false) :
    ∀ (fuel m : Nat) (s : ScanState),
      ((s.left_flag = false ∨ s.right_flag = false) → m ≤ s.cnt) → m ≤ K →
      K + 1 ≤ fuel + m → ∃ g', scanLoop c i j fuel m s = some g' := by
  intro fuel
  induction fuel with
  | zero => intro m s _ h1 h2; omega
  | succ fuel ih =>
    intro m s hinv hmK hfuel
    rw [scanLoop_succ]
    split_ifs with hn hb
    · exact ⟨_, rfl⟩
    · have hcnt : s.cnt < K := by
        by_contra hh
        have := hmono K s.cnt (by omega) hn
        rw [hwide] at this
        exact absurd this (by simp)
      obtain ⟨l1, l2, l3⟩ := scanLeft_flag_cnt c i j m s
      obtain ⟨r1, r2, r3⟩ := scanRight_flag_cnt c i j m (scanLeft c i j m s)
      have hopen : (scanRight c i j m (scanLeft c i j m s)).left_flag = false
          ∨ (scanRight c i j m (scanLeft c i j m s)).right_flag = false := by
        by_contra hh
        push_neg at hh
        apply hb
        simp only [Bool.not_eq_false] at hh
        rw [hh.1, hh.2]
        rfl
      have hgrow : m + 1 ≤ (scanRight c i j m (scanLeft c i j m s)).cnt := by
        rcases hopen with h | h
        · rw [r3] at h
          obtain ⟨h1, h2⟩ := l1 h
          have := hinv (Or.inl h1)
          omega
        · obtain ⟨h1, h2⟩ := r1 h
          rw [l3] at h1
          have := hinv (Or.inr h1)
          omega
      have hm1 : m + 1 ≤ K := by
        rcases hopen with h | h
        · rw [r3] at h
          have := hinv (Or.inl (l1 h).1)
          omega
        · have h1 := (r1 h).1
          rw [l3] at h1
          have := hinv (Or.inr h1)
          omega
      exact ih (m + 1) _ (fun _ => hgrow) hm1 (by omega)
    · exact ⟨_, rfl⟩

/-- In a ring `i ≥ 1`, with positive radial width and at least one sector, some count is
wide. -/
theorem exists_wide (c : Config) (i : Nat) (hi : 1 ≤ i) (hw : 0 < c.grid_size_r)
    (hTH : 0 < c.TH) : ∃ K, 1 ≤ K ∧ narrow c i K = false := by
  have hpos : 0 < (i : ℚ) * c.grid_size_r * c.grid_size_th := by
    have h1 : (0 : ℚ) < (i : ℚ) := by exact_mod_cast hi
    have h2 : 0 < c.grid_size_th := by
      unfold Config.grid_size_th
      exact div_pos (mul_pos (by norm_num) M_PI_pos) (by exact_mod_cast hTH)
    exact mul_pos (mul_pos h1 hw) h2
  obtain ⟨K, hK⟩ := exists_nat_ge (c.cut_width / ((i : ℚ) * c.grid_size_r * c.grid_size_th))
  refine ⟨K + 1, by omega, ?_⟩
  unfold narrow
  simp only [decide_eq_false_iff_not, not_lt]
  rw [div_le_iff₀ hpos] at hK
  push_cast
  nlinarith

/-- Every scan of a ring `i ≥ 1` ends, on every grid, for a positive radial width and at
least one sector. -/
theorem scan_terminates_outside_ring_zero (c : Config) (i : Nat) (hi : 1 ≤ i)
    (hw : 0 < c.grid_size_r) (hTH : 0 < c.TH) :
    ∃ fuel, ∀ (j : Nat) (g : PolarGrid), ∃ g', clipCell c fuel i j g = some g' := by
  obtain ⟨K, hK1, hK⟩ := exists_wide c i hi hw hTH
  refine ⟨K, fun j g => ?_⟩
  unfold clipCell
  split_ifs
  · exact ⟨_, rfl⟩
  · exact ⟨_, rfl⟩
  · exact scanLoop_terminates_of_wide c i j K (narrow_mono c i hw.le) hK K 1
      (ScanState.start g) (fun _ => le_refl 1) hK1 (by omega)


/-! ## The result of the pass over one ring -/

theorem PassInv_refl (c : Config) (i : Nat) (g : PolarGrid) : PassInv c i g g where
  mono := fun _ _ h => h
  runs := fun _ _ h => h
  keep := fun _ _ _ => rfl
  cutOrKept := fun _ _ h => Or.inl h

/-- A step that changes no drivable flag keeps the state of the pass. -/
theorem PassInv_congr {c : Config} {i : Nat} {g0 g g' : PolarGrid} (inv : PassInv c i g0 g)
    (hsame : ∀ n u, (g' n u).IsDrivable = (g n u).IsDrivable) : PassInv c i g0 g' where
  mono := fun n u h => inv.mono n u (by rwa [hsame] at h)
  runs := fun a N h => inv.runs a N (h.congr (fun t _ => (hsame i t).symm))
  keep := fun n u h => by rw [hsame]; exact inv.keep n u h
  cutOrKept := fun a N h => by
    rcases inv.cutOrKept a N h with h1 | ⟨h1, h2⟩
    · exact Or.inl (h1.congr (fun t _ => hsame i t))
    · exact Or.inr ⟨h1, fun n u hn1 hn2 hu => by rw [hsame]; exact h2 n u hn1 hn2 hu⟩

/-- The cut of the narrow maximal run `(a0, N0)` keeps the state of the pass. -/
theorem PassInv.cut {c : Config} {i : Nat} {g0 g g' : PolarGrid} {a0 N0 : Nat}
    (inv : PassInv c i g0 g) (hiR : i < c.R) (hrun0 : IsMaxRun g c.TH i a0 N0)
    (hn0 : narrow c i N0 = true)
    (hcut : ∀ n u, (i : Int) ≤ n → n < (c.R : Int) → InRun c.TH a0 N0 u →
      (g' n u).IsDrivable = false)
    (hkeep : ∀ n u, ¬ (((i : Int) ≤ n ∧ n < (c.R : Int)) ∧ InRun c.TH a0 N0 u) →
      (g' n u).IsDrivable = (g n u).IsDrivable) : PassInv c i g0 g' := by
  have hle : DrivableLe g g' := by
    intro n u h
    by_cases hc : ((i : Int) ≤ n ∧ n < (c.R : Int)) ∧ InRun c.TH a0 N0 u
    · rw [hcut n u hc.1.1 hc.1.2 hc.2] at h
      exact absurd h (by simp)
    · rwa [hkeep n u hc] at h
  have hcut_i : ∀ u, InRun c.TH a0 N0 u → (g' i u).IsDrivable = false :=
    fun u hu => hcut i u (le_refl _) (by exact_mod_cast hiR) hu
  have hkeep_i : ∀ u, ¬ InRun c.TH a0 N0 u → (g' i u).IsDrivable = (g i u).IsDrivable :=
    fun u hu => hkeep i u (fun hh => hu hh.2)
  refine ⟨fun n u h => inv.mono n u (hle n u h), ?_, ?_, ?_⟩
  · intro a N h
    exact inv.runs a N (maxRun_of_cut hrun0 hcut_i hkeep_i h)
  · intro n u h
    rw [hkeep n u (fun hh => h ⟨hh.1, a0, N0, inv.runs a0 N0 hrun0, hn0, hh.2⟩)]
    exact inv.keep n u h
  · intro a N h
    rcases inv.cutOrKept a N h with h1 | ⟨h1, h2⟩
    · by_cases hshare : ∃ k, k < N ∧ InRun c.TH a0 N0 (runCol c.TH a k)
      · obtain ⟨k, hk, l, hl, e⟩ := hshare
        obtain ⟨rfl, rfl⟩ := maxRun_unique h1 hrun0 k l hk hl e
        exact Or.inr ⟨hn0, hcut⟩
      · push_neg at hshare
        left
        refine ⟨h1.1, h1.2.1, ?_, ?_, ?_⟩
        · intro k hk
          rw [hkeep_i _ (hshare k hk)]
          exact h1.2.2.1 k hk
        · by_contra hh
          have := hle i _ (by simpa using hh)
          rw [h1.2.2.2.1] at this
          exact absurd this (by simp)
        · by_contra hh
          have := hle i _ (by simpa using hh)
          rw [h1.2.2.2.2] at this
          exact absurd this (by simp)
    · refine Or.inr ⟨h1, fun n u hn1 hn2 hu => ?_⟩
      by_contra hh
      have := hle n u (by simpa using hh)
      rw [h2 n u hn1 hn2 hu] at this
      exact absurd this (by simp)

theorem clipCell_PassInv (c : Config) (fuel i j : Nat) (g0 g g' : PolarGrid)
    (hw : 0 ≤ c.grid_size_r) (hmin : c.minRing ≤ (i : Int)) (hiR : i < c.R) (hj : j < c.TH)
    (inv : PassInv c i g0 g) (h : clipCell c fuel i j g = some g') : PassInv c i g0 g' := by
  have hTH : 0 < c.TH := by omega
  by_cases hd : (g i j).IsDrivable = true
  swap
  · have hg : g' = g := by
      unfold clipCell at h
      rw [if_pos (Or.inr (by simpa using hd))] at h
      simp only [Option.some.injEq] at h
      exact h.symm
    subst hg
    exact inv
  by_cases hc : (g i j).IsChecked = true
  · have hg : g' = g := by
      unfold clipCell at h
      rw [if_neg (by rw [hd]; simp; omega), if_pos hc] at h
      simp only [Option.some.injEq] at h
      exact h.symm
    subst hg
    exact inv
  by_cases hring : ∃ t, t < c.TH ∧ (g i t).IsDrivable = false
  · obtain ⟨a0, N0, p0, hrun0, hp0, hj0⟩ := exists_maxRun c g i j hj hd hring
    subst hj0
    have post := clipCell_run c g g' i a0 N0 p0 fuel hw hmin hrun0 hp0 (by simpa using hc) h
    by_cases hn0 : narrow c i N0 = true
    · exact inv.cut hiR hrun0 hn0 (post.cut hn0) (post.keep hn0)
    · exact PassInv_congr inv (post.same (by simpa using hn0))
  · have hall : ∀ t : Nat, t < c.TH → (g i t).IsDrivable = true := by
      intro t ht
      by_contra hh
      exact hring ⟨t, ht, by simpa using hh⟩
    have hfull : ∀ m, (g i (leftCol c j m)).IsDrivable = true := by
      intro m
      rw [leftCol_eq]
      exact hall _ (Nat.mod_lt _ hTH)
    have hsame : ∀ n u, (g' n u).IsDrivable = (g n u).IsDrivable := by
      unfold clipCell at h
      rw [if_neg (by rw [hd]; simp; omega), if_neg hc] at h
      exact scanLoop_full c g i j hfull fuel 1 _ g' (fun _ _ => rfl) rfl h
    exact PassInv_congr inv hsame

/-- The result of the pass over a ring `i` at or beyond the first clipped ring, started on
a grid without checked marks in ring `i`: exactly the rows `i ≤ n < R` of the columns of
the narrow maximal runs of ring `i` are cleared. -/
theorem clipRing_spec (c : Config) (fuel i : Nat) (g g' : PolarGrid)
    (hw : 0 ≤ c.grid_size_r) (hmin : c.minRing ≤ (i : Int)) (hiR : i < c.R)
    (hfresh : ∀ u, (g i u).IsChecked = false) (h : clipRing c fuel i g = some g')
    (n u : Int) :
    (g' n u).IsDrivable = true
      ↔ (g n u).IsDrivable = true
        ∧ ¬ (((i : Int) ≤ n ∧ n < (c.R : Int)) ∧ NarrowCol c g i u) := by
  have inv : PassInv c i g g' :=
    foldlM_range_inv (fun _ G => PassInv c i g G) (fun g j => clipCell c fuel i j g) c.TH
      (fun k b b' hk hb hstep => clipCell_PassInv c fuel i k g b b' hw hmin hiR hk hb hstep)
      g g' (PassInv_refl c i g) h
  have hno := clipRing_no_narrow c fuel i g g' hw hmin hiR hfresh h
  constructor
  · intro hd
    refine ⟨inv.mono n u hd, ?_⟩
    rintro ⟨⟨hn1, hn2⟩, a, N, hrun, hnar, hu⟩
    rcases inv.cutOrKept a N hrun with h1 | ⟨_, h2⟩
    · have := hno a N h1
      rw [hnar] at this
      exact absurd this (by simp)
    · rw [h2 n u hn1 hn2 hu] at hd
      exact absurd hd (by simp)
  · rintro ⟨hd, hnot⟩
    rw [inv.keep n u hnot]
    exact hd

/-- The pass over a ring below the first clipped ring changes nothing. -/
theorem clipRing_below (c : Config) (fuel i : Nat) (g : PolarGrid)
    (hmin : (i : Int) < c.minRing) : clipRing c fuel i g = some g := by
  unfold clipRing
  have hstep : ∀ (j : Nat) (G : PolarGrid), clipCell c fuel i j G = some G := by
    intro j G
    unfold clipCell
    rw [if_pos (Or.inl hmin)]
  generalize List.range c.TH = l
  induction l with
  | nil => rfl
  | cons j l ih =>
    rw [List.foldlM_cons, hstep]
    simpa using ih


/-! ## Width clipping keeps a symmetric grid symmetric -/

/-- Two residues modulo `TH` whose sum is congruent to `TH - 1` are mirror columns. -/
theorem mirror_of_add (TH x y : Nat) (hTH : 0 < TH) (h : (x + y) % TH = TH - 1) :
    y % TH = TH - 1 - x % TH := by
  have hx := Nat.mod_lt x hTH
  have hy := Nat.mod_lt y hTH
  rw [Nat.add_mod] at h
  generalize x % TH = p at *
  generalize y % TH = q at *
  by_cases hlt : p + q < TH
  · rw [Nat.mod_eq_of_lt hlt] at h
    omega
  · rw [Nat.mod_eq_sub_mod (by omega), Nat.mod_eq_of_lt (by omega)] at h
    omega

/-- Cell `m` of the mirrored run is the mirror column of cell `k` of the run, whenever
`k + m` is `N - 1` or `N - 1 + TH`. -/
theorem runCol_mirrorStart (TH a N k m : Nat) (hTH : 0 < TH) (hN : 0 < N)
    (h : k + m = N - 1 ∨ k + m = N - 1 + TH) :
    runCol TH (mirrorStart TH a N) m = mirrorCol TH ((a + k) % TH) := by
  unfold runCol mirrorCol mirrorStart
  congr 1
  apply mirror_of_add TH _ _ hTH
  have hdm := Nat.div_add_mod (a + N - 1) TH
  have hlt := Nat.mod_lt (a + N - 1) hTH
  generalize (a + N - 1) % TH = r at *
  generalize (a + N - 1) / TH = d at *
  rcases h with h | h
  · have e : a + k + (TH - 1 - r + m) = TH - 1 + d * TH := by
      have : TH * d = d * TH := Nat.mul_comm _ _
      omega
    rw [e, Nat.add_mul_mod_self_right, Nat.mod_eq_of_lt (by omega)]
  · have e : a + k + (TH - 1 - r + m) = TH - 1 + (d + 1) * TH := by
      have : TH * d = d * TH := Nat.mul_comm _ _
      have : (d + 1) * TH = d * TH + TH := by ring
      omega
    rw [e, Nat.add_mul_mod_self_right, Nat.mod_eq_of_lt (by omega)]

/-- In a ring with symmetric flags the mirror image of a maximal run is a maximal run. -/
theorem IsMaxRun_mirror {g : PolarGrid} {TH i a N : Nat}
    (hsym : ∀ t : Nat, t < TH → (g i (mirrorCol TH t)).IsDrivable = (g i (t : Int)).IsDrivable)
    (h : IsMaxRun g TH i a N) : IsMaxRun g TH i (mirrorStart TH a N) N := by
  have hTH : 0 < TH := by have := h.1; omega
  have hN := h.lt
  have hN0 := h.2.1
  refine ⟨?_, h.2.1, ?_, ?_, ?_⟩
  · unfold mirrorStart
    omega
  · intro k hk
    rw [runCol_mirrorStart TH a N (N - 1 - k) k hTH h.2.1 (Or.inl (by omega)),
      hsym _ (Nat.mod_lt _ hTH)]
    exact h.2.2.1 (N - 1 - k) (by omega)
  · rw [runCol_mirrorStart TH a N (TH - 1) N hTH h.2.1 (Or.inr (by omega)),
      hsym _ (Nat.mod_lt _ hTH)]
    exact h.2.2.2.2
  · rw [runCol_mirrorStart TH a N N (TH - 1) hTH h.2.1 (Or.inr (by omega)),
      hsym _ (Nat.mod_lt _ hTH)]
    exact h.2.2.2.1

/-- The mirror column of a column of a narrow maximal run is a column of a narrow maximal
run. -/
theorem NarrowCol_mirror {c : Config} {g : PolarGrid} {i : Nat} (hsym : Symmetric c g)
    (t : Nat) (ht : t < c.TH) (h : NarrowCol c g i (t : Int)) :
    NarrowCol c g i (mirrorCol c.TH t) := by
  obtain ⟨a, N, hrun, hnar, k, hk, e⟩ := h
  have hTH : 0 < c.TH := by omega
  refine ⟨mirrorStart c.TH a N, N, IsMaxRun_mirror (fun t ht => hsym i t ht) hrun, hnar, N - 1 - k,
    by omega, ?_⟩
  rw [runCol_mirrorStart c.TH a N k (N - 1 - k) hTH hrun.2.1 (Or.inl (by omega))]
  unfold runCol at e
  have : t = (a + k) % c.TH := by exact_mod_cast e
  rw [← this]

theorem mirrorCol_mirrorCol (TH t : Nat) (ht : t < TH) :
    mirrorCol TH (TH - 1 - t) = (t : Int) := by
  unfold mirrorCol
  congr 1
  omega

theorem NarrowCol_mirror_iff {c : Config} {g : PolarGrid} {i : Nat} (hsym : Symmetric c g)
    (t : Nat) (ht : t < c.TH) :
    NarrowCol c g i (mirrorCol c.TH t) ↔ NarrowCol c g i (t : Int) := by
  constructor
  · intro h
    have := NarrowCol_mirror hsym (c.TH - 1 - t) (by omega) h
    rwa [mirrorCol_mirrorCol c.TH t ht] at this
  · exact NarrowCol_mirror hsym t ht

theorem clipRing_Symmetric (c : Config) (fuel i : Nat) (g g' : PolarGrid)
    (hw : 0 ≤ c.grid_size_r) (hiR : i < c.R) (hfresh : ∀ u, (g i u).IsChecked = false)
    (hsym : Symmetric c g) (h : clipRing c fuel i g = some g') : Symmetric c g' := by
  by_cases hmin : c.minRing ≤ (i : Int)
  · intro n t ht
    rw [Bool.eq_iff_iff, clipRing_spec c fuel i g g' hw hmin hiR hfresh h,
      clipRing_spec c fuel i g g' hw hmin hiR hfresh h, hsym n t ht,
      NarrowCol_mirror_iff hsym t ht]
  · rw [clipRing_below c fuel i g (by omega)] at h
    simp only [Option.some.injEq] at h
    subst h
    exact hsym

/-- Width clipping of a symmetric grid without checked marks yields a symmetric grid. -/
theorem widthClip_Symmetric (c : Config) (fuel : Nat) (g g' : PolarGrid)
    (hw : 0 ≤ c.grid_size_r) (hfresh : ∀ n u, (g n u).IsChecked = false)
    (hsym : Symmetric c g) (h : widthClip c fuel g = some g') : Symmetric c g' := by
  have hend := foldlM_range_inv
    (fun k G => Symmetric c G ∧ ∀ n u, (k : Int) ≤ n → (G n u).IsChecked = false)
    (fun g i => clipRing c fuel i g) c.R
    (fun k b b' hk hb hstep => by
      refine ⟨clipRing_Symmetric c fuel k b b' hw hk (fun u => hb.2 k u (le_refl _)) hb.1
        hstep, ?_⟩
      intro n u hn
      rw [(clipRing_frame c fuel k b b' hstep).2 n u (by push_cast at hn; omega)]
      exact hb.2 n u (by push_cast at hn; omega))
    g g' ⟨hsym, fun n u _ => hfresh n u⟩ h
  exact hend.1


/-! ## Binning conserves the points away from the sensor origin -/

/-- Appending one element to the list of one index of a duplicate-free index list. -/
theorem flatMap_insert_perm {α : Type} (f f' : Nat → List α) (p : α) (k : Nat) :
    ∀ l : List Nat, l.Nodup → k ∈ l → List.Perm (f' k) (p :: f k) →
      (∀ j, j ∈ l → j ≠ k → f' j = f j) →
      List.Perm (l.flatMap f') (p :: l.flatMap f) := by
  intro l
  induction l with
  | nil => intro _ hk; simp at hk
  | cons x xs ih =>
    intro hnd hk hperm hsame
    rw [List.nodup_cons] at hnd
    rw [List.flatMap_cons, List.flatMap_cons]
    by_cases hx : x = k
    · subst hx
      have hrest : xs.flatMap f' = xs.flatMap f := by
        apply List.flatMap_congr
        intro j hj
        exact hsame j (List.mem_cons_of_mem _ hj) (fun e => hnd.1 (e ▸ hj))
      rw [hrest]
      exact hperm.append_right _
    · have hkxs : k ∈ xs := by
        rcases List.mem_cons.mp hk with h | h
        · exact absurd h.symm hx
        · exact h
      rw [hsame x (List.mem_cons_self _ _) hx]
      have := ih hnd.2 hkxs hperm (fun j hj => hsame j (List.mem_cons_of_mem _ hj))
      exact (this.append_left (f x)).trans List.perm_middle

theorem storedPoints_eq (c : Config) (g : PolarGrid) :
    storedPoints c g
      = (List.range c.R).flatMap (fun (i : Nat) =>
          (List.range c.TH).flatMap (fun (j : Nat) => (g i j).grid_cloud_ptr)) := by
  unfold storedPoints windowCells
  rw [List.flatMap_assoc]
  apply List.flatMap_congr
  intro i _
  rw [List.flatMap_def, List.flatMap_def, List.map_map]
  rfl

/-- A push into a cell of the real array adds the point to the stored points. -/
theorem storedPoints_pushPoint (c : Config) (g : PolarGrid) (a t : Int) (p : PointXYZ)
    (ha0 : 0 ≤ a) (ha1 : a < (c.R : Int)) (ht0 : 0 ≤ t) (ht1 : t < (c.TH : Int)) :
    List.Perm (storedPoints c (pushPoint g a t p)) (p :: storedPoints c g) := by
  rw [storedPoints_eq, storedPoints_eq]
  have hcell : ∀ (i j : Nat), (pushPoint g a t p i j).grid_cloud_ptr
      = if (i : Int) = a ∧ (j : Int) = t then (g i j).grid_cloud_ptr ++ [p]
        else (g i j).grid_cloud_ptr := by
    intro i j
    unfold pushPoint
    split_ifs <;> rfl
  apply flatMap_insert_perm _ _ p a.toNat (List.range c.R) (List.nodup_range _)
    (List.mem_range.mpr (by omega))
  · apply flatMap_insert_perm _ _ p t.toNat (List.range c.TH) (List.nodup_range _)
      (List.mem_range.mpr (by omega))
    · rw [hcell, if_pos ⟨by omega, by omega⟩]
      exact List.perm_append_comm
    · intro j _ hj
      rw [hcell, if_neg (by omega)]
  · intro i _ hi
    apply List.flatMap_congr
    intro j _
    rw [hcell, if_neg (by omega)]

theorem storedPoints_emptyGrid (c : Config) : storedPoints c emptyGrid = [] := by
  rw [storedPoints_eq]
  simp [emptyGrid]

theorem binner_fold_conserves (M : Libm) (c : Config) (hR : 1 ≤ c.R) (hTH : 1 ≤ c.TH)
    (hw : 0 < c.grid_size_r) (hacos : ∀ v, 0 ≤ M.acos v ∧ M.acos v ≤ 2 * M_PI)
    (hsqrt : ∀ s, 0 ≤ M.sqrt s) :
    ∀ (cloud : List PointXYZ) (g : PolarGrid),
      (∀ p ∈ cloud, M.sqrt (p.x * p.x + p.y * p.y) ≠ 0
        ∧ Rat.floor (M.sqrt (p.x * p.x + p.y * p.y) / c.grid_size_r) ≤ 2147483647) →
      ∃ g', cloud.foldlM (binPoint M c) g = some g'
        ∧ List.Perm (storedPoints c g') (storedPoints c g ++ cloud) := by
  intro cloud
  induction cloud with
  | nil => intro g _; exact ⟨g, rfl, by simp⟩
  | cons p ps ih =>
    intro g hr
    obtain ⟨a, t, hat, ht0, ht1, ha0, ha1, _⟩ := polarIndex_range M c p hR hTH hw hacos hsqrt
      (hr p (List.mem_cons_self _ _)).1 (hr p (List.mem_cons_self _ _)).2
    obtain ⟨g', hg', hperm⟩ := ih (pushPoint g a t p)
      (fun q hq => hr q (List.mem_cons_of_mem _ hq))
    refine ⟨g', ?_, ?_⟩
    · rw [List.foldlM_cons]
      unfold binPoint
      rw [hat]
      simpa using hg'
    · refine hperm.trans ?_
      have h1 := storedPoints_pushPoint c g a t p ha0 ha1 ht0 ht1
      refine (h1.append_right ps).trans ?_
      simp only [List.cons_append]
      exact List.perm_middle.symm

/-- Away from the sensor origin binning conserves the points: for a cloud without a point
of radius 0 and with radial quotients in the range of `int` (and `sqrt ≥ 0`, `acos` in
`[0, 2π]`, positive bin counts and radial width) the binning has a result, and the points
stored in the `R × TH` cells are a permutation of the input cloud. -/
theorem PolarBinner_conserves (M : Libm) (c : Config) (cloud : List PointXYZ) (hR : 1 ≤ c.R)
    (hTH : 1 ≤ c.TH) (hw : 0 < c.grid_size_r)
    (hacos : ∀ v, 0 ≤ M.acos v ∧ M.acos v ≤ 2 * M_PI) (hsqrt : ∀ s, 0 ≤ M.sqrt s)
    (hr : ∀ p ∈ cloud, M.sqrt (p.x * p.x + p.y * p.y) ≠ 0
      ∧ Rat.floor (M.sqrt (p.x * p.x + p.y * p.y) / c.grid_size_r) ≤ 2147483647) :
    ∃ g', PolarBinner M c cloud = some g' ∧ List.Perm (storedPoints c g') cloud := by
  obtain ⟨g', hg', hperm⟩ := binner_fold_conserves M c hR hTH hw hacos hsqrt cloud emptyGrid hr
  refine ⟨g', hg', ?_⟩
  rwa [storedPoints_emptyGrid, List.nil_append] at hperm


/-! ## The width clipping ends when ring 0 is not scanned -/

/-- A count that is wide for ring 1 is wide for every ring `i ≥ 1`. -/
theorem wide_of_ring_one (c : Config) (i K : Nat) (hi : 1 ≤ i) (hw : 0 ≤ c.grid_size_r)
    (h : narrow c 1 K = false) : narrow c i K = false := by
  unfold narrow at *
  simp only [decide_eq_false_iff_not, not_lt] at *
  refine le_trans h ?_
  have h0 : 0 ≤ c.grid_size_r * c.grid_size_th * (K : ℚ) :=
    mul_nonneg (mul_nonneg hw (grid_size_th_nonneg c)) (Nat.cast_nonneg _)
  have h1 : (1 : ℚ) ≤ (i : ℚ) := by exact_mod_cast hi
  push_cast
  nlinarith

/-- For a positive radial width of at most 1.6 m (so that ring 0 is not scanned) and at
least one sector, the width clipping ends on every grid, also on one with entirely
drivable rings, with a fuel that depends on the configuration only. -/
theorem widthClip_completes (c : Config) (hw : 0 < c.grid_size_r) (hmin : 1 ≤ c.minRing)
    (hTH : 0 < c.TH) : ∃ fuel, ∀ g : PolarGrid, ∃ g', widthClip c fuel g = some g' := by
  obtain ⟨K, hK1, hK⟩ := exists_wide c 1 (le_refl 1) hw hTH
  have hcell : ∀ (i j : Nat) (g : PolarGrid), ∃ g', clipCell c K i j g = some g' := by
    intro i j g
    unfold clipCell
    split_ifs with h1 h2
    · exact ⟨_, rfl⟩
    · exact ⟨_, rfl⟩
    · have hi : 1 ≤ i := by
        push_neg at h1
        omega
      exact scanLoop_terminates_of_wide c i j K (narrow_mono c i hw.le)
        (wide_of_ring_one c i K hi hw.le hK) K 1 (ScanState.start g) (fun _ => le_refl 1) hK1
        (by omega)
  have hring : ∀ (i : Nat) (g : PolarGrid), ∃ g', clipRing c K i g = some g' := by
    intro i g
    obtain ⟨g', h, _⟩ := foldlM_range_some (fun _ _ => True)
      (fun g j => clipCell c K i j g) c.TH
      (fun k b _ _ => by
        obtain ⟨b', hb'⟩ := hcell i k b
        exact ⟨b', hb', trivial⟩)
      g trivial
    exact ⟨g', h⟩
  refine ⟨K, fun g => ?_⟩
  obtain ⟨g', h, _⟩ := foldlM_range_some (fun _ _ => True)
    (fun g i => clipRing c K i g) c.R
    (fun k b _ _ => by
      obtain ⟨b', hb'⟩ := hring k b
      exact ⟨b', hb', trivial⟩)
    g trivial
  exact ⟨g', h⟩

/-! ## The width clipping ends and leaves no narrow corridor -/

/-- One scan ends with fuel `TH` and `K`, where `K ≥ 1` cells are wide in ring 1, unless
ring 0 is scanned and entirely drivable. -/
theorem clipCell_ends (c : Config) (K fuel i j : Nat) (g : PolarGrid)
    (hw : 0 ≤ c.grid_size_r) (hK1 : 1 ≤ K) (hK : narrow c 1 K = false) (hfuelK : K ≤ fuel)
    (hfuelTH : c.TH ≤ fuel) (hj : j < c.TH)
    (hzero : 1 ≤ c.minRing ∨ ∃ t : Nat, t < c.TH ∧ (g 0 t).IsDrivable = false) :
    ∃ g', clipCell c fuel i j g = some g' := by
  rcases Nat.eq_zero_or_pos i with h0 | hpos
  · subst h0
    rcases hzero with h | ⟨t, ht, hnd⟩
    · refine ⟨g, ?_⟩
      unfold clipCell
      rw [if_pos (Or.inl (by push_cast; omega))]
    · exact clipCell_terminates c fuel 0 j g hj ⟨t, ht, by simpa using hnd⟩ hfuelTH
  · unfold clipCell
    split_ifs
    · exact ⟨_, rfl⟩
    · exact ⟨_, rfl⟩
    · exact scanLoop_terminates_of_wide c i j K (narrow_mono c i hw)
        (wide_of_ring_one c i K hpos hw hK) fuel 1 (ScanState.start g) (fun _ => le_refl 1) hK1
        (by omega)

/-- The width clipping ends with fuel `TH` and `K`, where `K ≥ 1` cells are wide in
ring 1, unless ring 0 is scanned and entirely drivable. -/
theorem widthClip_ends (c : Config) (K fuel : Nat) (g : PolarGrid) (hw : 0 ≤ c.grid_size_r)
    (hK1 : 1 ≤ K) (hK : narrow c 1 K = false) (hfuelK : K ≤ fuel) (hfuelTH : c.TH ≤ fuel)
    (hzero : 1 ≤ c.minRing ∨ ∃ t : Nat, t < c.TH ∧ (g 0 t).IsDrivable = false) :
    ∃ g', widthClip c fuel g = some g' := by
  have hkeep : ∀ G G' : PolarGrid, DrivableLe G G' →
      (1 ≤ c.minRing ∨ ∃ t : Nat, t < c.TH ∧ (G 0 t).IsDrivable = false) →
      (1 ≤ c.minRing ∨ ∃ t : Nat, t < c.TH ∧ (G' 0 t).IsDrivable = false) := by
    intro G G' hle h
    rcases h with h | ⟨t, ht, hnd⟩
    · exact Or.inl h
    · refine Or.inr ⟨t, ht, ?_⟩
      by_contra hh
      have := hle 0 t (by simpa using hh)
      rw [hnd] at this
      exact absurd this (by simp)
  have hring : ∀ (i : Nat) (G : PolarGrid),
      (1 ≤ c.minRing ∨ ∃ t : Nat, t < c.TH ∧ (G 0 t).IsDrivable = false) →
      ∃ G', clipRing c fuel i G = some G' := by
    intro i G hG
    obtain ⟨G', h, _⟩ := foldlM_range_some
      (fun _ b => 1 ≤ c.minRing ∨ ∃ t : Nat, t < c.TH ∧ (b 0 t).IsDrivable = false)
      (fun g j => clipCell c fuel i j g) c.TH
      (fun k b hk hb => by
        obtain ⟨b', hb'⟩ := clipCell_ends c K fuel i k b hw hK1 hK hfuelK hfuelTH hk hb
        exact ⟨b', hb', hkeep b b' (clipCell_DrivableLe c fuel i k b b' hb') hb⟩)
      G hG
    exact ⟨G', h⟩
  obtain ⟨g', h, _⟩ := foldlM_range_some
    (fun _ b => 1 ≤ c.minRing ∨ ∃ t : Nat, t < c.TH ∧ (b 0 t).IsDrivable = false)
    (fun g i => clipRing c fuel i g) c.R
    (fun k b _ hb => by
      obtain ⟨b', hb'⟩ := hring k b hb
      exact ⟨b', hb', hkeep b b' (clipRing_DrivableLe c fuel k b b' hb') hb⟩)
    g hzero
  exact ⟨g', h⟩

theorem floor_sub_of_ne (X : ℚ) (T : Int) (h : ((Rat.floor X : Int) : ℚ) ≠ X) :
    Rat.floor ((T : ℚ) - X) = T - 1 - Rat.floor X := by
  have h1 : ((Rat.floor X : Int) : ℚ) ≤ X := Rat.le_floor.mp (le_refl _)
  have h2 : X < ((Rat.floor X + 1 : Int) : ℚ) := by
    by_contra hh
    have := Rat.le_floor.mpr (not_lt.mp hh)
    omega
  have h3 : ((Rat.floor X : Int) : ℚ) < X := lt_of_le_of_ne h1 h
  apply le_antisymm
  · by_contra hh
    have h4 : T - Rat.floor X ≤ Rat.floor ((T : ℚ) - X) := by omega
    have := Rat.le_floor.mp h4
    push_cast at this
    linarith
  · apply Rat.le_floor.mpr
    push_cast at h2 ⊢
    linarith

/-- The sector indices of a point off the sector boundaries and of its mirror image add up
to `TH - 1`. -/
theorem angleIndex_mirror (M : Libm) (c : Config) (x r : ℚ) (neg : Bool) (hTH : 0 < c.TH)
    (hacos : ∀ v, 0 ≤ M.acos v ∧ M.acos v ≤ 2 * M_PI) (hr : r ≠ 0)
    (hoff : ((Rat.floor (M.acos (x / r) / c.grid_size_th) : Int) : ℚ)
      ≠ M.acos (x / r) / c.grid_size_th) :
    ∃ t, angleIndex M c x r neg = some t
      ∧ angleIndex M c x r (!neg) = some ((c.TH : Int) - 1 - t) := by
  have hpi := M_PI_pos
  have hTHq : (0 : ℚ) < (c.TH : ℚ) := by exact_mod_cast hTH
  have hg : c.grid_size_th = 2 * M_PI / (c.TH : ℚ) := rfl
  have hgpos : 0 < c.grid_size_th := by rw [hg]; positivity
  obtain ⟨ha0, ha1⟩ := hacos (x / r)
  unfold angleIndex
  simp only [if_neg hr]
  generalize M.acos (x / r) = th at *
  have hX0 : 0 ≤ th / c.grid_size_th := div_nonneg ha0 hgpos.le
  have hX1 : th / c.grid_size_th ≤ (c.TH : ℚ) := by
    have e : th / c.grid_size_th = th * (c.TH : ℚ) / (2 * M_PI) := by
      rw [hg]
      field_simp
    rw [e, div_le_iff₀ (by positivity)]
    nlinarith [mul_le_mul_of_nonneg_right ha1 hTHq.le]
  have hsub : (2 * M_PI - th) / c.grid_size_th = ((c.TH : Int) : ℚ) - th / c.grid_size_th := by
    rw [hg]
    push_cast
    field_simp
    ring
  have hk0 : 0 ≤ Rat.floor (th / c.grid_size_th) := Rat.le_floor.mpr (by simpa using hX0)
  have hk1 : Rat.floor (th / c.grid_size_th) < (c.TH : Int) := by
    have h1 : ((Rat.floor (th / c.grid_size_th) : Int) : ℚ) ≤ th / c.grid_size_th :=
      Rat.le_floor.mp (le_refl _)
    have h2 : ((Rat.floor (th / c.grid_size_th) : Int) : ℚ) < th / c.grid_size_th :=
      lt_of_le_of_ne h1 hoff
    have : ((Rat.floor (th / c.grid_size_th) : Int) : ℚ) < ((c.TH : Int) : ℚ) := by
      push_cast
      linarith
    exact_mod_cast this
  have hA : Int.tmod (Rat.floor (th / c.grid_size_th)) (c.TH : Int)
      = Rat.floor (th / c.grid_size_th) := by
    rw [Int.tmod_eq_emod hk0 (by omega)]
    exact Int.emod_eq_of_lt hk0 hk1
  have hB : Int.tmod (Rat.floor ((2 * M_PI - th) / c.grid_size_th)) (c.TH : Int)
      = (c.TH : Int) - 1 - Rat.floor (th / c.grid_size_th) := by
    rw [hsub, floor_sub_of_ne _ _ hoff, Int.tmod_eq_emod (by omega) (by omega)]
    exact Int.emod_eq_of_lt (by omega) (by omega)
  cases neg
  · refine ⟨_, rfl, ?_⟩
    simp only [Bool.not_false, if_true, Bool.false_eq_true, if_false, hA, hB]
  · refine ⟨_, rfl, ?_⟩
    simp only [Bool.not_true, if_true, Bool.false_eq_true, if_false, hA, hB]
    congr 1
    omega

/-- One step of the rebinning of the mirrored cloud. -/
theorem rebinPoint_mirror (M : Libm) (c : Config) (O O' O1 : Sectors) (p : PointXYZ)
    (hTH : 0 < c.TH) (hacos : ∀ v, 0 ≤ M.acos v ∧ M.acos v ≤ 2 * M_PI)
    (hoff : ¬ (c.x_backward = 0 ∧ p.x < 0) → OffBoundary M c p)
    (hrel : ∀ t : Int, O' t = (O ((c.TH : Int) - 1 - t)).map mirror)
    (h : rebinPoint M c O p = some O1) :
    ∃ O1', rebinPoint M c O' (mirror p) = some O1'
      ∧ ∀ t : Int, O1' t = (O1 ((c.TH : Int) - 1 - t)).map mirror := by
  unfold rebinPoint at h ⊢
  have hx : (mirror p).x = p.x := rfl
  have hy : (mirror p).y = -p.y := rfl
  rw [hx, hy, neg_mul_neg]
  by_cases hskip : c.x_backward = 0 ∧ p.x < 0
  · rw [if_pos hskip] at h ⊢
    simp only [Option.some.injEq] at h
    subst h
    exact ⟨O', rfl, hrel⟩
  · rw [if_neg hskip] at h ⊢
    have hoff := hoff hskip
    have hr : M.sqrt (p.x * p.x + p.y * p.y) ≠ 0 := by
      intro h0
      unfold angleIndex at h
      rw [if_pos h0] at h
      simp at h
    have hneg : decide (-p.y < 0) = !decide (p.y < 0) := by
      have := hoff.1
      rcases lt_or_gt_of_ne this with h1 | h1
      · simp [h1, not_lt.mpr h1.le]
      · simp [h1, not_lt.mpr h1.le]
    obtain ⟨t0, e1, e2⟩ := angleIndex_mirror M c p.x _ (decide (p.y < 0)) hTH hacos hr hoff.2
    rw [hneg, e2]
    rw [e1] at h
    simp only [Option.map_some', Option.some.injEq] at h ⊢
    subst h
    refine ⟨_, rfl, ?_⟩
    intro t
    by_cases ht : t = (c.TH : Int) - 1 - t0
    · show (if t = (c.TH : Int) - 1 - t0 then O' t ++ [mirror p] else O' t)
        = (if (c.TH : Int) - 1 - t = t0 then O ((c.TH : Int) - 1 - t) ++ [p]
            else O ((c.TH : Int) - 1 - t)).map mirror
      rw [if_pos ht, if_pos (show (c.TH : Int) - 1 - t = t0 by omega), hrel, List.map_append]
      rfl
    · show (if t = (c.TH : Int) - 1 - t0 then O' t ++ [mirror p] else O' t)
        = (if (c.TH : Int) - 1 - t = t0 then O ((c.TH : Int) - 1 - t) ++ [p]
            else O ((c.TH : Int) - 1 - t)).map mirror
      rw [if_neg ht, if_neg (show ¬ (c.TH : Int) - 1 - t = t0 by omega), hrel]

theorem rebin_fold_mirror (M : Libm) (c : Config) (hTH : 0 < c.TH)
    (hacos : ∀ v, 0 ≤ M.acos v ∧ M.acos v ≤ 2 * M_PI) :
    ∀ (cloud : List PointXYZ) (O O' S : Sectors),
      (∀ p ∈ cloud, ¬ (c.x_backward = 0 ∧ p.x < 0) → OffBoundary M c p) →
      (∀ t : Int, O' t = (O ((c.TH : Int) - 1 - t)).map mirror) →
      cloud.foldlM (rebinPoint M c) O = some S →
      ∃ S', (cloud.map mirror).foldlM (rebinPoint M c) O' = some S'
        ∧ ∀ t : Int, S' t = (S ((c.TH : Int) - 1 - t)).map mirror := by
  intro cloud
  induction cloud with
  | nil =>
    intro O O' S _ hrel h
    simp only [List.foldlM_nil, Option.pure_def, Option.some.injEq] at h
    subst h
    exact ⟨O', rfl, hrel⟩
  | cons p ps ih =>
    intro O O' S hoff hrel h
    rw [List.foldlM_cons] at h
    cases h1 : rebinPoint M c O p with
    | none => rw [h1] at h; simp at h
    | some O1 =>
      rw [h1] at h
      obtain ⟨O1', e1, hrel1⟩ := rebinPoint_mirror M c O O' O1 p hTH hacos
        (hoff p (List.mem_cons_self _ _)) hrel h1
      obtain ⟨S', e2, hrel2⟩ := ih O1 O1' S
        (fun q hq => hoff q (List.mem_cons_of_mem _ hq)) hrel1 (by simpa using h)
      refine ⟨S', ?_, hrel2⟩
      rw [List.map_cons, List.foldlM_cons, e1]
      simpa using e2

/-- One step of the rebinning appends the point to its sector, if it passes the guard. -/
theorem rebinPoint_sector (M : Libm) (c : Config) (O O1 : Sectors) (p : PointXYZ)
    (h : rebinPoint M c O p = some O1) (t : Int) :
    O1 t = O t ++ [p].filter (inSector M c t) := by
  unfold rebinPoint at h
  by_cases hskip : c.x_backward = 0 ∧ p.x < 0
  · rw [if_pos hskip] at h
    simp only [Option.some.injEq] at h
    subst h
    have hb : inSector M c t p = false := by
      unfold inSector
      rw [decide_eq_true hskip]
      rfl
    rw [List.filter_cons_of_neg (by rw [hb]; simp)]
    simp
  · rw [if_neg hskip] at h
    cases ha : angleIndex M c p.x (M.sqrt (p.x * p.x + p.y * p.y)) (decide (p.y < 0)) with
    | none => rw [ha] at h; simp at h
    | some t0 =>
      rw [ha] at h
      simp only [Option.map_some', Option.some.injEq] at h
      subst h
      have hb : inSector M c t p = decide (t0 = t) := by
        unfold inSector sectorOf
        rw [decide_eq_false hskip, ha]
        simp
      by_cases ht : t = t0
      · subst ht
        rw [List.filter_cons_of_pos (by rw [hb]; simp)]
        simp
      · have ht2 : ¬ t0 = t := fun e => ht e.symm
        rw [List.filter_cons_of_neg (by rw [hb]; simp [ht2])]
        simp [ht]

/-- Sector `t` of the rebinned cloud holds, in the order of the cloud, the points that pass
the guard and land in sector `t`. -/
theorem rebin_fold_sector (M : Libm) (c : Config) :
    ∀ (cloud : List PointXYZ) (O S : Sectors), cloud.foldlM (rebinPoint M c) O = some S →
      ∀ t : Int, S t = O t ++ cloud.filter (inSector M c t) := by
  intro cloud
  induction cloud with
  | nil =>
    intro O S h t
    simp only [List.foldlM_nil, Option.pure_def, Option.some.injEq] at h
    subst h
    simp
  | cons p ps ih =>
    intro O S h t
    rw [List.foldlM_cons] at h
    cases h1 : rebinPoint M c O p with
    | none => rw [h1] at h; simp at h
    | some O1 =>
      rw [h1] at h
      rw [ih O1 S (by simpa using h) t, rebinPoint_sector M c O O1 p h1 t, List.append_assoc,
        ← List.filter_append]
      rfl

theorem rebin_sector (M : Libm) (c : Config) (cloud : List PointXYZ) (S : Sectors)
    (h : rebin M c cloud = some S) (t : Int) : S t = cloud.filter (inSector M c t) := by
  rw [rebin_fold_sector M c cloud _ S h t]
  rfl

theorem rebin_mem (M : Libm) (c : Config) (cloud : List PointXYZ) (S : Sectors)
    (h : rebin M c cloud = some S) (t : Int) (p : PointXYZ) (hp : p ∈ S t) : p ∈ cloud := by
  rw [rebin_sector M c cloud S h t] at hp
  exact (List.mem_filter.mp hp).1

/-- A cloud that is invariant under the mirror and off the sector boundaries has mirror
sectors that hold the mirror images of each other's points, in some order. -/
theorem rebin_mirror_perm (M : Libm) (c : Config) (cloud : List PointXYZ) (S : Sectors)
    (hacos : ∀ v, 0 ≤ M.acos v ∧ M.acos v ≤ 2 * M_PI)
    (hinv : List.Perm (cloud.map mirror) cloud)
    (hoff : ∀ p ∈ cloud, ¬ (c.x_backward = 0 ∧ p.x < 0) → OffBoundary M c p)
    (hrebin : rebin M c cloud = some S) (t : Nat) (ht : t < c.TH) :
    List.Perm (S (mirrorCol c.TH t)) ((S (t : Int)).map mirror) := by
  obtain ⟨S', e, hrel⟩ := rebin_fold_mirror M c (by omega) hacos cloud (fun _ => [])
    (fun _ => []) S hoff (fun _ => rfl) hrebin
  have h1 : S' (mirrorCol c.TH t) = (S (t : Int)).map mirror := by
    rw [hrel]
    unfold mirrorCol
    congr 2
    omega
  rw [← h1, rebin_sector M c cloud S hrebin, rebin_sector M c (cloud.map mirror) S' e]
  exact (hinv.filter _).symm


/-! ## Boundary extraction on mirrored sectors -/

/-- The cutoff row selected in a sector and in a sector that holds the mirror images of its
points, in any order, is the same, if points of the sector with the same score have the
same radial index. -/
theorem cutoff_mirror_perm (M : Libm) (c : Config) (A B : List PointXYZ)
    (hperm : List.Perm B (A.map mirror))
    (htie : ∀ p q, p ∈ A → q ∈ A → |p.x| + |p.y| = |q.x| + |q.y| →
      Rat.floor (M.sqrt (p.x * p.x + p.y * p.y) / c.grid_size_r)
        = Rat.floor (M.sqrt (q.x * q.x + q.y * q.y) / c.grid_size_r))
    (kA kB : Nat) (pA pB : PointXYZ) (hA : IsNearest A kA pA) (hB : IsNearest B kB pB) :
    Rat.floor (M.sqrt (pB.x * pB.x + pB.y * pB.y) / c.grid_size_r)
      = Rat.floor (M.sqrt (pA.x * pA.x + pA.y * pA.y) / c.grid_size_r) := by
  have hpA : pA ∈ A := List.mem_iff_getElem?.mpr ⟨kA, hA.1⟩
  have hpB : pB ∈ B := List.mem_iff_getElem?.mpr ⟨kB, hB.1⟩
  obtain ⟨q, hq, hqB⟩ := List.mem_map.mp (hperm.subset hpB)
  have hmA : mirror pA ∈ B := hperm.symm.subset (List.mem_map_of_mem _ hpA)
  have h1 := hA.2.1 q hq
  have h2 := hB.2.1 (mirror pA) hmA
  subst hqB
  have ex : ∀ p : PointXYZ, (mirror p).x = p.x := fun _ => rfl
  have ey : ∀ p : PointXYZ, |(mirror p).y| = |p.y| := fun p => by
    show |(-p.y)| = |p.y|
    exact abs_neg _
  have er : ∀ p : PointXYZ, (mirror p).x * (mirror p).x + (mirror p).y * (mirror p).y
      = p.x * p.x + p.y * p.y := by
    intro p
    unfold mirror
    ring
  rw [ex, ey, ex, ey] at h2
  rw [er]
  exact htie q pA hq hpA (le_antisymm h2 h1)

/-- Mirrored sectors get the same number of drivable rows. -/
theorem sectorRows_mirror (M : Libm) (c : Config) (obstacle : Sectors)
    (hTH4 : c.x_backward ≠ 0 ∨ 4 ∣ c.TH)
    (hS : ∀ t : Nat, t < c.TH →
      List.Perm (obstacle (mirrorCol c.TH t)) ((obstacle (t : Int)).map mirror))
    (htie : ∀ (t : Int) (p q : PointXYZ), p ∈ obstacle t → q ∈ obstacle t →
      |p.x| + |p.y| = |q.x| + |q.y| →
      Rat.floor (M.sqrt (p.x * p.x + p.y * p.y) / c.grid_size_r)
        = Rat.floor (M.sqrt (q.x * q.x + q.y * q.y) / c.grid_size_r))
    (j : Nat) (hj : j < c.TH) :
    sectorRows M c obstacle (c.TH - 1 - j) = sectorRows M c obstacle j := by
  have hskip : (c.x_backward = 0 ∧ (c.TH / 4 ≤ c.TH - 1 - j ∧ c.TH - 1 - j < c.TH / 4 * 3))
      ↔ (c.x_backward = 0 ∧ (c.TH / 4 ≤ j ∧ j < c.TH / 4 * 3)) := by
    rcases hTH4 with h | ⟨q, hq⟩
    · simp [h]
    · rw [hq] at hj ⊢
      have : 4 * q / 4 = q := by omega
      rw [this]
      constructor <;> rintro ⟨h0, h1, h2⟩ <;> exact ⟨h0, by omega, by omega⟩
  have hperm : List.Perm (obstacle ((c.TH - 1 - j : Nat) : Int))
      ((obstacle (j : Int)).map mirror) := hS j hj
  by_cases hs : c.x_backward = 0 ∧ (c.TH / 4 ≤ j ∧ j < c.TH / 4 * 3)
  · unfold sectorRows
    rw [if_pos (hskip.mpr hs), if_pos hs]
  · have hs2 : ¬ (c.x_backward = 0 ∧ (c.TH / 4 ≤ c.TH - 1 - j ∧ c.TH - 1 - j < c.TH / 4 * 3)) :=
      fun h => hs (hskip.mp h)
    by_cases hA : obstacle (j : Int) = []
    · have hB : obstacle ((c.TH - 1 - j : Nat) : Int) = [] := by
        rw [hA] at hperm
        exact List.Perm.eq_nil hperm
      unfold sectorRows
      rw [if_neg hs2, if_neg hs, hA, hB]
    · have hB : obstacle ((c.TH - 1 - j : Nat) : Int) ≠ [] := by
        intro h
        rw [h] at hperm
        exact hA (List.map_eq_nil_iff.mp (List.Perm.eq_nil hperm.symm))
      obtain ⟨kA, pA, hnA⟩ := exists_nearest _ hA
      obtain ⟨kB, pB, hnB⟩ := exists_nearest _ hB
      rw [sectorRows_nearest M c obstacle _ kB pB hs2 hnB,
        sectorRows_nearest M c obstacle j kA pA hs hnA,
        cutoff_mirror_perm M c _ _ hperm (htie (j : Int)) kA kB pA pB hnA hnB]

/-- Boundary extraction on mirrored sectors, from a grid without drivable flags, yields a
symmetric grid. -/
theorem extract_Symmetric (M : Libm) (c : Config) (obstacle : Sectors) (g : PolarGrid)
    (hTH4 : c.x_backward ≠ 0 ∨ 4 ∣ c.TH)
    (hS : ∀ t : Nat, t < c.TH →
      List.Perm (obstacle (mirrorCol c.TH t)) ((obstacle (t : Int)).map mirror))
    (htie : ∀ (t : Int) (p q : PointXYZ), p ∈ obstacle t → q ∈ obstacle t →
      |p.x| + |p.y| = |q.x| + |q.y| →
      Rat.floor (M.sqrt (p.x * p.x + p.y * p.y) / c.grid_size_r)
        = Rat.floor (M.sqrt (q.x * q.x + q.y * q.y) / c.grid_size_r))
    (hfresh : ∀ n u, (g n u).IsDrivable = false) :
    Symmetric c (SectorBoundaryExtractor M c obstacle g) := by
  intro n t ht
  unfold mirrorCol
  rw [extract_IsDrivable M c obstacle g (c.TH - 1 - t) (by omega),
    extract_IsDrivable M c obstacle g t ht, sectorRows_mirror M c obstacle hTH4 hS htie t ht,
    hfresh, hfresh]


/-! ## Left/right symmetry of the drivable set -/

/-- Width clipping leaves the rings below the first clipped ring as they are. -/
theorem widthClip_below (c : Config) (fuel : Nat) (g g' : PolarGrid)
    (h : widthClip c fuel g = some g') (n u : Int) (hn : n < c.minRing) :
    (g' n u).IsDrivable = (g n u).IsDrivable := by
  have := foldlM_option_rel
    (fun G G' : PolarGrid => ∀ n u, n < c.minRing → (G' n u).IsDrivable = (G n u).IsDrivable)
    (fun _ _ _ _ => rfl) (fun _ _ _ h1 h2 n u hn => (h2 n u hn).trans (h1 n u hn))
    (fun g i => clipRing c fuel i g)
    (fun b i b' hb n u hn => by
      by_cases hmin : c.minRing ≤ (i : Int)
      · exact (clipRing_frame c fuel i b b' hb).1 n u (by omega)
      · have hb2 : clipRing c fuel i b = some b' := hb
        rw [clipRing_below c fuel i b (by omega)] at hb2
        simp only [Option.some.injEq] at hb2
        subst hb2
        rfl)
    _ g g' h
  exact this n u hn

theorem exampleLibm_acos_range (v : ℚ) :
    0 ≤ exampleLibm.acos v ∧ exampleLibm.acos v ≤ 2 * M_PI := by
  unfold exampleLibm M_PI
  dsimp only
  split_ifs <;> constructor <;> norm_num

theorem some_getD_of_isSome {α : Type} (o : Option α) (d : α) (h : o.isSome = true) :
    o = some (o.getD d) := by
  cases o with
  | none => simp at h
  | some a => rfl

theorem rebin_axisPoint :
    rebin exampleLibm defaultConfig [axisPoint]
      = some (fun t2 => if t2 = 0 then [] ++ [axisPoint] else []) := by
  have ha : angleIndex exampleLibm defaultConfig axisPoint.x
      (exampleLibm.sqrt (axisPoint.x * axisPoint.x + axisPoint.y * axisPoint.y))
      (decide (axisPoint.y < 0)) = some 0 := by decide!
  unfold rebin
  rw [List.foldlM_cons]
  unfold rebinPoint
  rw [if_neg (by decide!), ha]
  rfl

/-- The pipeline of sector rebinning, boundary extraction and width clipping yields a
symmetric grid for a mirror-invariant cloud off the sector boundaries in which points of
one sector with the same score have the same radial index. -/
theorem pipeline_Symmetric (M : Libm) (c : Config) (cloud : List PointXYZ) (S : Sectors)
    (g g' : PolarGrid) (fuel : Nat) (hTH4 : c.x_backward ≠ 0 ∨ 4 ∣ c.TH)
    (hw : 0 ≤ c.grid_size_r) (hacos : ∀ v, 0 ≤ M.acos v ∧ M.acos v ≤ 2 * M_PI)
    (hinv : List.Perm (cloud.map mirror) cloud)
    (hoff : ∀ p ∈ cloud, ¬ (c.x_backward = 0 ∧ p.x < 0) → OffBoundary M c p)
    (hrebin : rebin M c cloud = some S)
    (htie : ∀ (t : Int) (p q : PointXYZ), p ∈ S t → q ∈ S t →
      |p.x| + |p.y| = |q.x| + |q.y| →
      Rat.floor (M.sqrt (p.x * p.x + p.y * p.y) / c.grid_size_r)
        = Rat.floor (M.sqrt (q.x * q.x + q.y * q.y) / c.grid_size_r))
    (hdrv : ∀ n u, (g n u).IsDrivable = false) (hchk : ∀ n u, (g n u).IsChecked = false)
    (hclip : widthClip c fuel (SectorBoundaryExtractor M c S g) = some g') :
    Symmetric c g' :=
  widthClip_Symmetric c fuel _ g' hw
    (fun n u => by rw [extract_IsChecked]; exact hchk n u)
    (extract_Symmetric M c S g hTH4
      (rebin_mirror_perm M c cloud S hacos hinv hoff hrebin) htie hdrv)
    hclip

theorem pair_rebin_isSome : (rebin exampleLibm pairConfig pairCloud).isSome = true := by
  decide!

theorem pair_clip_isSome :
    (widthClip pairConfig 8
      (SectorBoundaryExtractor exampleLibm pairConfig pairSectors emptyGrid)).isSome
      = true := by decide!

theorem tie_rebin_isSome : (rebin exampleLibm pairConfig tieCloud).isSome = true := by
  decide!

theorem tie_clip_isSome :
    (widthClip pairConfig 8
      (SectorBoundaryExtractor exampleLibm pairConfig tieSectors emptyGrid)).isSome
      = true := by decide!

theorem six_clip_isSome :
    (widthClip sixConfig 6
      (SectorBoundaryExtractor exampleLibm sixConfig (fun _ => []) emptyGrid)).isSome
      = true := by decide!

theorem pairCloud_perm : List.Perm (pairCloud.map mirror) pairCloud := by
  have h : pairCloud.map mirror = pairCloud.reverse := by decide!
  rw [h]
  exact List.reverse_perm _

theorem tieCloud_perm : List.Perm (tieCloud.map mirror) tieCloud := by
  have h : tieCloud.map mirror = tieCloud.reverse := by decide!
  rw [h]
  exact List.reverse_perm _

end LidarGrid
